import Mathlib

/-! # Slab allocator of `kernel/slab.c`

A shallow embedding of the slab allocator (size-class front end, caches, slabs,
intrusive freelist and the debug layer, built with `SLAB_DEBUG = 1`) and the
properties proved about it.

Representation choices.
* Addresses and machine integers are natural numbers; `uint` arithmetic that can
  wrap is reduced modulo `2 ^ 32` explicitly.
* The three `struct` types keep their field names.  Records live in maps indexed
  by their address (`struct slab` at the page base, `struct slabobj_hdr` at
  `obj - sizeof(struct slabobj_hdr)`, `struct kmem_cache` at its page).
* Payload and guard bytes, and the freelist link that `slab_new` and
  `kmem_cache_free` store in the first `sizeof(void *)` bytes of a free payload,
  live in one byte-addressed memory.
* The singly linked slab lists threaded through `slab.next` are the lists of slab
  addresses in link order: `list_push` is `cons`, `list_remove` unlinks the first
  occurrence.
* `panic` and a dereference of a null pointer end an operation with a `Fault`.
-/

namespace SlabAlloc

/-! ## Constants -/

def SLAB_MAGIC : Nat := 0x51AB
def CACHE_DEFAULT_ALIGN : Nat := 16
def RZ_BYTES : Nat := 16
def PAT_ALLOC : Nat := 0xA5
def PAT_FREE : Nat := 0xCC
def PAT_RZ : Nat := 0xDE

/-- Modelled from the spec: `PGSIZE` of `riscv.h` (absent from the sources), the
fixed page size of the page supplier, 4096 bytes. -/
def PGSIZE : Nat := 4096

/-- The value of `sizeof(struct slabobj_hdr)` on the 64-bit target: an 8-byte
pointer, two `ushort` and one `uchar`, padded to the pointer alignment. -/
def SIZEOF_HDR : Nat := 16

/-- The value of `sizeof(struct slab)` on the 64-bit target: five 8-byte pointers
and four 4-byte `uint`. -/
def SIZEOF_SLAB : Nat := 56

/-- The value of `sizeof(void *)` on the 64-bit target. -/
def SIZEOF_PTR : Nat := 8

/-- Reduction of a value to the range of `uint`. -/
def u32 (n : Nat) : Nat := n % 2 ^ 32

/-- `maxu(a, b)`. -/
def maxu (a b : Nat) : Nat := if a > b then a else b

/-- Decrement of a `uint`: `0 - 1` wraps to `2 ^ 32 - 1`. -/
def u32_dec (n : Nat) : Nat := if n = 0 then 2 ^ 32 - 1 else n - 1

/-- `align_up(n, a) = (n + a - 1) & ~(a - 1)` on `uint`. -/
def align_up (n a : Nat) : Nat :=
  Nat.land (u32_dec (u32 (n + a))) (2 ^ 32 - 1 - u32_dec (u32 a))

/-! ## Size classes -/

def size_classes : List Nat := [8, 16, 32, 64, 128, 256, 512, 1024, 2048]

def N_CLASS : Nat := size_classes.length

/-- The loop of `class_index_for`, from index `i` on over the rest of the table. -/
def class_index_from (size : Nat) : List Nat → Nat → Int
  | [], _ => -1
  | c :: cs, i => if size ≤ c then (i : Int) else class_index_from size cs (i + 1)

/-- `class_index_for(size)`: the first index whose class holds `size`, or `-1`. -/
def class_index_for (size : Nat) : Int := class_index_from size size_classes 0

/-! ## Data model -/

/-- Outcomes that end an operation abnormally. -/
inductive Fault where
  | corrupt_double_alloc
  | double_free_uaf
  | tail_oob_write
  | div_by_zero
  | null_deref
deriving DecidableEq, Repr

/-- Byte-addressed memory. -/
abbrev Mem := Nat → Nat

/-- A constructor or destructor hook `void (*)(void *)`: its effect on memory. -/
abbrev Hook := Nat → Mem → Mem

/-- The record `struct slabobj_hdr`. -/
structure slabobj_hdr where
  slab : Nat
  idx : Nat
  magic : Nat
  state : Nat

/-- The record `struct slab`; the link `next` is carried by the slab lists. -/
structure slab where
  cache : Nat
  page : Nat
  mem : Nat
  objsize : Nat
  stride : Nat
  nr_objs : Nat
  nr_free : Nat
  free_head : Nat

/-- The record `struct kmem_cache`; each list holds slab addresses in link order. -/
structure kmem_cache where
  objsize : Nat
  align : Nat
  ctor : Option Hook
  dtor : Option Hook
  partial_ : List Nat
  full : List Nat
  empty : List Nat

/-- The allocator state: the page supplier's free pages, the three record heaps,
byte memory and the table `class_cache`. -/
structure State where
  freepages : List Nat
  caches : Nat → kmem_cache
  slabs : Nat → slab
  hdrs : Nat → slabobj_hdr
  mem : Mem
  class_cache : Nat → Nat

/-- Replace one entry of a map. -/
def upd {α : Type} (f : Nat → α) (a : Nat) (v : α) : Nat → α :=
  fun x => if x = a then v else f x

/-- `memset(a, v, n)`. -/
def memset (m : Mem) (a v n : Nat) : Mem :=
  fun x => if a ≤ x ∧ x < a + n then v % 256 else m x

/-- Store of a pointer: eight bytes, little endian. -/
def store64 (m : Mem) (a v : Nat) : Mem :=
  fun x => if a ≤ x ∧ x < a + SIZEOF_PTR then v / 256 ^ (x - a) % 256 else m x

/-- Load of a pointer: eight bytes, little endian. -/
def load64 (m : Mem) (a : Nat) : Nat :=
  m a % 256 + 256 * (m (a + 1) % 256 + 256 * (m (a + 2) % 256 + 256 * (m (a + 3) % 256 +
    256 * (m (a + 4) % 256 + 256 * (m (a + 5) % 256 + 256 * (m (a + 6) % 256 +
    256 * (m (a + 7) % 256)))))))

/-- Head pointer of a slab list, null when the list is empty. -/
def list_head (l : List Nat) : Nat := l.headD 0

/-- `list_push(&head, s)`. -/
def list_push (l : List Nat) (s : Nat) : List Nat := s :: l

/-- `list_remove(&head, s)`. -/
def list_remove (l : List Nat) (s : Nat) : List Nat := l.erase s

/-! ## Page supplier -/

/-- Modelled from the spec: `kalloc` of the page supplier (absent from the
sources) hands out one free page, or null when it is exhausted. -/
def kalloc (st : State) : Nat × State :=
  match st.freepages with
  | [] => (0, st)
  | p :: ps => (p, { st with freepages := ps })

/-- Modelled from the spec: `kfree` of the page supplier (absent from the
sources) takes a page back. -/
def kfree (st : State) (page : Nat) : State :=
  { st with freepages := page :: st.freepages }

/-! ## Slab construction -/

/-- Stride computed by `slab_new` for a cache with the given size and alignment. -/
def slab_stride (objsize align : Nat) : Nat :=
  align_up (u32 (SIZEOF_HDR + objsize + RZ_BYTES))
    (maxu (if align ≠ 0 then align else CACHE_DEFAULT_ALIGN) SIZEOF_PTR)

/-- Address of the object of slot `i` in the slab at `s`. -/
def slot_obj (s stride i : Nat) : Nat := s + SIZEOF_SLAB + u32 (i * stride) + SIZEOF_HDR

/-- The first `n` iterations of the freelist loop of `slab_new`, on headers,
memory and `free_head`. -/
def slab_init (s objsize stride : Nat) : Nat → (Nat → slabobj_hdr) × Mem × Nat →
    (Nat → slabobj_hdr) × Mem × Nat
  | 0, acc => acc
  | n + 1, acc =>
    let r := slab_init s objsize stride n acc
    let slot := s + SIZEOF_SLAB + u32 (n * stride)
    let obj := slot + SIZEOF_HDR
    let hd : slabobj_hdr := { slab := s, idx := n % 2 ^ 16, magic := SLAB_MAGIC, state := 0 }
    let m1 := memset r.2.1 (obj + objsize) PAT_RZ RZ_BYTES
    (upd r.1 slot hd, store64 m1 obj r.2.2, obj)

/-- `slab_new(c)`: the new state and the slab, null on failure. -/
def slab_new (st : State) (c : Nat) : Except Fault (State × Nat) :=
  let page := (kalloc st).1
  let st1 := (kalloc st).2
  if page = 0 then .ok (st1, 0) else
  let cc := st1.caches c
  let sl0 : slab := { st1.slabs page with cache := c, page := page }
  let st2 : State := { st1 with slabs := upd st1.slabs page sl0 }
  let stride := slab_stride cc.objsize cc.align
  let space := PGSIZE - SIZEOF_SLAB
  if stride = 0 then .error .div_by_zero else
  let nobj := space / stride
  if nobj = 0 then .ok (kfree st2 page, 0) else
  let r := slab_init page cc.objsize stride nobj (st2.hdrs, st2.mem, 0)
  let sl : slab :=
    { cache := c, page := page, mem := page + SIZEOF_SLAB, objsize := cc.objsize,
      stride := stride, nr_objs := nobj, nr_free := nobj, free_head := r.2.2 }
  .ok ({ st2 with slabs := upd st2.slabs page sl, hdrs := r.1, mem := r.2.1 }, page)

/-! ## Cache interface -/

/-- `kmem_cache_create(name, objsize, ctor, dtor, align)`: the new state and the
cache, null when the supplier has no page for the control block. -/
def kmem_cache_create (st : State) (objsize : Nat) (ctor dtor : Option Hook)
    (align : Nat) : State × Nat :=
  let c := (kalloc st).1
  let st1 := (kalloc st).2
  if c = 0 then (st1, 0) else
  let cc : kmem_cache :=
    { objsize := objsize, align := if align ≠ 0 then align else CACHE_DEFAULT_ALIGN,
      ctor := ctor, dtor := dtor, partial_ := [], full := [], empty := [] }
  ({ st1 with caches := upd st1.caches c cc }, c)

/-- Run an optional hook on an object. -/
def run_hook (h : Option Hook) (obj : Nat) (m : Mem) : Mem :=
  match h with
  | none => m
  | some f => f obj m

/-- The guard check of `kmem_cache_free`: all `RZ_BYTES` bytes
`((uchar*)obj)[c->objsize + i]` hold `PAT_RZ`; the index `c->objsize + i` is a
`uint` sum. -/
def guard_ok (m : Mem) (obj objsize : Nat) : Bool :=
  (List.range RZ_BYTES).all (fun i => m (obj + u32 (objsize + i)) = PAT_RZ)

/-- The part of `kmem_cache_alloc` after the slab `s` is chosen and on the partial
list: pop the freelist head, reclassify a slab that became full, then the debug
checks, poisoning and the constructor. -/
def kmem_cache_alloc_from (st : State) (c s : Nat) : Except Fault (State × Nat) :=
  let sl := st.slabs s
  let obj := sl.free_head
  if obj = 0 then .error .null_deref else
  let sl1 : slab :=
    { sl with free_head := load64 st.mem obj, nr_free := u32_dec sl.nr_free }
  let st1 : State := { st with slabs := upd st.slabs s sl1 }
  let cc := st1.caches c
  let st2 : State :=
    if sl1.nr_free = 0 then
      let cc1 : kmem_cache :=
        { cc with partial_ := list_remove cc.partial_ s, full := list_push cc.full s }
      { st1 with caches := upd st1.caches c cc1 }
    else st1
  let h := obj - SIZEOF_HDR
  let hd := st2.hdrs h
  if hd.magic ≠ SLAB_MAGIC ∨ hd.state ≠ 0 then .error .corrupt_double_alloc else
  let m1 := memset st2.mem obj PAT_ALLOC cc.objsize
  let m2 := memset m1 (obj + cc.objsize) PAT_RZ RZ_BYTES
  let m3 := run_hook cc.ctor obj m2
  let hd1 : slabobj_hdr := { hd with state := 1 }
  .ok ({ st2 with hdrs := upd st2.hdrs h hd1, mem := m3 }, obj)

/-- `kmem_cache_alloc(c)`: the new state and the object, null on failure. -/
def kmem_cache_alloc (st : State) (c : Nat) : Except Fault (State × Nat) :=
  if c = 0 then .error .null_deref else
  let cc := st.caches c
  let s := if list_head cc.partial_ ≠ 0 then list_head cc.partial_ else list_head cc.empty
  if s = 0 then
    match slab_new st c with
    | .error e => .error e
    | .ok (st1, s1) =>
      if s1 = 0 then .ok (st1, 0) else
      let cc1 : kmem_cache :=
        { st1.caches c with partial_ := list_push (st1.caches c).partial_ s1 }
      kmem_cache_alloc_from { st1 with caches := upd st1.caches c cc1 } c s1
  else if s = list_head cc.empty then
    let cc1 : kmem_cache :=
      { cc with empty := list_remove cc.empty s, partial_ := list_push cc.partial_ s }
    kmem_cache_alloc_from { st with caches := upd st.caches c cc1 } c s
  else kmem_cache_alloc_from st c s

/-- `kmem_cache_free(c, obj)`. -/
def kmem_cache_free (st : State) (c obj : Nat) : Except Fault State :=
  if obj = 0 then .ok st else
  let h := obj - SIZEOF_HDR
  let hd := st.hdrs h
  if hd.magic ≠ SLAB_MAGIC ∨ hd.slab = 0 ∨ (st.slabs hd.slab).cache ≠ c then .ok st else
  if c = 0 then .error .null_deref else
  let s := hd.slab
  let cc := st.caches c
  let m0 := run_hook cc.dtor obj st.mem
  if hd.state ≠ 1 then .error .double_free_uaf else
  if guard_ok m0 obj cc.objsize = false then .error .tail_oob_write else
  let m1 := memset m0 obj PAT_FREE cc.objsize
  let m2 := memset m1 (obj + cc.objsize) PAT_RZ RZ_BYTES
  let sl := st.slabs s
  let cc1 : kmem_cache :=
    if sl.nr_free = 0 then
      { cc with full := list_remove cc.full s, partial_ := list_push cc.partial_ s }
    else cc
  let m3 := store64 m2 obj sl.free_head
  let sl1 : slab := { sl with free_head := obj, nr_free := u32 (sl.nr_free + 1) }
  let cc2 : kmem_cache :=
    if sl1.nr_free = sl1.nr_objs then
      { cc1 with partial_ := list_remove cc1.partial_ s, empty := list_push cc1.empty s }
    else cc1
  let hd1 : slabobj_hdr := { hd with state := 0 }
  .ok { st with caches := upd st.caches c cc2, slabs := upd st.slabs s sl1,
                hdrs := upd st.hdrs h hd1, mem := m3 }

/-! ## Size-class front end -/

/-- The cache-creation loop of `kmalloc_init`, over the classes from index `i` on. -/
def kmalloc_init_caches (st : State) : List Nat → Nat → State
  | [], _ => st
  | sz :: rest, i =>
    let r := kmem_cache_create st sz none none 16
    kmalloc_init_caches { r.1 with class_cache := upd r.1.class_cache i r.2 } rest (i + 1)

/-- `kmalloc(size)`. -/
def kmalloc (st : State) (size : Nat) : Except Fault (State × Nat) :=
  if size = 0 then .ok (st, 0) else
  let idx := class_index_for size
  if idx < 0 then .ok (st, 0) else
  kmem_cache_alloc st (st.class_cache idx.toNat)

/-- `kfree_slab(p)`. -/
def kfree_slab (st : State) (p : Nat) : Except Fault State :=
  if p = 0 then .ok st else
  let hd := st.hdrs (p - SIZEOF_HDR)
  if hd.magic ≠ SLAB_MAGIC ∨ hd.slab = 0 ∨ (st.slabs hd.slab).cache = 0 then .ok st else
  kmem_cache_free st (st.slabs hd.slab).cache p

/-! ## Well-formed states -/

/-- A hook that writes only inside the payload of the object it is given. -/
def HookOK (objsize : Nat) (h : Option Hook) : Prop :=
  ∀ f : Hook, h = some f → ∀ (obj : Nat) (m : Mem) (a : Nat),
    (a < obj ∨ obj + objsize ≤ a) → f obj m a = m a

/-- One slot of the stride computed by `slab_new` holds header, payload and guard. -/
def FitsSlot (objsize align : Nat) : Prop :=
  SIZEOF_HDR + objsize + RZ_BYTES ≤ slab_stride objsize align

/-- The freelist that starts at `h` visits exactly the objects of `l`, in order,
and ends with a null link. -/
def Chain (m : Mem) : Nat → List Nat → Prop
  | h, [] => h = 0
  | h, o :: l => h = o ∧ o ≠ 0 ∧ Chain m (load64 m o) l

/-- The slabs on the three lists of the cache `c`. -/
def on_lists (st : State) (c : Nat) : List Nat :=
  (st.caches c).full ++ (st.caches c).partial_ ++ (st.caches c).empty

/-- The slab at `s` is a well-formed slab of the cache `c` whose freelist is `fl`;
`live` tells which objects are allocated. -/
structure SlabWF (st : State) (c s : Nat) (live : Nat → Prop) (fl : List Nat) : Prop where
  nz : s ≠ 0
  aligned : s % PGSIZE = 0
  bound : s + PGSIZE ≤ 2 ^ 64
  cache_eq : (st.slabs s).cache = c
  page_eq : (st.slabs s).page = s
  mem_eq : (st.slabs s).mem = s + SIZEOF_SLAB
  objsize_eq : (st.slabs s).objsize = (st.caches c).objsize
  stride_eq : (st.slabs s).stride = slab_stride (st.caches c).objsize (st.caches c).align
  nr_objs_eq : (st.slabs s).nr_objs = (PGSIZE - SIZEOF_SLAB) / (st.slabs s).stride
  nr_objs_pos : 0 < (st.slabs s).nr_objs
  chain : Chain st.mem (st.slabs s).free_head fl
  nodup : fl.Nodup
  len : fl.length = (st.slabs s).nr_free
  fl_slots : ∀ o : Nat, o ∈ fl →
    ∃ i : Nat, i < (st.slabs s).nr_objs ∧ o = slot_obj s (st.slabs s).stride i
  hdr_slab : ∀ i : Nat, i < (st.slabs s).nr_objs →
    (st.hdrs (slot_obj s (st.slabs s).stride i - SIZEOF_HDR)).slab = s
  hdr_magic : ∀ i : Nat, i < (st.slabs s).nr_objs →
    (st.hdrs (slot_obj s (st.slabs s).stride i - SIZEOF_HDR)).magic = SLAB_MAGIC
  hdr_state : ∀ i : Nat, i < (st.slabs s).nr_objs →
    (st.hdrs (slot_obj s (st.slabs s).stride i - SIZEOF_HDR)).state =
      if slot_obj s (st.slabs s).stride i ∈ fl then 0 else 1
  live_iff : ∀ i : Nat, i < (st.slabs s).nr_objs →
    (live (slot_obj s (st.slabs s).stride i) ↔ slot_obj s (st.slabs s).stride i ∉ fl)
  guard : ∀ i : Nat, i < (st.slabs s).nr_objs → slot_obj s (st.slabs s).stride i ∉ fl →
    guard_ok st.mem (slot_obj s (st.slabs s).stride i) (st.caches c).objsize = true

/-- History of a run: the caches created, the slabs created (with their cache) and
the objects allocated and not yet released (with their cache). -/
structure Ghost where
  caches : List Nat
  slabs : List (Nat × Nat)
  live : List (Nat × Nat)

/-- The three lists of the cache `c` hold each slab once and by its count of free
slots; a slab in `r` is in the middle of an operation and may sit on the partial
list with any count. -/
structure ListsOK (st : State) (c : Nat) (r : Nat → Prop) : Prop where
  nodup_full : (st.caches c).full.Nodup
  nodup_part : (st.caches c).partial_.Nodup
  nodup_empty : (st.caches c).empty.Nodup
  on_full : ∀ s : Nat, s ∈ (st.caches c).full → (st.slabs s).nr_free = 0 ∧ ¬ r s
  on_part : ∀ s : Nat, s ∈ (st.caches c).partial_ →
    r s ∨ (0 < (st.slabs s).nr_free ∧ (st.slabs s).nr_free < (st.slabs s).nr_objs)
  on_empty : ∀ s : Nat, s ∈ (st.caches c).empty →
    (st.slabs s).nr_free = (st.slabs s).nr_objs ∧ ¬ r s

/-- The invariant of the allocator, with the slabs of `r` in the middle of an
operation. -/
structure InvX (st : State) (g : Ghost) (r : Nat → Prop) : Prop where
  pages_nodup : st.freepages.Nodup
  pages_ok : ∀ p : Nat, p ∈ st.freepages → p ≠ 0 ∧ p % PGSIZE = 0 ∧ p + PGSIZE ≤ 2 ^ 64
  cache_ok : ∀ c : Nat, c ∈ g.caches → c ≠ 0 ∧ c ∉ st.freepages
  fits : ∀ c : Nat, c ∈ g.caches → FitsSlot (st.caches c).objsize (st.caches c).align
  hooks : ∀ c : Nat, c ∈ g.caches →
    HookOK (st.caches c).objsize (st.caches c).ctor ∧
    HookOK (st.caches c).objsize (st.caches c).dtor
  slabs_iff : ∀ c s : Nat, (c, s) ∈ g.slabs ↔ (c ∈ g.caches ∧ s ∈ on_lists st c)
  lists : ∀ c : Nat, c ∈ g.caches → ListsOK st c r
  slab_wf : ∀ c : Nat, c ∈ g.caches → ∀ s : Nat, s ∈ on_lists st c →
    s ∉ st.freepages ∧ ∃ fl : List Nat, SlabWF st c s (fun o => (c, o) ∈ g.live) fl
  live_slot : ∀ c p : Nat, (c, p) ∈ g.live → c ∈ g.caches ∧
    ∃ s : Nat, s ∈ on_lists st c ∧
      ∃ i : Nat, i < (st.slabs s).nr_objs ∧ p = slot_obj s (st.slabs s).stride i
  live_nodup : g.live.Nodup
  classes : ∀ i : Nat, st.class_cache i = 0 ∨ st.class_cache i ∈ g.caches

/-- The invariant of the allocator between operations. -/
def Inv (st : State) (g : Ghost) : Prop := InvX st g (fun _ => False)

/-- The history after an allocation from the cache `c` returned `p` in the state
`st`: a non-null object becomes live and its slab is recorded. -/
def Ghost.alloc (g : Ghost) (st : State) (c p : Nat) : Ghost :=
  if p = 0 then g else
    { g with
      slabs := if (c, (st.hdrs (p - SIZEOF_HDR)).slab) ∈ g.slabs then g.slabs
               else (c, (st.hdrs (p - SIZEOF_HDR)).slab) :: g.slabs,
      live := (c, p) :: g.live }

/-- The history after the object `p` of the cache `c` is released. -/
def Ghost.free (g : Ghost) (c p : Nat) : Ghost :=
  { g with live := g.live.erase (c, p) }

/-- A client store of one byte. -/
def write_byte (st : State) (a v : Nat) : State :=
  { st with mem := upd st.mem a (v % 256) }

/-- One iteration of the cache-creation loop of `kmalloc_init`, for class `i`. -/
def class_init (st : State) (i : Nat) : State × Nat :=
  let r := kmem_cache_create st (size_classes.getD i 0) none none 16
  ({ r.1 with class_cache := upd r.1.class_cache i r.2 }, r.2)

/-- The states reachable from a state without caches, with their history.  The
steps are the creation of a cache, one iteration of the cache-creation loop of
`kmalloc_init`, `kmem_cache_alloc`, `kmalloc`, `kmem_cache_free` and `kfree_slab`
of a live object, and a client store into the payload of a live object. -/
inductive Reach : State → Ghost → Prop
  | init (st : State) :
      st.freepages.Nodup →
      (∀ p : Nat, p ∈ st.freepages → p ≠ 0 ∧ p % PGSIZE = 0 ∧ p + PGSIZE ≤ 2 ^ 64) →
      (∀ i : Nat, st.class_cache i = 0) →
      Reach st ⟨[], [], []⟩
  | create (st : State) (g : Ghost) (objsize align : Nat) (ctor dtor : Option Hook) :
      Reach st g → FitsSlot objsize align → HookOK objsize ctor → HookOK objsize dtor →
      (kmem_cache_create st objsize ctor dtor align).2 ≠ 0 →
      Reach (kmem_cache_create st objsize ctor dtor align).1
        { g with caches := (kmem_cache_create st objsize ctor dtor align).2 :: g.caches }
  | create_fail (st : State) (g : Ghost) (objsize align : Nat) (ctor dtor : Option Hook) :
      Reach st g → (kmem_cache_create st objsize ctor dtor align).2 = 0 →
      Reach (kmem_cache_create st objsize ctor dtor align).1 g
  | class_init (st : State) (g : Ghost) (i : Nat) :
      Reach st g → i < N_CLASS →
      Reach (class_init st i).1
        (if (class_init st i).2 = 0 then g
         else { g with caches := (class_init st i).2 :: g.caches })
  | alloc (st st1 : State) (g : Ghost) (c p : Nat) :
      Reach st g → c ∈ g.caches → kmem_cache_alloc st c = .ok (st1, p) →
      Reach st1 (g.alloc st1 c p)
  | kmalloc (st st1 : State) (g : Ghost) (size p : Nat) :
      Reach st g → kmalloc st size = .ok (st1, p) →
      Reach st1 (g.alloc st1 (st.class_cache (class_index_for size).toNat) p)
  | free (st st1 : State) (g : Ghost) (c p : Nat) :
      Reach st g → (c, p) ∈ g.live → kmem_cache_free st c p = .ok st1 →
      Reach st1 (g.free c p)
  | kfree_slab (st st1 : State) (g : Ghost) (c p : Nat) :
      Reach st g → (c, p) ∈ g.live → kfree_slab st p = .ok st1 →
      Reach st1 (g.free c p)
  | write (st : State) (g : Ghost) (c p off v : Nat) :
      Reach st g → (c, p) ∈ g.live → off < (st.caches c).objsize →
      Reach (write_byte st (p + off) v) g

/-- The freelist that `slab_new` builds over the first `n` slots: last slot first. -/
def slot_list (s stride : Nat) : Nat → List Nat
  | 0 => []
  | n + 1 => slot_obj s stride n :: slot_list s stride n

/-! ## Example run -/

/-- The state of an outcome, `d` when the operation did not return. -/
def state_of {α : Type} (r : Except Fault (State × α)) (d : State) : State :=
  match r with
  | .ok q => q.1
  | .error _ => d

/-- The pointer of an outcome, null when the operation did not return. -/
def ptr_of (r : Except Fault (State × Nat)) : Nat :=
  match r with
  | .ok q => q.2
  | .error _ => 0

/-- The state of an outcome without a value, `d` when the operation did not
return. -/
def after (r : Except Fault State) (d : State) : State :=
  match r with
  | .ok q => q
  | .error _ => d

/-- A state at boot: twelve free pages at the top of physical memory, nothing
allocated, memory zeroed. -/
def st_boot : State :=
  { freepages := [0x87fff000, 0x87ffe000, 0x87ffd000, 0x87ffc000, 0x87ffb000, 0x87ffa000,
      0x87ff9000, 0x87ff8000, 0x87ff7000, 0x87ff6000, 0x87ff5000, 0x87ff4000],
    caches := fun _ => ⟨0, 0, none, none, [], [], []⟩,
    slabs := fun _ => ⟨0, 0, 0, 0, 0, 0, 0, 0⟩,
    hdrs := fun _ => ⟨0, 0, 0, 0⟩,
    mem := fun _ => 0,
    class_cache := fun _ => 0 }

/-- The state after the cache-creation loop of `kmalloc_init`. -/
def st_classes : State := kmalloc_init_caches st_boot size_classes 0

/-- The number of live objects whose header names the slab `s`. -/
def live_in (st : State) (g : Ghost) (s : Nat) : Nat :=
  g.live.countP (fun q => decide ((st.hdrs (q.2 - SIZEOF_HDR)).slab = s))

/-- The number of live objects of the cache `c`. -/
def live_of (g : Ghost) (c : Nat) : Nat :=
  g.live.countP (fun q => decide (q.1 = c))

/-- The history that goes with the cache-creation loop of `kmalloc_init`. -/
def kmalloc_init_ghost (st : State) (g : Ghost) : List Nat → Nat → Ghost
  | [], _ => g
  | sz :: rest, i =>
    let r := kmem_cache_create st sz none none 16
    kmalloc_init_ghost { r.1 with class_cache := upd r.1.class_cache i r.2 }
      (if r.2 = 0 then g else { g with caches := r.2 :: g.caches }) rest (i + 1)

/-- The history of the example run after the cache-creation loop. -/
def g_classes : Ghost := kmalloc_init_ghost st_boot ⟨[], [], []⟩ size_classes 0

/-- Example run: a first object of 2048 bytes. -/
def st_a : State := state_of (kmalloc st_classes 2048) st_classes

def p_a : Nat := ptr_of (kmalloc st_classes 2048)

def g_a : Ghost := g_classes.alloc st_a (st_classes.class_cache 8) p_a

/-- Example run: a second object of 2048 bytes, in a second slab. -/
def st_b : State := state_of (kmalloc st_a 2048) st_a

def p_b : Nat := ptr_of (kmalloc st_a 2048)

def g_b : Ghost := g_a.alloc st_b (st_a.class_cache 8) p_b

/-- Every class whose entry of `class_cache` is set is served by a cache with the
parameters `kmalloc_init` passes: the class size, alignment 16 and no hooks. -/
def ClassOK (st : State) : Prop :=
  ∀ i : Nat, i < N_CLASS → st.class_cache i ≠ 0 →
    (st.caches (st.class_cache i)).objsize = size_classes.getD i 0 ∧
    (st.caches (st.class_cache i)).align = 16 ∧
    (st.caches (st.class_cache i)).ctor = none ∧
    (st.caches (st.class_cache i)).dtor = none

/-- Example run: an object of 7 bytes, served by the 8-byte class. -/
def st_q : State := state_of (kmalloc st_classes 7) st_classes

def p_q : Nat := ptr_of (kmalloc st_classes 7)

/-- Example run: at boot, a cache whose objects are a whole page long. -/
def st_big : State := (kmem_cache_create st_boot 4096 none none 16).1

def c_big : Nat := (kmem_cache_create st_boot 4096 none none 16).2

/-! ## Statistics -/

/-- Subtraction on `uint`. -/
def u32_sub (a b : Nat) : Nat := if b ≤ a then a - b else 2 ^ 32 - (b - a)

/-- The counters `slabs`, `objs` and `freec` of `kmalloc_stats`. -/
structure stats_acc where
  slabs : Nat
  objs : Nat
  freec : Nat

/-- The loop of `kmalloc_stats` over the full list: slabs and objects. -/
def stats_full (st : State) (acc : stats_acc) : List Nat → stats_acc
  | [] => acc
  | s :: rest =>
    stats_full st
      { acc with slabs := u32 (acc.slabs + 1), objs := u32 (acc.objs + (st.slabs s).nr_objs) }
      rest

/-- The loop of `kmalloc_stats` over the partial list and over the empty list:
slabs, objects and free slots. -/
def stats_free (st : State) (acc : stats_acc) : List Nat → stats_acc
  | [] => acc
  | s :: rest =>
    stats_free st
      { slabs := u32 (acc.slabs + 1), objs := u32 (acc.objs + (st.slabs s).nr_objs),
        freec := u32 (acc.freec + (st.slabs s).nr_free) }
      rest

/-- The counters of `kmalloc_stats` for the cache `c` after its three loops. -/
def stats_count (st : State) (c : Nat) : stats_acc :=
  stats_free st (stats_free st (stats_full st ⟨0, 0, 0⟩ (st.caches c).full)
    (st.caches c).partial_) (st.caches c).empty

/-- One line of the report of `kmalloc_stats`. -/
structure stats_row where
  objsize : Nat
  pages : Nat
  objs : Nat
  used : Nat
  freec : Nat
  util : Nat
deriving DecidableEq, Repr

/-- The values `kmalloc_stats` prints for the cache `c`. -/
def stats_of (st : State) (c : Nat) : stats_row :=
  let a := stats_count st c
  let pages := u32 (a.slabs * 1)
  let bytes := u32 (pages * PGSIZE)
  let payload := u32 (a.objs * (st.caches c).objsize)
  let used := u32_sub a.objs a.freec
  let util := if bytes ≠ 0 then u32 (payload * 100) / bytes else 0
  { objsize := (st.caches c).objsize, pages := pages, objs := a.objs, used := used,
    freec := a.freec, util := util }

/-- `kmalloc_stats()`: the report, one line per class whose cache exists, from
class `i` on. -/
def kmalloc_stats (st : State) : Nat → Nat → List (Nat × stats_row)
  | 0, _ => []
  | n + 1, i =>
    if st.class_cache i = 0 then kmalloc_stats st n (i + 1)
    else (i, stats_of st (st.class_cache i)) :: kmalloc_stats st n (i + 1)

/-- Example run: the client stores `0x42` into byte 5 of the first object of 2048
bytes, releases the object and allocates 2048 bytes again. -/
def st_w : State := write_byte st_a (p_a + 5) 0x42

def st_f : State := after (kfree_slab st_w p_a) st_w

def g_f : Ghost := g_a.free (st_classes.class_cache 8) p_a

def st_r : State := state_of (kmalloc st_f 2048) st_f

def p_r : Nat := ptr_of (kmalloc st_f 2048)

/-- A client `memset(q, v, n)`, as the harness does on an object it got. -/
def client_memset (st : State) (q v n : Nat) : State :=
  { st with mem := memset st.mem q v n }

/-- The first `n` single-byte stores of a client that fills memory from `q` on
with `v`. -/
def write_bytes (st : State) (q v : Nat) : Nat → State
  | 0 => st
  | n + 1 => write_byte (write_bytes st q v n) (q + n) v

/-- Example run: the 7-byte object is filled with `0xA5` and released. -/
def st_q1 : State := client_memset st_q p_q 0xA5 7

def st_q2 : State := after (kfree_slab st_q1 p_q) st_q1

/-! ## Boot-time smoke test -/

/-- The allocation loop of the smoke test of `kmalloc_init`,
`for (s = 1; s <= 2000; s += 31)`: `arr` holds the pointers stored so far (`pos` is
its length).  The first argument bounds the number of iterations; the loop leaves
by `s > 2000` after 65 of them. -/
def smoke_alloc : Nat → Nat → State → List Nat → Except Fault (State × List Nat)
  | 0, _, st, arr => .ok (st, arr)
  | n + 1, s, st, arr =>
    if s ≤ 2000 then
      let idx := class_index_for (u32 s)
      if idx ≥ 0 then
        match kmem_cache_alloc st (st.class_cache idx.toNat) with
        | .error e => .error e
        | .ok (st1, p) =>
          smoke_alloc n (s + 31) st1 (if p ≠ 0 ∧ arr.length < 64 then arr ++ [p] else arr)
      else smoke_alloc n (s + 31) st arr
    else .ok (st, arr)

/-- The release loop of the smoke test: `for (i = 0; i < pos; i++) kfree_slab(arr[i])`. -/
def smoke_free : State → List Nat → Except Fault State
  | st, [] => .ok st
  | st, p :: rest =>
    match kfree_slab st p with
    | .error e => .error e
    | .ok st1 => smoke_free st1 rest

/-- `kmalloc_init()` up to the call of the harness: the caches of the classes, then
the smoke test. -/
def kmalloc_init (st : State) : Except Fault State :=
  match smoke_alloc 2000 1 (kmalloc_init_caches st size_classes 0) [] with
  | .error e => .error e
  | .ok r => smoke_free r.1 r.2

/-- A state at boot with 64 free pages at the top of physical memory. -/
def st_boot64 : State :=
  { st_boot with freepages := (List.range 64).map (fun k => 0x87fff000 - PGSIZE * k) }

/-- The state after the cache-creation loop of `kmalloc_init` on the boot state
with 64 pages, and its history. -/
def st_cls64 : State := kmalloc_init_caches st_boot64 size_classes 0

def g_cls64 : Ghost := kmalloc_init_ghost st_boot64 ⟨[], [], []⟩ size_classes 0

/-- The state after the allocation loop of the smoke test, and the pointers it
stored. -/
def st_smoke : State := state_of (smoke_alloc 2000 1 st_cls64 []) st_cls64

def arr_smoke : List Nat :=
  match smoke_alloc 2000 1 st_cls64 [] with
  | .ok r => r.2
  | .error _ => []

/-- The history that goes with `smoke_alloc`. -/
def smoke_ghost : Nat → Nat → State → Ghost → Ghost
  | 0, _, _, g => g
  | n + 1, s, st, g =>
    if s ≤ 2000 then
      let idx := class_index_for (u32 s)
      if idx ≥ 0 then
        match kmem_cache_alloc st (st.class_cache idx.toNat) with
        | .error _ => g
        | .ok (st1, p) =>
          smoke_ghost n (s + 31) st1 (g.alloc st1 (st.class_cache idx.toNat) p)
      else smoke_ghost n (s + 31) st g
    else g

/-- The history after the allocation loop of the smoke test. -/
def g_smoke : Ghost := smoke_ghost 2000 1 st_cls64 g_cls64

/-- The history after the releases of the pointers in `arr`. -/
def Ghost.free_all (g : Ghost) (arr : List Nat) : Ghost :=
  { g with live := g.live.filter (fun q => decide (q.2 ∉ arr)) }

/-- The history after `kmalloc_init` on the boot state with 64 pages. -/
def g_init : Ghost := g_smoke.free_all arr_smoke

/-- Example run: at boot, a cache for objects of `2 ^ 32 - 32` bytes, for which
header + payload + guard wraps to 0. -/
def st_z : State := (kmem_cache_create st_boot (2 ^ 32 - 32) none none 16).1

def c_z : Nat := (kmem_cache_create st_boot (2 ^ 32 - 32) none none 16).2

/-- Example run: at boot, a cache for objects of `2 ^ 32 - 31` bytes, for which
header + payload + guard wraps to 1. -/
def st_y : State := (kmem_cache_create st_boot (2 ^ 32 - 31) none none 16).1

def c_y : Nat := (kmem_cache_create st_boot (2 ^ 32 - 31) none none 16).2

/-- The alignment check of `slab_eval` on a size `z` and the pointer it got:
`((z&1)==0 && (ptr&1)) || ((z&3)==0 && (ptr&3)) || ((z&7)==0 && (ptr&7))`, the
masks taken as remainders; `true` makes the harness abort. -/
def eval_align_bad (z ptr : Nat) : Bool :=
  (z % 2 == 0 && ptr % 2 != 0) || (z % 4 == 0 && ptr % 4 != 0) ||
    (z % 8 == 0 && ptr % 8 != 0)

/-! # Properties -/

/-! ## Size classes: lookup -/

theorem class_index_for_spec (size : Nat) (h2 : size ≤ 2048) :
    ∃ i : Nat, i < N_CLASS ∧ class_index_for size = (i : Int) ∧
      size ≤ size_classes.getD i 0 ∧ ∀ j : Nat, j < i → size_classes.getD j 0 < size := by
  simp only [class_index_for, class_index_from, size_classes, N_CLASS]
  split_ifs
  · refine ⟨0, by decide, rfl, by simpa, ?_⟩
    intro j hj
    interval_cases j <;> simp <;> omega
  · refine ⟨1, by decide, rfl, by simpa, ?_⟩
    intro j hj
    interval_cases j <;> simp <;> omega
  · refine ⟨2, by decide, rfl, by simpa, ?_⟩
    intro j hj
    interval_cases j <;> simp <;> omega
  · refine ⟨3, by decide, rfl, by simpa, ?_⟩
    intro j hj
    interval_cases j <;> simp <;> omega
  · refine ⟨4, by decide, rfl, by simpa, ?_⟩
    intro j hj
    interval_cases j <;> simp <;> omega
  · refine ⟨5, by decide, rfl, by simpa, ?_⟩
    intro j hj
    interval_cases j <;> simp <;> omega
  · refine ⟨6, by decide, rfl, by simpa, ?_⟩
    intro j hj
    interval_cases j <;> simp <;> omega
  · refine ⟨7, by decide, rfl, by simpa, ?_⟩
    intro j hj
    interval_cases j <;> simp <;> omega
  · refine ⟨8, by decide, rfl, by simpa, ?_⟩
    intro j hj
    interval_cases j <;> simp <;> omega

theorem class_index_for_large (size : Nat) (h : 2048 < size) : class_index_for size = -1 := by
  simp only [class_index_for, class_index_from, size_classes]
  split_ifs <;> first | rfl | omega

theorem kmalloc_of_class (st : State) (size i : Nat) (h1 : 1 ≤ size)
    (hi : class_index_for size = (i : Int)) :
    kmalloc st size = kmem_cache_alloc st (st.class_cache i) := by
  have h0 : size ≠ 0 := by omega
  simp [kmalloc, hi, h0]

/-- Claim C1. The size-class table is strictly increasing; for every size from 1
to 2048 `class_index_for` returns the index of the smallest class that holds the
size and `kmalloc` is the allocation from that class's cache; for every size above
2048 `class_index_for` returns -1. -/
theorem class_index_for_smallest :
    size_classes.Pairwise (· < ·) ∧
    (∀ size : Nat, 1 ≤ size → size ≤ 2048 →
      ∃ i : Nat, i < N_CLASS ∧ class_index_for size = (i : Int) ∧
        size ≤ size_classes.getD i 0 ∧
        (∀ j : Nat, j < N_CLASS → size ≤ size_classes.getD j 0 →
          size_classes.getD i 0 ≤ size_classes.getD j 0) ∧
        ∀ st : State, kmalloc st size = kmem_cache_alloc st (st.class_cache i)) ∧
    (∀ size : Nat, 2048 < size → class_index_for size = -1) := by
  refine ⟨by decide, ?_, class_index_for_large⟩
  intro size h1 h2
  obtain ⟨i, hi, hidx, hle, hlt⟩ := class_index_for_spec size h2
  refine ⟨i, hi, hidx, hle, ?_, fun st => kmalloc_of_class st size i h1 hidx⟩
  intro j hj hsj
  have hij : i ≤ j := by
    by_contra hcon
    have := hlt j (by omega)
    omega
  simp only [N_CLASS, size_classes, List.length] at hj
  interval_cases j <;> interval_cases i <;> simp [size_classes]

/-- Size 7 is served by class 0 (8 bytes), the smallest class that holds it. -/
theorem class_index_for_smallest_witness :
    ∃ i : Nat, i < N_CLASS ∧ class_index_for 7 = (i : Int) ∧
        7 ≤ size_classes.getD i 0 ∧
        (∀ j : Nat, j < N_CLASS → 7 ≤ size_classes.getD j 0 →
          size_classes.getD i 0 ≤ size_classes.getD j 0) ∧
        ∀ st : State, kmalloc st 7 = kmem_cache_alloc st (st.class_cache i) :=
  class_index_for_smallest.2.1 7 (by decide) (by decide)

/-! ## Rejected requests -/

/-- Claim C2. In every state `kmalloc(0)` and `kmalloc(size)` for every size above
2048 return null and the state they return is the state they were called in: no
cache, slab, header, byte or free page of the supplier changes. -/
theorem kmalloc_rejects (st : State) :
    kmalloc st 0 = .ok (st, 0) ∧
    ∀ size : Nat, 2048 < size → kmalloc st size = .ok (st, 0) := by
  refine ⟨by simp [kmalloc], ?_⟩
  intro size h
  have h0 : size ≠ 0 := by omega
  simp [kmalloc, class_index_for_large size h, h0]

/-- A request of 2049 bytes is rejected in the state with nothing allocated. -/
theorem kmalloc_rejects_witness :
    kmalloc ⟨[], fun _ => ⟨0, 0, none, none, [], [], []⟩, fun _ => ⟨0, 0, 0, 0, 0, 0, 0, 0⟩,
      fun _ => ⟨0, 0, 0, 0⟩, fun _ => 0, fun _ => 0⟩ 2049 =
    .ok (⟨[], fun _ => ⟨0, 0, none, none, [], [], []⟩, fun _ => ⟨0, 0, 0, 0, 0, 0, 0, 0⟩,
      fun _ => ⟨0, 0, 0, 0⟩, fun _ => 0, fun _ => 0⟩, 0) :=
  (kmalloc_rejects _).2 2049 (by decide)

/-! ## Memory and map updates -/

@[simp] theorem upd_same {α : Type} (f : Nat → α) (a : Nat) (v : α) : upd f a v a = v := by
  simp [upd]

theorem upd_other {α : Type} (f : Nat → α) {a x : Nat} (v : α) (h : x ≠ a) :
    upd f a v x = f x := by
  simp [upd, h]

theorem memset_out (m : Mem) {a n x : Nat} (v : Nat) (h : x < a ∨ a + n ≤ x) :
    memset m a v n x = m x := by
  unfold memset
  rw [if_neg]
  omega

theorem memset_in (m : Mem) {a n x : Nat} (v : Nat) (h1 : a ≤ x) (h2 : x < a + n) :
    memset m a v n x = v % 256 := by
  unfold memset
  rw [if_pos ⟨h1, h2⟩]

theorem store64_out (m : Mem) {a x : Nat} (v : Nat) (h : x < a ∨ a + 8 ≤ x) :
    store64 m a v x = m x := by
  unfold store64 SIZEOF_PTR
  rw [if_neg]
  omega

theorem store64_in (m : Mem) (a v j : Nat) (h : j < 8) :
    store64 m a v (a + j) = v / 256 ^ j % 256 := by
  unfold store64 SIZEOF_PTR
  rw [if_pos ⟨by omega, by omega⟩]
  simp

theorem load64_congr {m1 m2 : Mem} {a : Nat} (h : ∀ j : Nat, j < 8 → m1 (a + j) = m2 (a + j)) :
    load64 m1 a = load64 m2 a := by
  have h0 := h 0 (by omega)
  simp only [Nat.add_zero] at h0
  unfold load64
  rw [h0, h 1 (by omega), h 2 (by omega), h 3 (by omega), h 4 (by omega), h 5 (by omega),
    h 6 (by omega), h 7 (by omega)]

theorem load64_store64 (m : Mem) (a : Nat) {v : Nat} (hv : v < 2 ^ 64) :
    load64 (store64 m a v) a = v := by
  have e0 := store64_in m a v 0 (by omega)
  simp only [Nat.add_zero] at e0
  unfold load64
  rw [e0, store64_in m a v 1 (by omega), store64_in m a v 2 (by omega),
    store64_in m a v 3 (by omega), store64_in m a v 4 (by omega),
    store64_in m a v 5 (by omega), store64_in m a v 6 (by omega),
    store64_in m a v 7 (by omega)]
  norm_num at hv ⊢
  omega

theorem slot_arith {stride i : Nat} (hi : i < (PGSIZE - SIZEOF_SLAB) / stride) :
    i * stride + stride ≤ 4040 := by
  have h1 : (i + 1) * stride ≤ ((PGSIZE - SIZEOF_SLAB) / stride) * stride :=
    Nat.mul_le_mul_right _ hi
  have h2 := Nat.div_mul_le_self (PGSIZE - SIZEOF_SLAB) stride
  have h3 : (i + 1) * stride = i * stride + stride := Nat.succ_mul i stride
  have h4 : PGSIZE - SIZEOF_SLAB = 4040 := by decide
  omega

theorem slot_obj_eq (s : Nat) {stride i : Nat} (hi : i < (PGSIZE - SIZEOF_SLAB) / stride) :
    slot_obj s stride i = s + 72 + i * stride := by
  have h := slot_arith hi
  have h2 : u32 (i * stride) = i * stride := by
    unfold u32
    exact Nat.mod_eq_of_lt (by omega)
  simp only [slot_obj, h2, SIZEOF_SLAB, SIZEOF_HDR]
  omega

theorem slot_sep {stride i j : Nat} (h : i < j) : i * stride + stride ≤ j * stride := by
  have h1 : (i + 1) * stride ≤ j * stride := Nat.mul_le_mul_right _ h
  have h3 : (i + 1) * stride = i * stride + stride := Nat.succ_mul i stride
  omega

theorem chain_frame {m1 m2 : Mem} : ∀ (l : List Nat) (h : Nat), Chain m1 h l →
    (∀ o : Nat, o ∈ l → ∀ j : Nat, j < 8 → m2 (o + j) = m1 (o + j)) → Chain m2 h l
  | [], _, hc, _ => hc
  | o :: l, h, hc, hm => by
    obtain ⟨h1, h2, h3⟩ := hc
    refine ⟨h1, h2, ?_⟩
    have e : load64 m2 o = load64 m1 o := load64_congr (hm o (List.mem_cons_self _ _))
    rw [e]
    exact chain_frame l _ h3 (fun o1 ho1 => hm o1 (List.mem_cons_of_mem _ ho1))

theorem chain_unique {m : Mem} : ∀ (l1 l2 : List Nat) (h : Nat), Chain m h l1 → Chain m h l2 →
    l1 = l2
  | [], [], _, _, _ => rfl
  | [], o :: l, h, h1, h2 => by
    simp only [Chain] at h1 h2
    omega
  | o :: l, [], h, h1, h2 => by
    simp only [Chain] at h1 h2
    omega
  | o1 :: l1, o2 :: l2, h, h1, h2 => by
    obtain ⟨a1, _, c1⟩ := h1
    obtain ⟨a2, _, c2⟩ := h2
    have e : o1 = o2 := by omega
    subst e
    rw [chain_unique l1 l2 _ c1 c2]

theorem guard_ok_iff (m : Mem) (obj objsize : Nat) (hsz : objsize + RZ_BYTES ≤ 2 ^ 32) :
    guard_ok m obj objsize = true ↔ ∀ j : Nat, j < RZ_BYTES → m (obj + objsize + j) = PAT_RZ := by
  have e : ∀ j : Nat, j < RZ_BYTES → obj + u32 (objsize + j) = obj + objsize + j := by
    intro j hj
    unfold u32
    rw [Nat.mod_eq_of_lt (by omega)]
    omega
  simp only [guard_ok, List.all_eq_true, List.mem_range, decide_eq_true_eq]
  constructor
  · intro h j hj
    rw [← e j hj]
    exact h j hj
  · intro h j hj
    rw [e j hj]
    exact h j hj

theorem run_hook_out {objsize : Nat} {h : Option Hook} (hk : HookOK objsize h) (obj : Nat)
    (m : Mem) {a : Nat} (ha : a < obj ∨ obj + objsize ≤ a) : run_hook h obj m a = m a := by
  cases h with
  | none => rfl
  | some f => exact hk f rfl obj m a ha

theorem FitsSlot.le {objsize align : Nat} (h : FitsSlot objsize align) :
    32 + objsize ≤ slab_stride objsize align := by
  unfold FitsSlot SIZEOF_HDR RZ_BYTES at h
  omega

theorem slab_stride_lt (objsize align : Nat) : slab_stride objsize align < 2 ^ 32 := by
  unfold slab_stride align_up
  have h := @Nat.and_le_right
    (u32_dec (u32 (u32 (SIZEOF_HDR + objsize + RZ_BYTES) +
      maxu (if align ≠ 0 then align else CACHE_DEFAULT_ALIGN) SIZEOF_PTR)))
    (2 ^ 32 - 1 - u32_dec (u32 (maxu (if align ≠ 0 then align else CACHE_DEFAULT_ALIGN)
      SIZEOF_PTR)))
  have h1 : Nat.land
      (u32_dec (u32 (u32 (SIZEOF_HDR + objsize + RZ_BYTES) +
        maxu (if align ≠ 0 then align else CACHE_DEFAULT_ALIGN) SIZEOF_PTR)))
      (2 ^ 32 - 1 - u32_dec (u32 (maxu (if align ≠ 0 then align else CACHE_DEFAULT_ALIGN)
        SIZEOF_PTR))) ≤
      2 ^ 32 - 1 - u32_dec (u32 (maxu (if align ≠ 0 then align else CACHE_DEFAULT_ALIGN)
        SIZEOF_PTR)) := h
  omega

/-- In a cache whose stride holds one slot the guard index `objsize + i` does not
wrap. -/
theorem FitsSlot.guard_bound {objsize align : Nat} (h : FitsSlot objsize align) :
    objsize + RZ_BYTES ≤ 2 ^ 32 := by
  have h1 := h.le
  have h2 := slab_stride_lt objsize align
  unfold RZ_BYTES
  omega

/-- Geometry of slot `i` of a well-formed slab: its object address, its room in
the page and the room of one stride. -/
theorem SlabWF.geom {st : State} {c s : Nat} {live : Nat → Prop} {fl : List Nat}
    (h : SlabWF st c s live fl) (hfit : FitsSlot (st.caches c).objsize (st.caches c).align)
    {i : Nat} (hi : i < (st.slabs s).nr_objs) :
    slot_obj s (st.slabs s).stride i = s + 72 + i * (st.slabs s).stride ∧
    i * (st.slabs s).stride + (st.slabs s).stride ≤ 4040 ∧
    32 + (st.caches c).objsize ≤ (st.slabs s).stride := by
  have hi2 : i < (PGSIZE - SIZEOF_SLAB) / (st.slabs s).stride := by
    rw [← h.nr_objs_eq]; exact hi
  refine ⟨slot_obj_eq s hi2, slot_arith hi2, ?_⟩
  rw [h.stride_eq]
  exact hfit.le

/-- Two different slots, of one slab or of two, are apart: header, payload and
guard of the one end before the header of the other begins. -/
theorem slots_apart {st : State} {c1 c2 s1 s2 : Nat} {live1 live2 : Nat → Prop}
    {fl1 fl2 : List Nat} (h1 : SlabWF st c1 s1 live1 fl1) (h2 : SlabWF st c2 s2 live2 fl2)
    (f1 : FitsSlot (st.caches c1).objsize (st.caches c1).align)
    (f2 : FitsSlot (st.caches c2).objsize (st.caches c2).align)
    {i1 i2 : Nat} (hi1 : i1 < (st.slabs s1).nr_objs) (hi2 : i2 < (st.slabs s2).nr_objs)
    (hne : slot_obj s1 (st.slabs s1).stride i1 ≠ slot_obj s2 (st.slabs s2).stride i2) :
    slot_obj s1 (st.slabs s1).stride i1 + (st.caches c1).objsize + 16 + 16 ≤
      slot_obj s2 (st.slabs s2).stride i2 ∨
    slot_obj s2 (st.slabs s2).stride i2 + (st.caches c2).objsize + 16 + 16 ≤
      slot_obj s1 (st.slabs s1).stride i1 := by
  obtain ⟨e1, b1, g1⟩ := h1.geom f1 hi1
  obtain ⟨e2, b2, g2⟩ := h2.geom f2 hi2
  by_cases hs : s1 = s2
  · subst hs
    have hc : c1 = c2 := by rw [← h1.cache_eq, ← h2.cache_eq]
    subst hc
    rw [e1, e2] at hne ⊢
    have hij : i1 ≠ i2 := by
      intro e; subst e; exact hne rfl
    rcases Nat.lt_or_gt_of_ne hij with hlt | hgt
    · have := @slot_sep (st.slabs s1).stride _ _ hlt
      omega
    · have := @slot_sep (st.slabs s1).stride _ _ hgt
      omega
  · rw [e1, e2]
    have a1 := h1.aligned
    have a2 := h2.aligned
    unfold PGSIZE at a1 a2
    omega

/-- A slab keeps its description when its record, the parameters of its cache,
the headers and bytes of its page and the liveness of its objects stay as they
are. -/
theorem SlabWF.frame {st st1 : State} {c s : Nat} {live live1 : Nat → Prop} {fl : List Nat}
    (h : SlabWF st c s live fl) (hfit : FitsSlot (st.caches c).objsize (st.caches c).align)
    (hs : st1.slabs s = st.slabs s)
    (hobj : (st1.caches c).objsize = (st.caches c).objsize)
    (halign : (st1.caches c).align = (st.caches c).align)
    (hmem : ∀ a : Nat, s ≤ a → a < s + PGSIZE → st1.mem a = st.mem a)
    (hhdr : ∀ a : Nat, s ≤ a → a < s + PGSIZE → st1.hdrs a = st.hdrs a)
    (hlive : ∀ a : Nat, s ≤ a → a < s + PGSIZE → (live1 a ↔ live a)) :
    SlabWF st1 c s live1 fl := by
  have inpage : ∀ i : Nat, i < (st.slabs s).nr_objs →
      s + 72 ≤ slot_obj s (st.slabs s).stride i ∧
      slot_obj s (st.slabs s).stride i + (st.caches c).objsize + 16 ≤ s + PGSIZE := by
    intro i hi
    obtain ⟨e, b, g⟩ := h.geom hfit hi
    rw [e]
    unfold PGSIZE
    omega
  have hh : ∀ i : Nat, i < (st.slabs s).nr_objs →
      st1.hdrs (slot_obj s (st.slabs s).stride i - SIZEOF_HDR) =
      st.hdrs (slot_obj s (st.slabs s).stride i - SIZEOF_HDR) := by
    intro i hi
    have := inpage i hi
    apply hhdr <;> unfold SIZEOF_HDR <;> omega
  constructor
  · exact h.nz
  · exact h.aligned
  · exact h.bound
  · rw [hs]; exact h.cache_eq
  · rw [hs]; exact h.page_eq
  · rw [hs]; exact h.mem_eq
  · rw [hs, hobj]; exact h.objsize_eq
  · rw [hs, hobj, halign]; exact h.stride_eq
  · rw [hs]; exact h.nr_objs_eq
  · rw [hs]; exact h.nr_objs_pos
  · rw [hs]
    refine chain_frame fl _ h.chain ?_
    intro o ho j hj
    obtain ⟨i, hi, rfl⟩ := h.fl_slots o ho
    have := inpage i hi
    apply hmem <;> omega
  · exact h.nodup
  · rw [hs]; exact h.len
  · rw [hs]; exact h.fl_slots
  · rw [hs]; intro i hi; rw [hh i hi]; exact h.hdr_slab i hi
  · rw [hs]; intro i hi; rw [hh i hi]; exact h.hdr_magic i hi
  · rw [hs]; intro i hi; rw [hh i hi]; exact h.hdr_state i hi
  · rw [hs]; intro i hi
    have := inpage i hi
    rw [hlive _ (by omega) (by omega)]
    exact h.live_iff i hi
  · rw [hs, hobj]; intro i hi hn
    have := inpage i hi
    rw [guard_ok_iff _ _ _ hfit.guard_bound]
    intro j hj
    have g := (guard_ok_iff _ _ _ hfit.guard_bound).1 (h.guard i hi hn) j hj
    rw [hmem _ (by omega) (by unfold RZ_BYTES at hj; omega)]
    exact g

theorem mem_slot_list {s stride : Nat} : ∀ (n o : Nat),
    o ∈ slot_list s stride n ↔ ∃ i : Nat, i < n ∧ o = slot_obj s stride i
  | 0, o => by simp [slot_list]
  | n + 1, o => by
    simp only [slot_list, List.mem_cons, mem_slot_list n o]
    constructor
    · rintro (h | ⟨i, hi, h⟩)
      · exact ⟨n, by omega, h⟩
      · exact ⟨i, by omega, h⟩
    · rintro ⟨i, hi, h⟩
      by_cases e : i = n
      · subst e; exact Or.inl h
      · exact Or.inr ⟨i, by omega, h⟩

theorem length_slot_list {s stride : Nat} : ∀ n : Nat, (slot_list s stride n).length = n
  | 0 => rfl
  | n + 1 => by simp [slot_list, length_slot_list n]

theorem slot_obj_inj {s stride i j : Nat} (h32 : 32 ≤ stride)
    (hi : i < (PGSIZE - SIZEOF_SLAB) / stride) (hj : j < (PGSIZE - SIZEOF_SLAB) / stride)
    (h : slot_obj s stride i = slot_obj s stride j) : i = j := by
  rw [slot_obj_eq s hi, slot_obj_eq s hj] at h
  by_contra hne
  rcases Nat.lt_or_gt_of_ne hne with hlt | hgt
  · have := @slot_sep stride _ _ hlt
    omega
  · have := @slot_sep stride _ _ hgt
    omega

theorem nodup_slot_list {s stride : Nat} (h32 : 32 ≤ stride) : ∀ n : Nat,
    n ≤ (PGSIZE - SIZEOF_SLAB) / stride → (slot_list s stride n).Nodup
  | 0, _ => by simp [slot_list]
  | n + 1, hn => by
    simp only [slot_list, List.nodup_cons]
    refine ⟨?_, nodup_slot_list h32 n (by omega)⟩
    intro hmem
    obtain ⟨i, hi, e⟩ := (mem_slot_list n _).1 hmem
    have := slot_obj_inj h32 (by omega) (by omega) e
    omega

/-- What the first `n` iterations of the freelist loop of `slab_new` leave: the
chain over the first `n` slots, their headers, and everything outside these slots
untouched. -/
theorem slab_init_spec {s objsize stride : Nat} (h0 : Nat → slabobj_hdr) (m0 : Mem)
    (hfit : 32 + objsize ≤ stride) (hb : s + PGSIZE ≤ 2 ^ 64) : ∀ n : Nat,
    n ≤ (PGSIZE - SIZEOF_SLAB) / stride →
    Chain (slab_init s objsize stride n (h0, m0, 0)).2.1
      (slab_init s objsize stride n (h0, m0, 0)).2.2 (slot_list s stride n) ∧
    (slab_init s objsize stride n (h0, m0, 0)).2.2 < 2 ^ 64 ∧
    (∀ i : Nat, i < n →
      (slab_init s objsize stride n (h0, m0, 0)).1 (slot_obj s stride i - SIZEOF_HDR) =
        ⟨s, i % 2 ^ 16, SLAB_MAGIC, 0⟩) ∧
    (∀ a : Nat, (a < s + SIZEOF_SLAB ∨ s + SIZEOF_SLAB + n * stride ≤ a) →
      (slab_init s objsize stride n (h0, m0, 0)).1 a = h0 a ∧
      (slab_init s objsize stride n (h0, m0, 0)).2.1 a = m0 a)
  | 0, _ => by
    refine ⟨rfl, by norm_num [slab_init], ?_, ?_⟩
    · intro i hi; omega
    · intro a _; exact ⟨rfl, rfl⟩
  | n + 1, hn => by
    obtain ⟨ih1, ih2, ih3, ih4⟩ := slab_init_spec h0 m0 hfit hb n (by omega)
    have hn2 : n < (PGSIZE - SIZEOF_SLAB) / stride := by omega
    have ar := slot_arith hn2
    have eo := slot_obj_eq s hn2
    have hu : s + SIZEOF_SLAB + u32 (n * stride) + SIZEOF_HDR = slot_obj s stride n := rfl
    have hslot : s + SIZEOF_SLAB + u32 (n * stride) = slot_obj s stride n - SIZEOF_HDR := by
      rw [← hu]; simp
    simp only [slab_init]
    rw [hu, hslot]
    refine ⟨⟨rfl, ?_, ?_⟩, ?_, ?_, ?_⟩
    · rw [eo]; omega
    · rw [load64_store64 _ _ ih2]
      refine chain_frame _ _ ih1 ?_
      intro o ho j hj
      obtain ⟨i, hi, rfl⟩ := (mem_slot_list n _).1 ho
      have eoi := slot_obj_eq s (show i < (PGSIZE - SIZEOF_SLAB) / stride by omega)
      have sp := @slot_sep stride _ _ hi
      rw [store64_out, memset_out]
      · rw [eoi, eo]; omega
      · rw [eoi, eo]; omega
    · rw [eo]; unfold PGSIZE at hb; omega
    · intro i hi
      by_cases e : i = n
      · subst e
        simp
      · have hi2 : i < n := by omega
        have eoi := slot_obj_eq s (show i < (PGSIZE - SIZEOF_SLAB) / stride by omega)
        have sp := @slot_sep stride _ _ hi2
        rw [upd_other]
        · exact ih3 i hi2
        · rw [eoi, eo]; unfold SIZEOF_HDR; omega
    · intro a ha
      have hm : (n + 1) * stride = n * stride + stride := Nat.succ_mul n stride
      unfold SIZEOF_SLAB at ha
      have ha2 : a < s + SIZEOF_SLAB ∨ s + SIZEOF_SLAB + n * stride ≤ a := by
        unfold SIZEOF_SLAB; omega
      obtain ⟨k1, k2⟩ := ih4 a ha2
      constructor
      · rw [upd_other]
        · exact k1
        · rw [eo]; unfold SIZEOF_HDR; omega
      · rw [store64_out, memset_out]
        · exact k2
        · rw [eo]; unfold RZ_BYTES; omega
        · rw [eo]; omega

theorem alloc_from_inv {st st1 : State} {c s p : Nat}
    (h : kmem_cache_alloc_from st c s = .ok (st1, p)) :
    p = (st.slabs s).free_head ∧ p ≠ 0 ∧
    (st.hdrs (p - SIZEOF_HDR)).magic = SLAB_MAGIC ∧ (st.hdrs (p - SIZEOF_HDR)).state = 0 ∧
    st1.freepages = st.freepages ∧ st1.class_cache = st.class_cache ∧
    st1.slabs = upd st.slabs s
      { st.slabs s with free_head := load64 st.mem p,
                        nr_free := u32_dec (st.slabs s).nr_free } ∧
    st1.hdrs = upd st.hdrs (p - SIZEOF_HDR) { st.hdrs (p - SIZEOF_HDR) with state := 1 } ∧
    st1.mem = run_hook (st.caches c).ctor p
      (memset (memset st.mem p PAT_ALLOC (st.caches c).objsize)
        (p + (st.caches c).objsize) PAT_RZ RZ_BYTES) ∧
    st1.caches = if u32_dec (st.slabs s).nr_free = 0 then
        upd st.caches c
          { st.caches c with partial_ := list_remove (st.caches c).partial_ s,
                             full := list_push (st.caches c).full s }
      else st.caches := by
  unfold kmem_cache_alloc_from at h
  simp only at h
  split_ifs at h with h1 h2 h3 h4
  all_goals
    simp only [Except.ok.injEq, Prod.mk.injEq] at h
    obtain ⟨rfl, rfl⟩ := h
    simp_all

theorem mem_on_lists {st : State} {c s : Nat} :
    s ∈ on_lists st c ↔
      s ∈ (st.caches c).full ∨ s ∈ (st.caches c).partial_ ∨ s ∈ (st.caches c).empty := by
  simp [on_lists, or_assoc]

theorem SlabWF.fl_sub {st : State} {c s : Nat} {live : Nat → Prop} {fl : List Nat}
    (h : SlabWF st c s live fl) :
    fl ⊆ slot_list s (st.slabs s).stride (st.slabs s).nr_objs := by
  intro o ho
  exact (mem_slot_list _ _).2 (h.fl_slots o ho)

theorem SlabWF.nr_free_le {st : State} {c s : Nat} {live : Nat → Prop} {fl : List Nat}
    (h : SlabWF st c s live fl) : (st.slabs s).nr_free ≤ (st.slabs s).nr_objs := by
  have h1 := (h.nodup.subperm h.fl_sub).length_le
  rw [length_slot_list, h.len] at h1
  exact h1

theorem SlabWF.nr_objs_le {st : State} {c s : Nat} {live : Nat → Prop} {fl : List Nat}
    (h : SlabWF st c s live fl) : (st.slabs s).nr_objs ≤ 4040 := by
  rw [h.nr_objs_eq]
  exact Nat.div_le_self _ _

/-- The slot of an object of a well-formed slab lies in the page of the slab. -/
theorem SlabWF.in_page {st : State} {c s : Nat} {live : Nat → Prop} {fl : List Nat}
    (h : SlabWF st c s live fl) (hfit : FitsSlot (st.caches c).objsize (st.caches c).align)
    {i : Nat} (hi : i < (st.slabs s).nr_objs) :
    s + 72 ≤ slot_obj s (st.slabs s).stride i ∧
    slot_obj s (st.slabs s).stride i + (st.caches c).objsize + 16 ≤ s + PGSIZE := by
  obtain ⟨e, b, g⟩ := h.geom hfit hi
  rw [e]
  unfold PGSIZE
  omega

/-- Pages of two different aligned slabs do not meet. -/
theorem pages_apart {s1 s2 : Nat} (a1 : s1 % PGSIZE = 0) (a2 : s2 % PGSIZE = 0)
    (hne : s1 ≠ s2) : s1 + PGSIZE ≤ s2 ∨ s2 + PGSIZE ≤ s1 := by
  unfold PGSIZE at *
  omega

/-- A slab other than the one an operation works on keeps its description: the
operation changes only the record of the slab `s`, the header of the object `p`
and bytes of the slot of `p`, and the liveness of `p`. -/
theorem SlabWF.other {st st1 : State} {c s c1 s1 : Nat} {live live1 live2 : Nat → Prop}
    {fl fl1 : List Nat} (h : SlabWF st c s live fl)
    (hfit : FitsSlot (st.caches c).objsize (st.caches c).align)
    (h1 : SlabWF st c1 s1 live1 fl1)
    (hfit1 : FitsSlot (st.caches c1).objsize (st.caches c1).align)
    (hne : s1 ≠ s) {i : Nat} (hi : i < (st.slabs s).nr_objs)
    (hs : ∀ x : Nat, x ≠ s → st1.slabs x = st.slabs x)
    (hobj : (st1.caches c1).objsize = (st.caches c1).objsize)
    (halign : (st1.caches c1).align = (st.caches c1).align)
    (hmem : ∀ a : Nat, (a < slot_obj s (st.slabs s).stride i ∨
      slot_obj s (st.slabs s).stride i + (st.caches c).objsize + 16 ≤ a) →
        st1.mem a = st.mem a)
    (hhdr : ∀ a : Nat, a ≠ slot_obj s (st.slabs s).stride i - SIZEOF_HDR →
      st1.hdrs a = st.hdrs a)
    (hlive : ∀ a : Nat, a ≠ slot_obj s (st.slabs s).stride i → (live2 a ↔ live1 a)) :
    SlabWF st1 c1 s1 live2 fl1 := by
  have ip := h.in_page hfit hi
  have pa := pages_apart h1.aligned h.aligned hne
  refine h1.frame hfit1 (hs s1 hne) hobj halign ?_ ?_ ?_
  · intro a ha1 ha2
    apply hmem
    omega
  · intro a ha1 ha2
    apply hhdr
    unfold SIZEOF_HDR
    omega
  · intro a ha1 ha2
    apply hlive
    omega

theorem u32_pred {k : Nat} (h0 : 0 < k) (_h1 : k ≤ 4040) : u32_dec k = k - 1 := by
  unfold u32_dec
  rw [if_neg (by omega)]

theorem u32_succ {k : Nat} (h1 : k < 4040) : u32 (k + 1) = k + 1 := by
  unfold u32
  omega

/-- Cache parameters after `kmem_cache_alloc_from`. -/
theorem alloc_from_params {st st1 : State} {c s p : Nat}
    (h : kmem_cache_alloc_from st c s = .ok (st1, p)) (c1 : Nat) :
    (st1.caches c1).objsize = (st.caches c1).objsize ∧
    (st1.caches c1).align = (st.caches c1).align ∧
    (st1.caches c1).ctor = (st.caches c1).ctor ∧
    (st1.caches c1).dtor = (st.caches c1).dtor := by
  obtain ⟨_, _, _, _, _, _, _, _, _, e⟩ := alloc_from_inv h
  rw [e]
  split_ifs
  · by_cases hc : c1 = c
    · subst hc; simp
    · rw [upd_other _ _ hc]; simp
  · simp

/-- Lists after `kmem_cache_alloc_from`: the slab moves to the full list when its
last free slot was taken, and nothing else changes. -/
theorem alloc_from_lists {st st1 : State} {c s p : Nat}
    (h : kmem_cache_alloc_from st c s = .ok (st1, p)) (c1 : Nat) :
    (c1 ≠ c → st1.caches c1 = st.caches c1) ∧
    (u32_dec (st.slabs s).nr_free = 0 →
      (st1.caches c).full = s :: (st.caches c).full ∧
      (st1.caches c).partial_ = (st.caches c).partial_.erase s ∧
      (st1.caches c).empty = (st.caches c).empty) ∧
    (u32_dec (st.slabs s).nr_free ≠ 0 → st1.caches c = st.caches c) := by
  obtain ⟨_, _, _, _, _, _, _, _, _, e⟩ := alloc_from_inv h
  rw [e]
  refine ⟨?_, ?_, ?_⟩
  · intro hc
    split_ifs
    · rw [upd_other _ _ hc]
    · rfl
  · intro h0
    rw [if_pos h0]
    simp [list_push, list_remove]
  · intro h0
    rw [if_neg h0]

theorem alloc_from_on_lists {st st1 : State} {c s p : Nat}
    (h : kmem_cache_alloc_from st c s = .ok (st1, p))
    (hs : s ∈ (st.caches c).partial_) (hnd : (st.caches c).partial_.Nodup) (c1 x : Nat) :
    x ∈ on_lists st1 c1 ↔ x ∈ on_lists st c1 := by
  obtain ⟨l1, l2, l3⟩ := alloc_from_lists h c1
  by_cases hc : c1 = c
  · subst hc
    by_cases h0 : u32_dec (st.slabs s).nr_free = 0
    · obtain ⟨e1, e2, e3⟩ := l2 h0
      rw [mem_on_lists, mem_on_lists, e1, e2, e3, hnd.mem_erase_iff]
      simp only [List.mem_cons]
      by_cases hx : x = s
      · subst hx; simp [hs]
      · simp [hx]
    · rw [on_lists, on_lists, l3 h0]
  · rw [on_lists, on_lists, l1 hc]

/-- Bytes after `kmem_cache_alloc_from`: nothing changes outside payload and guard
of the object, and the guard holds the sentinel. -/
theorem alloc_from_mem {st st1 : State} {c s p : Nat}
    (h : kmem_cache_alloc_from st c s = .ok (st1, p))
    (hk : HookOK (st.caches c).objsize (st.caches c).ctor) :
    (∀ a : Nat, (a < p ∨ p + (st.caches c).objsize + 16 ≤ a) → st1.mem a = st.mem a) ∧
    (∀ j : Nat, j < RZ_BYTES → st1.mem (p + (st.caches c).objsize + j) = PAT_RZ) := by
  obtain ⟨_, _, _, _, _, _, _, _, e, _⟩ := alloc_from_inv h
  rw [e]
  constructor
  · intro a ha
    rw [run_hook_out hk _ _ (by omega), memset_out _ _ (by unfold RZ_BYTES; omega),
      memset_out _ _ (by omega)]
  · intro j hj
    rw [run_hook_out hk _ _ (by omega), memset_in _ _ (by omega) (by omega)]
    rfl

/-- Headers after `kmem_cache_alloc_from`: the header of the object becomes
allocated and no other header changes. -/
theorem alloc_from_hdrs {st st1 : State} {c s p : Nat}
    (h : kmem_cache_alloc_from st c s = .ok (st1, p)) :
    (st1.hdrs (p - SIZEOF_HDR)).slab = (st.hdrs (p - SIZEOF_HDR)).slab ∧
    (st1.hdrs (p - SIZEOF_HDR)).magic = (st.hdrs (p - SIZEOF_HDR)).magic ∧
    (st1.hdrs (p - SIZEOF_HDR)).state = 1 ∧
    ∀ a : Nat, a ≠ p - SIZEOF_HDR → st1.hdrs a = st.hdrs a := by
  obtain ⟨_, _, _, _, _, _, _, e, _, _⟩ := alloc_from_inv h
  rw [e]
  refine ⟨by simp, by simp, by simp, ?_⟩
  intro a ha
  rw [upd_other _ _ ha]

/-- Slab records after `kmem_cache_alloc_from`: the slab loses the head of its
freelist and one free slot; no other record changes. -/
theorem alloc_from_slabs {st st1 : State} {c s p : Nat}
    (h : kmem_cache_alloc_from st c s = .ok (st1, p)) :
    st1.slabs s = ⟨(st.slabs s).cache, (st.slabs s).page, (st.slabs s).mem,
      (st.slabs s).objsize, (st.slabs s).stride, (st.slabs s).nr_objs,
      u32_dec (st.slabs s).nr_free, load64 st.mem p⟩ ∧
    ∀ x : Nat, x ≠ s → st1.slabs x = st.slabs x := by
  obtain ⟨_, _, _, _, _, _, e, _, _, _⟩ := alloc_from_inv h
  rw [e]
  refine ⟨by simp, ?_⟩
  intro x hx
  rw [upd_other _ _ hx]

/-- The slab an object is taken from stays well formed: its freelist loses its
head, which becomes live. -/
theorem alloc_from_slab {st st1 : State} {c s p : Nat} {live : Nat → Prop} {fl : List Nat}
    (W : SlabWF st c s live fl)
    (fit : FitsSlot (st.caches c).objsize (st.caches c).align)
    (hk : HookOK (st.caches c).objsize (st.caches c).ctor)
    (hfree : 0 < (st.slabs s).nr_free)
    (h : kmem_cache_alloc_from st c s = .ok (st1, p)) :
    ∃ fl1 : List Nat, fl = p :: fl1 ∧ SlabWF st1 c s (fun o => o = p ∨ live o) fl1 ∧
      ¬ live p ∧ ∃ i : Nat, i < (st.slabs s).nr_objs ∧ p = slot_obj s (st.slabs s).stride i := by
  obtain ⟨hp, hp0, _, _, _, _, _, _, _, _⟩ := alloc_from_inv h
  obtain ⟨hm1, hm2⟩ := alloc_from_mem h hk
  obtain ⟨hh1, hh2, hh3, hh4⟩ := alloc_from_hdrs h
  obtain ⟨hs1, hs2⟩ := alloc_from_slabs h
  obtain ⟨po, pa, _, _⟩ := alloc_from_params h c
  cases fl with
  | nil =>
    have := W.len
    simp at this
    omega
  | cons o fl1 =>
    obtain ⟨c1, c2, c3⟩ := W.chain
    have hop : o = p := by rw [hp, c1]
    subst hop
    have nd := W.nodup
    rw [List.nodup_cons] at nd
    obtain ⟨i0, hi0, hpi⟩ := W.fl_slots o (List.mem_cons_self _ _)
    have hle := W.nr_free_le
    have hn := W.nr_objs_le
    have hlen := W.len
    simp only [List.length_cons] at hlen
    -- a slot other than the object is away from it
    have apart : ∀ i : Nat, i < (st.slabs s).nr_objs →
        slot_obj s (st.slabs s).stride i ≠ o →
        slot_obj s (st.slabs s).stride i + (st.caches c).objsize + 16 + 16 ≤ o ∨
        o + (st.caches c).objsize + 16 + 16 ≤ slot_obj s (st.slabs s).stride i := by
      intro i hi hne
      have := slots_apart W W fit fit hi hi0 (by rw [← hpi]; exact hne)
      rw [← hpi] at this
      exact this
    have ge72 : ∀ i : Nat, i < (st.slabs s).nr_objs →
        72 ≤ slot_obj s (st.slabs s).stride i := by
      intro i hi
      have := (W.in_page fit hi).1
      omega
    have hdr_other : ∀ i : Nat, i < (st.slabs s).nr_objs →
        slot_obj s (st.slabs s).stride i ≠ o →
        st1.hdrs (slot_obj s (st.slabs s).stride i - SIZEOF_HDR) =
        st.hdrs (slot_obj s (st.slabs s).stride i - SIZEOF_HDR) := by
      intro i hi hne
      apply hh4
      have := ge72 i hi
      have := ge72 i0 hi0
      rw [← hpi] at this
      unfold SIZEOF_HDR
      omega
    have e_nr : (st1.slabs s).nr_objs = (st.slabs s).nr_objs := by rw [hs1]
    have e_st : (st1.slabs s).stride = (st.slabs s).stride := by rw [hs1]
    refine ⟨fl1, rfl, ?_, ?_, i0, hi0, hpi⟩
    · constructor
      · exact W.nz
      · exact W.aligned
      · exact W.bound
      · rw [hs1]; exact W.cache_eq
      · rw [hs1]; exact W.page_eq
      · rw [hs1]; exact W.mem_eq
      · rw [hs1, po]; exact W.objsize_eq
      · rw [hs1, po, pa]; exact W.stride_eq
      · rw [hs1]; exact W.nr_objs_eq
      · rw [hs1]; exact W.nr_objs_pos
      · rw [hs1]
        refine chain_frame fl1 _ c3 ?_
        intro x hx j hj
        obtain ⟨i, hi, rfl⟩ := W.fl_slots x (List.mem_cons_of_mem _ hx)
        have hne : slot_obj s (st.slabs s).stride i ≠ o := by
          intro e; rw [e] at hx; exact nd.1 hx
        have := apart i hi hne
        apply hm1
        omega
      · exact nd.2
      · rw [hs1]
        simp only
        rw [u32_pred hfree (by omega)]
        omega
      · rw [e_nr, e_st]
        intro x hx
        exact W.fl_slots x (List.mem_cons_of_mem _ hx)
      · rw [e_nr, e_st]
        intro i hi
        by_cases e : slot_obj s (st.slabs s).stride i = o
        · rw [e, hh1, hpi]; exact W.hdr_slab i0 hi0
        · rw [hdr_other i hi e]; exact W.hdr_slab i hi
      · rw [e_nr, e_st]
        intro i hi
        by_cases e : slot_obj s (st.slabs s).stride i = o
        · rw [e, hh2, hpi]; exact W.hdr_magic i0 hi0
        · rw [hdr_other i hi e]; exact W.hdr_magic i hi
      · rw [e_nr, e_st]
        intro i hi
        by_cases e : slot_obj s (st.slabs s).stride i = o
        · rw [e, hh3, if_neg nd.1]
        · rw [hdr_other i hi e, W.hdr_state i hi]
          simp [e]
      · rw [e_nr, e_st]
        intro i hi
        by_cases e : slot_obj s (st.slabs s).stride i = o
        · rw [e]; simp [nd.1]
        · have := W.live_iff i hi
          simp only [List.mem_cons, e, false_or] at this ⊢
          exact this
      · rw [e_nr, e_st, po]
        intro i hi hnot
        rw [guard_ok_iff _ _ _ fit.guard_bound]
        intro j hj
        by_cases e : slot_obj s (st.slabs s).stride i = o
        · rw [e]; exact hm2 j hj
        · have hnot2 : slot_obj s (st.slabs s).stride i ∉ o :: fl1 := by
            simp [e, hnot]
          have g := (guard_ok_iff _ _ _ fit.guard_bound).1 (W.guard i hi hnot2) j hj
          have := apart i hi e
          rw [hm1 _ (by unfold RZ_BYTES at hj; omega)]
          exact g
    · rw [hpi, W.live_iff i0 hi0, ← hpi]
      simp

theorem SlabWF.congr_live {st : State} {c s : Nat} {live live1 : Nat → Prop} {fl : List Nat}
    (h : SlabWF st c s live fl) (hl : ∀ o : Nat, live1 o ↔ live o) :
    SlabWF st c s live1 fl :=
  { h with live_iff := fun i hi => (hl _).trans (h.live_iff i hi) }

/-- A slab on the lists of a cache names that cache, so it is on the lists of no
other cache. -/
theorem InvX.owner {st : State} {g : Ghost} {r : Nat → Prop} (hinv : InvX st g r)
    {c1 c2 s : Nat} (h1 : c1 ∈ g.caches) (h2 : c2 ∈ g.caches)
    (m1 : s ∈ on_lists st c1) (m2 : s ∈ on_lists st c2) : c1 = c2 := by
  obtain ⟨_, _, W1⟩ := hinv.slab_wf c1 h1 s m1
  obtain ⟨_, _, W2⟩ := hinv.slab_wf c2 h2 s m2
  rw [← W1.cache_eq, ← W2.cache_eq]

theorem alloc_from_listsOK {st st1 : State} {g : Ghost} {c s p : Nat}
    (hinv : InvX st g (fun x => x = s)) (hc : c ∈ g.caches)
    (hs : s ∈ (st.caches c).partial_) (hfree : 0 < (st.slabs s).nr_free)
    (h : kmem_cache_alloc_from st c s = .ok (st1, p)) (c1 : Nat) (hc1 : c1 ∈ g.caches) :
    ListsOK st1 c1 (fun _ => False) := by
  obtain ⟨l1, l2, l3⟩ := alloc_from_lists h c1
  obtain ⟨hs1, hs2⟩ := alloc_from_slabs h
  have hson : s ∈ on_lists st c := mem_on_lists.2 (Or.inr (Or.inl hs))
  obtain ⟨_, fl, W⟩ := hinv.slab_wf c hc s hson
  have hle := W.nr_free_le
  have hn := W.nr_objs_le
  have L := hinv.lists c1 hc1
  by_cases hcc : c1 = c
  · subst hcc
    have e_nr : (st1.slabs s).nr_objs = (st.slabs s).nr_objs := by rw [hs1]
    have e_fr : (st1.slabs s).nr_free = (st.slabs s).nr_free - 1 := by
      rw [hs1]
      simp only
      exact u32_pred hfree (by omega)
    have sF : s ∉ (st.caches c1).full := fun hm => (L.on_full s hm).2 rfl
    have sE : s ∉ (st.caches c1).empty := fun hm => (L.on_empty s hm).2 rfl
    by_cases h0 : u32_dec (st.slabs s).nr_free = 0
    · obtain ⟨e1, e2, e3⟩ := l2 h0
      rw [u32_pred hfree (by omega)] at h0
      constructor
      · rw [e1]; exact List.nodup_cons.2 ⟨sF, L.nodup_full⟩
      · rw [e2]; exact L.nodup_part.erase s
      · rw [e3]; exact L.nodup_empty
      · rw [e1]
        intro x hx
        rcases List.mem_cons.1 hx with e | hm
        · subst e
          exact ⟨by omega, fun f => f⟩
        · have hne : x ≠ s := fun e => sF (e ▸ hm)
          rw [hs2 x hne]
          exact ⟨(L.on_full x hm).1, fun f => f⟩
      · rw [e2]
        intro x hx
        obtain ⟨hne, hm⟩ := (L.nodup_part.mem_erase_iff).1 hx
        rw [hs2 x hne]
        rcases L.on_part x hm with e | hcl
        · exact absurd e hne
        · exact Or.inr hcl
      · rw [e3]
        intro x hm
        have hne : x ≠ s := fun e => sE (e ▸ hm)
        rw [hs2 x hne]
        exact ⟨(L.on_empty x hm).1, fun f => f⟩
    · have e := l3 h0
      rw [u32_pred hfree (by omega)] at h0
      constructor
      · rw [e]; exact L.nodup_full
      · rw [e]; exact L.nodup_part
      · rw [e]; exact L.nodup_empty
      · rw [e]
        intro x hm
        have hne : x ≠ s := fun e => sF (e ▸ hm)
        rw [hs2 x hne]
        exact ⟨(L.on_full x hm).1, fun f => f⟩
      · rw [e]
        intro x hm
        by_cases hx : x = s
        · subst hx
          right
          omega
        · rw [hs2 x hx]
          rcases L.on_part x hm with e | hcl
          · exact absurd e hx
          · exact Or.inr hcl
      · rw [e]
        intro x hm
        have hne : x ≠ s := fun e => sE (e ▸ hm)
        rw [hs2 x hne]
        exact ⟨(L.on_empty x hm).1, fun f => f⟩
  · have e := l1 hcc
    have hne : ∀ x : Nat, x ∈ on_lists st c1 → x ≠ s := by
      intro x hx e
      subst e
      exact hcc (hinv.owner hc1 hc hx hson)
    constructor
    · rw [e]; exact L.nodup_full
    · rw [e]; exact L.nodup_part
    · rw [e]; exact L.nodup_empty
    · rw [e]
      intro x hm
      rw [hs2 x (hne x (mem_on_lists.2 (Or.inl hm)))]
      exact ⟨(L.on_full x hm).1, fun f => f⟩
    · rw [e]
      intro x hm
      have hx := hne x (mem_on_lists.2 (Or.inr (Or.inl hm)))
      rw [hs2 x hx]
      rcases L.on_part x hm with e | hcl
      · exact absurd e hx
      · exact Or.inr hcl
    · rw [e]
      intro x hm
      rw [hs2 x (hne x (mem_on_lists.2 (Or.inr (Or.inr hm))))]
      exact ⟨(L.on_empty x hm).1, fun f => f⟩

/-- Taking an object from a slab on the partial list with a free slot restores
the invariant, with the object live. -/
theorem alloc_from_preserves {st st1 : State} {g : Ghost} {c s p : Nat}
    (hinv : InvX st g (fun x => x = s)) (hc : c ∈ g.caches)
    (hs : s ∈ (st.caches c).partial_) (hfree : 0 < (st.slabs s).nr_free)
    (h : kmem_cache_alloc_from st c s = .ok (st1, p)) :
    Inv st1 { g with live := (c, p) :: g.live } ∧
    (st1.hdrs (p - SIZEOF_HDR)).slab = s ∧ p ≠ 0 := by
  obtain ⟨hp, hp0, _, _, e_fp, e_cc, _, _, _, _⟩ := alloc_from_inv h
  have hson : s ∈ on_lists st c := mem_on_lists.2 (Or.inr (Or.inl hs))
  obtain ⟨hsfp, fl, W⟩ := hinv.slab_wf c hc s hson
  have fit := hinv.fits c hc
  have hk := (hinv.hooks c hc).1
  obtain ⟨fl1, hfl, W1, hnl, i0, hi0, hpi⟩ := alloc_from_slab W fit hk hfree h
  obtain ⟨hm1, hm2⟩ := alloc_from_mem h hk
  obtain ⟨hh1, hh2, hh3, hh4⟩ := alloc_from_hdrs h
  obtain ⟨hs1, hs2⟩ := alloc_from_slabs h
  have hol := alloc_from_on_lists h hs (hinv.lists c hc).nodup_part
  have e_nr : ∀ x : Nat, (st1.slabs x).nr_objs = (st.slabs x).nr_objs := by
    intro x
    by_cases hx : x = s
    · subst hx; rw [hs1]
    · rw [hs2 x hx]
  have e_st : ∀ x : Nat, (st1.slabs x).stride = (st.slabs x).stride := by
    intro x
    by_cases hx : x = s
    · subst hx; rw [hs1]
    · rw [hs2 x hx]
  refine ⟨?_, ?_, hp0⟩
  · constructor
    · rw [e_fp]; exact hinv.pages_nodup
    · rw [e_fp]; exact hinv.pages_ok
    · rw [e_fp]; exact hinv.cache_ok
    · intro c1 hc1
      obtain ⟨po, pa, _, _⟩ := alloc_from_params h c1
      rw [po, pa]
      exact hinv.fits c1 hc1
    · intro c1 hc1
      obtain ⟨po, _, pc, pd⟩ := alloc_from_params h c1
      rw [po, pc, pd]
      exact hinv.hooks c1 hc1
    · intro c1 x
      rw [hol]
      exact hinv.slabs_iff c1 x
    · intro c1 hc1
      exact alloc_from_listsOK hinv hc hs hfree h c1 hc1
    · intro c1 hc1 s1 hs1on
      rw [hol] at hs1on
      rw [e_fp]
      obtain ⟨nfp, fl2, W2⟩ := hinv.slab_wf c1 hc1 s1 hs1on
      refine ⟨nfp, ?_⟩
      by_cases hss : s1 = s
      · subst hss
        have hcc : c1 = c := hinv.owner hc1 hc hs1on hson
        subst hcc
        refine ⟨fl1, W1.congr_live ?_⟩
        intro o
        simp
      · obtain ⟨po, pa, _, _⟩ := alloc_from_params h c1
        refine ⟨fl2, SlabWF.other W fit W2 (hinv.fits c1 hc1) hss hi0 hs2 po pa ?_ ?_ ?_⟩
        · intro a ha
          rw [← hpi] at ha
          exact hm1 a ha
        · intro a ha
          rw [← hpi] at ha
          exact hh4 a ha
        · intro a ha
          rw [← hpi] at ha
          simp [ha]
    · intro c1 q hq
      simp only [List.mem_cons, Prod.mk.injEq] at hq
      rcases hq with ⟨e1, e2⟩ | hq
      · subst e1 e2
        refine ⟨hc, s, (hol c1 s).2 hson, i0, ?_, ?_⟩
        · rw [e_nr]; exact hi0
        · rw [e_st]; exact hpi
      · obtain ⟨k1, s2, k2, i, k3, k4⟩ := hinv.live_slot c1 q hq
        refine ⟨k1, s2, (hol c1 s2).2 k2, i, ?_, ?_⟩
        · rw [e_nr]; exact k3
        · rw [e_st]; exact k4
    · show ((c, p) :: g.live).Nodup
      exact List.nodup_cons.2 ⟨hnl, hinv.live_nodup⟩
    · rw [e_cc]; exact hinv.classes
  · rw [hh1, hpi]
    exact W.hdr_slab i0 hi0

/-- The invariant carries over to a state that differs only in how the slabs are
spread over the lists of their caches. -/
theorem InvX.of_lists {st st1 : State} {g : Ghost} {r r1 : Nat → Prop} (hinv : InvX st g r)
    (e_fp : st1.freepages = st.freepages) (e_sl : st1.slabs = st.slabs)
    (e_hd : st1.hdrs = st.hdrs) (e_mem : st1.mem = st.mem)
    (e_cc : st1.class_cache = st.class_cache)
    (hpar : ∀ c : Nat, (st1.caches c).objsize = (st.caches c).objsize ∧
      (st1.caches c).align = (st.caches c).align ∧
      (st1.caches c).ctor = (st.caches c).ctor ∧
      (st1.caches c).dtor = (st.caches c).dtor)
    (hol : ∀ c x : Nat, x ∈ on_lists st1 c ↔ x ∈ on_lists st c)
    (hl : ∀ c : Nat, c ∈ g.caches → ListsOK st1 c r1) : InvX st1 g r1 := by
  constructor
  · rw [e_fp]; exact hinv.pages_nodup
  · rw [e_fp]; exact hinv.pages_ok
  · rw [e_fp]; exact hinv.cache_ok
  · intro c hc
    rw [(hpar c).1, (hpar c).2.1]
    exact hinv.fits c hc
  · intro c hc
    rw [(hpar c).1, (hpar c).2.2.1, (hpar c).2.2.2]
    exact hinv.hooks c hc
  · intro c x
    rw [hol]
    exact hinv.slabs_iff c x
  · exact hl
  · intro c hc s hs
    rw [hol] at hs
    rw [e_fp]
    obtain ⟨nfp, fl, W⟩ := hinv.slab_wf c hc s hs
    refine ⟨nfp, fl, W.frame (hinv.fits c hc) (by rw [e_sl]) (hpar c).1 (hpar c).2.1 ?_ ?_ ?_⟩
    · intro a _ _; rw [e_mem]
    · intro a _ _; rw [e_hd]
    · intro a _ _; rfl
  · intro c p hp
    obtain ⟨k1, s, k2, i, k3, k4⟩ := hinv.live_slot c p hp
    refine ⟨k1, s, (hol c s).2 k2, i, ?_, ?_⟩
    · rw [e_sl]; exact k3
    · rw [e_sl]; exact k4
  · exact hinv.live_nodup
  · rw [e_cc]; exact hinv.classes

/-- A slab on the partial list may be taken into an operation. -/
theorem Inv.relax {st : State} {g : Ghost} (hinv : Inv st g) {c s : Nat} (hc : c ∈ g.caches)
    (hs : s ∈ (st.caches c).partial_) : InvX st g (fun x => x = s) := by
  have hson : s ∈ on_lists st c := mem_on_lists.2 (Or.inr (Or.inl hs))
  have L := hinv.lists c hc
  obtain ⟨_, fl, W⟩ := hinv.slab_wf c hc s hson
  have hcl : 0 < (st.slabs s).nr_free ∧ (st.slabs s).nr_free < (st.slabs s).nr_objs := by
    rcases L.on_part s hs with f | h
    · exact f.elim
    · exact h
  refine hinv.of_lists rfl rfl rfl rfl rfl (fun _ => ⟨rfl, rfl, rfl, rfl⟩)
    (fun _ _ => Iff.rfl) ?_
  intro c1 hc1
  have L1 := hinv.lists c1 hc1
  have hne : ∀ x : Nat, x ∈ (st.caches c1).full ∨ x ∈ (st.caches c1).empty → x ≠ s := by
    intro x hx e
    subst e
    have hx1 : x ∈ on_lists st c1 := by
      rw [mem_on_lists]
      rcases hx with h | h
      · exact Or.inl h
      · exact Or.inr (Or.inr h)
    have hcc : c1 = c := hinv.owner hc1 hc hx1 hson
    subst hcc
    rcases hx with h | h
    · have := (L.on_full x h).1; omega
    · have := (L.on_empty x h).1; omega
  exact
    { nodup_full := L1.nodup_full
      nodup_part := L1.nodup_part
      nodup_empty := L1.nodup_empty
      on_full := fun x hx => ⟨(L1.on_full x hx).1, hne x (Or.inl hx)⟩
      on_part := fun x hx => by
        rcases L1.on_part x hx with f | h
        · exact f.elim
        · exact Or.inr h
      on_empty := fun x hx => ⟨(L1.on_empty x hx).1, hne x (Or.inr hx)⟩ }

/-- Moving a slab from the empty list to the partial list takes it into an
operation. -/
theorem Inv.take_empty {st : State} {g : Ghost} (hinv : Inv st g) {c s : Nat}
    (hc : c ∈ g.caches) (hs : s ∈ (st.caches c).empty) (cc1 : kmem_cache)
    (hcc1 : cc1 = { st.caches c with empty := list_remove (st.caches c).empty s,
                                     partial_ := list_push (st.caches c).partial_ s }) :
    InvX { st with caches := upd st.caches c cc1 } g (fun x => x = s) ∧
    0 < (st.slabs s).nr_free := by
  have hson : s ∈ on_lists st c := mem_on_lists.2 (Or.inr (Or.inr hs))
  have L := hinv.lists c hc
  obtain ⟨_, fl, W⟩ := hinv.slab_wf c hc s hson
  have hcl := (L.on_empty s hs).1
  have hpos := W.nr_objs_pos
  have sP : s ∉ (st.caches c).partial_ := by
    intro hm
    rcases L.on_part s hm with f | h
    · exact f
    · omega
  have sF : s ∉ (st.caches c).full := by
    intro hm
    have := (L.on_full s hm).1
    omega
  subst hcc1
  refine ⟨?_, by omega⟩
  refine hinv.of_lists rfl rfl rfl rfl rfl ?_ ?_ ?_
  · intro c1
    by_cases e : c1 = c
    · subst e; simp
    · simp [upd_other _ _ e]
  · intro c1 x
    by_cases e : c1 = c
    · subst e
      simp only [mem_on_lists, upd_same, list_push, list_remove, List.mem_cons,
        L.nodup_empty.mem_erase_iff]
      by_cases hx : x = s
      · subst hx; simp [hs]
      · simp [hx]
    · simp [on_lists, upd_other _ _ e]
  · intro c1 hc1
    have L1 := hinv.lists c1 hc1
    by_cases e : c1 = c
    · subst e
      constructor
      · simpa using L.nodup_full
      · simpa [list_push] using ⟨sP, L.nodup_part⟩
      · simpa [list_remove] using L.nodup_empty.erase s
      · intro x hx
        simp only [upd_same] at hx
        exact ⟨(L.on_full x hx).1, fun e => sF (e ▸ hx)⟩
      · intro x hx
        simp only [upd_same, list_push, List.mem_cons] at hx
        rcases hx with e | hm
        · exact Or.inl e
        · rcases L.on_part x hm with f | h
          · exact f.elim
          · exact Or.inr h
      · intro x hx
        simp only [upd_same, list_remove, L.nodup_empty.mem_erase_iff] at hx
        exact ⟨(L.on_empty x hx.2).1, hx.1⟩
    · have hne : ∀ x : Nat, x ∈ on_lists st c1 → x ≠ s := by
        intro x hx e1
        subst e1
        exact e (hinv.owner hc1 hc hx hson)
      constructor
      · simpa [upd_other _ _ e] using L1.nodup_full
      · simpa [upd_other _ _ e] using L1.nodup_part
      · simpa [upd_other _ _ e] using L1.nodup_empty
      · intro x hx
        simp only [upd_other _ _ e] at hx
        exact ⟨(L1.on_full x hx).1, hne x (mem_on_lists.2 (Or.inl hx))⟩
      · intro x hx
        simp only [upd_other _ _ e] at hx
        rcases L1.on_part x hx with f | h
        · exact f.elim
        · exact Or.inr h
      · intro x hx
        simp only [upd_other _ _ e] at hx
        exact ⟨(L1.on_empty x hx).1, hne x (mem_on_lists.2 (Or.inr (Or.inr hx)))⟩

/-- The invariant carries over to a state that differs only outside the slabs on
the lists: the supplier may have handed out pages, and records, headers and bytes
outside the pages of these slabs may have changed. -/
theorem InvX.outside {st st1 : State} {g : Ghost} {r : Nat → Prop} (hinv : InvX st g r)
    (e_ca : ∀ c : Nat, c ∈ g.caches → st1.caches c = st.caches c)
    (e_cc : st1.class_cache = st.class_cache)
    (hnd : st1.freepages.Nodup)
    (hsub : ∀ p : Nat, p ∈ st1.freepages → p ∈ st.freepages)
    (hsl : ∀ c : Nat, c ∈ g.caches → ∀ s : Nat, s ∈ on_lists st c →
      st1.slabs s = st.slabs s ∧
      ∀ a : Nat, s ≤ a → a < s + PGSIZE → st1.mem a = st.mem a ∧ st1.hdrs a = st.hdrs a) :
    InvX st1 g r := by
  have hol : ∀ c : Nat, c ∈ g.caches → on_lists st1 c = on_lists st c := by
    intro c hc
    rw [on_lists, on_lists, e_ca c hc]
  constructor
  · exact hnd
  · intro p hp; exact hinv.pages_ok p (hsub p hp)
  · intro c hc
    exact ⟨(hinv.cache_ok c hc).1, fun hm => (hinv.cache_ok c hc).2 (hsub c hm)⟩
  · intro c hc
    rw [e_ca c hc]
    exact hinv.fits c hc
  · intro c hc
    rw [e_ca c hc]
    exact hinv.hooks c hc
  · intro c x
    rw [hinv.slabs_iff c x]
    constructor
    · rintro ⟨hc, hx⟩
      exact ⟨hc, by rw [hol c hc]; exact hx⟩
    · rintro ⟨hc, hx⟩
      exact ⟨hc, by rw [← hol c hc]; exact hx⟩
  · intro c hc
    have L := hinv.lists c hc
    constructor
    · rw [e_ca c hc]; exact L.nodup_full
    · rw [e_ca c hc]; exact L.nodup_part
    · rw [e_ca c hc]; exact L.nodup_empty
    · rw [e_ca c hc]
      intro x hx
      rw [(hsl c hc x (mem_on_lists.2 (Or.inl hx))).1]
      exact L.on_full x hx
    · rw [e_ca c hc]
      intro x hx
      rw [(hsl c hc x (mem_on_lists.2 (Or.inr (Or.inl hx)))).1]
      exact L.on_part x hx
    · rw [e_ca c hc]
      intro x hx
      rw [(hsl c hc x (mem_on_lists.2 (Or.inr (Or.inr hx)))).1]
      exact L.on_empty x hx
  · intro c hc s hs
    rw [hol c hc] at hs
    obtain ⟨nfp, fl, W⟩ := hinv.slab_wf c hc s hs
    obtain ⟨k1, k2⟩ := hsl c hc s hs
    refine ⟨fun hm => nfp (hsub s hm), fl,
      W.frame (hinv.fits c hc) k1 (by rw [e_ca c hc]) (by rw [e_ca c hc]) ?_ ?_ ?_⟩
    · intro a h1 h2; exact (k2 a h1 h2).1
    · intro a h1 h2; exact (k2 a h1 h2).2
    · intro a _ _; rfl
  · intro c p hp
    obtain ⟨k1, s, k2, i, k3, k4⟩ := hinv.live_slot c p hp
    have e := (hsl c k1 s k2).1
    refine ⟨k1, s, by rw [hol c k1]; exact k2, i, ?_, ?_⟩
    · rw [e]; exact k3
    · rw [e]; exact k4
  · exact hinv.live_nodup
  · rw [e_cc]; exact hinv.classes

/-- A live object lies in the page of a slab on the lists of its cache. -/
theorem InvX.live_page {st : State} {g : Ghost} {r : Nat → Prop} (hinv : InvX st g r)
    {c p : Nat} (hp : (c, p) ∈ g.live) :
    ∃ s : Nat, s ∈ on_lists st c ∧ s ≤ p ∧ p < s + PGSIZE := by
  obtain ⟨hc, s, hs, i, hi, e⟩ := hinv.live_slot c p hp
  obtain ⟨_, fl, W⟩ := hinv.slab_wf c hc s hs
  have := W.in_page (hinv.fits c hc) hi
  rw [← e] at this
  exact ⟨s, hs, by omega, by omega⟩

/-- A new well-formed slab, on no list so far, is put on the partial list of its
cache and taken into an operation. -/
theorem Inv.add_slab {st : State} {g : Ghost} (hinv : Inv st g) {c s : Nat} {fl : List Nat}
    (hc : c ∈ g.caches) (hnew : ∀ c1 : Nat, c1 ∈ g.caches → s ∉ on_lists st c1)
    (hfp : s ∉ st.freepages) (W : SlabWF st c s (fun o => (c, o) ∈ g.live) fl)
    (cc1 : kmem_cache)
    (hcc1 : cc1 = { st.caches c with partial_ := list_push (st.caches c).partial_ s }) :
    InvX { st with caches := upd st.caches c cc1 } { g with slabs := (c, s) :: g.slabs }
      (fun x => x = s) := by
  have f1 : cc1.full = (st.caches c).full := by rw [hcc1]
  have f2 : cc1.partial_ = s :: (st.caches c).partial_ := by rw [hcc1]; rfl
  have f3 : cc1.empty = (st.caches c).empty := by rw [hcc1]
  have hpar : ∀ c1 : Nat,
      ((upd st.caches c cc1) c1).objsize = (st.caches c1).objsize ∧
      ((upd st.caches c cc1) c1).align = (st.caches c1).align ∧
      ((upd st.caches c cc1) c1).ctor = (st.caches c1).ctor ∧
      ((upd st.caches c cc1) c1).dtor = (st.caches c1).dtor := by
    intro c1
    by_cases e : c1 = c
    · subst e; simp [hcc1]
    · simp [upd_other _ _ e]
  have hol : ∀ c1 x : Nat,
      x ∈ on_lists { st with caches := upd st.caches c cc1 } c1 ↔
      (x ∈ on_lists st c1 ∨ (c1 = c ∧ x = s)) := by
    intro c1 x
    by_cases e : c1 = c
    · subst e
      simp only [mem_on_lists, upd_same, f1, f2, f3, List.mem_cons]
      tauto
    · simp [on_lists, upd_other _ _ e, e]
  constructor
  · exact hinv.pages_nodup
  · exact hinv.pages_ok
  · exact hinv.cache_ok
  · intro c1 hc1
    rw [(hpar c1).1, (hpar c1).2.1]
    exact hinv.fits c1 hc1
  · intro c1 hc1
    rw [(hpar c1).1, (hpar c1).2.2.1, (hpar c1).2.2.2]
    exact hinv.hooks c1 hc1
  · intro c1 x
    rw [hol]
    simp only [List.mem_cons, Prod.mk.injEq]
    rw [hinv.slabs_iff c1 x]
    constructor
    · rintro (⟨e1, e2⟩ | ⟨h1, h2⟩)
      · subst e1 e2; exact ⟨hc, Or.inr ⟨rfl, rfl⟩⟩
      · exact ⟨h1, Or.inl h2⟩
    · rintro ⟨h1, h2 | ⟨e1, e2⟩⟩
      · exact Or.inr ⟨h1, h2⟩
      · exact Or.inl ⟨e1, e2⟩
  · intro c1 hc1
    have L1 := hinv.lists c1 hc1
    have hne : ∀ x : Nat, x ∈ on_lists st c1 → x ≠ s := by
      intro x hx e1
      subst e1
      exact hnew c1 hc1 hx
    by_cases e : c1 = c
    · subst e
      constructor
      · simpa [f1] using L1.nodup_full
      · simpa [f2] using
          ⟨fun hm => hne s (mem_on_lists.2 (Or.inr (Or.inl hm))) rfl, L1.nodup_part⟩
      · simpa [f3] using L1.nodup_empty
      · intro x hx
        simp only [upd_same, f1] at hx
        exact ⟨(L1.on_full x hx).1, hne x (mem_on_lists.2 (Or.inl hx))⟩
      · intro x hx
        simp only [upd_same, f2, List.mem_cons] at hx
        rcases hx with e | hm
        · exact Or.inl e
        · rcases L1.on_part x hm with f | h
          · exact f.elim
          · exact Or.inr h
      · intro x hx
        simp only [upd_same, f3] at hx
        exact ⟨(L1.on_empty x hx).1, hne x (mem_on_lists.2 (Or.inr (Or.inr hx)))⟩
    · constructor
      · simpa [upd_other _ _ e] using L1.nodup_full
      · simpa [upd_other _ _ e] using L1.nodup_part
      · simpa [upd_other _ _ e] using L1.nodup_empty
      · intro x hx
        simp only [upd_other _ _ e] at hx
        exact ⟨(L1.on_full x hx).1, hne x (mem_on_lists.2 (Or.inl hx))⟩
      · intro x hx
        simp only [upd_other _ _ e] at hx
        rcases L1.on_part x hx with f | h
        · exact f.elim
        · exact Or.inr h
      · intro x hx
        simp only [upd_other _ _ e] at hx
        exact ⟨(L1.on_empty x hx).1, hne x (mem_on_lists.2 (Or.inr (Or.inr hx)))⟩
  · intro c1 hc1 x hx
    rw [hol] at hx
    rcases hx with hx | ⟨e1, e2⟩
    · obtain ⟨nfp, fl2, W2⟩ := hinv.slab_wf c1 hc1 x hx
      refine ⟨nfp, fl2, W2.frame (hinv.fits c1 hc1) rfl (hpar c1).1 (hpar c1).2.1 ?_ ?_ ?_⟩
      · intro a _ _; rfl
      · intro a _ _; rfl
      · intro a _ _; rfl
    · subst e1 e2
      refine ⟨hfp, fl, W.frame (hinv.fits c1 hc1) rfl (hpar c1).1 (hpar c1).2.1 ?_ ?_ ?_⟩
      · intro a _ _; rfl
      · intro a _ _; rfl
      · intro a _ _; rfl
  · intro c1 p hp
    obtain ⟨k1, x, k2, i, k3, k4⟩ := hinv.live_slot c1 p hp
    exact ⟨k1, x, (hol c1 x).2 (Or.inl k2), i, k3, k4⟩
  · exact hinv.live_nodup
  · exact hinv.classes

theorem slab_new_nil {st : State} (c : Nat) (h : st.freepages = []) :
    slab_new st c = .ok (st, 0) := by
  simp [slab_new, kalloc, h]

theorem kalloc_nil {st : State} (h : st.freepages = []) : kalloc st = (0, st) := by
  simp [kalloc, h]

theorem kalloc_cons {st : State} {page : Nat} {rest : List Nat}
    (h : st.freepages = page :: rest) :
    kalloc st = (page, { st with freepages := rest }) := by
  simp [kalloc, h]

/-- With a non-zero stride `slab_new` returns. -/
theorem slab_new_returns (st : State) (c : Nat)
    (hst : slab_stride (st.caches c).objsize (st.caches c).align ≠ 0) :
    ∃ r : State × Nat, slab_new st c = .ok r := by
  have e : (kalloc st).2.caches = st.caches := by
    unfold kalloc
    split <;> rfl
  unfold slab_new
  simp only [e]
  by_cases h1 : (kalloc st).1 = 0
  · rw [if_pos h1]; exact ⟨_, rfl⟩
  · rw [if_neg h1, if_neg hst]
    by_cases h2 : (PGSIZE - SIZEOF_SLAB) / slab_stride (st.caches c).objsize (st.caches c).align = 0
    · rw [if_pos h2]; exact ⟨_, rfl⟩
    · rw [if_neg h2]; exact ⟨_, rfl⟩

/-- The outcome of `slab_new` when the supplier hands out the page `page`. -/
theorem slab_new_cons {st st1 : State} {c s1 : Nat} {page : Nat} {rest : List Nat}
    (h : st.freepages = page :: rest) (hp : page ≠ 0)
    (hr : slab_new st c = .ok (st1, s1)) :
      st1.caches = st.caches ∧ st1.class_cache = st.class_cache ∧
      (∀ x : Nat, x ≠ page → st1.slabs x = st.slabs x) ∧
      (((PGSIZE - SIZEOF_SLAB) / slab_stride (st.caches c).objsize (st.caches c).align = 0 ∧
        s1 = 0 ∧ st1.freepages = st.freepages ∧ st1.hdrs = st.hdrs ∧ st1.mem = st.mem) ∨
       ((PGSIZE - SIZEOF_SLAB) / slab_stride (st.caches c).objsize (st.caches c).align ≠ 0 ∧
        s1 = page ∧ st1.freepages = rest ∧
        st1.slabs page = ⟨c, page, page + SIZEOF_SLAB, (st.caches c).objsize,
          slab_stride (st.caches c).objsize (st.caches c).align,
          (PGSIZE - SIZEOF_SLAB) / slab_stride (st.caches c).objsize (st.caches c).align,
          (PGSIZE - SIZEOF_SLAB) / slab_stride (st.caches c).objsize (st.caches c).align,
          (slab_init page (st.caches c).objsize
            (slab_stride (st.caches c).objsize (st.caches c).align)
            ((PGSIZE - SIZEOF_SLAB) / slab_stride (st.caches c).objsize (st.caches c).align)
            (st.hdrs, st.mem, 0)).2.2⟩ ∧
        st1.hdrs = (slab_init page (st.caches c).objsize
            (slab_stride (st.caches c).objsize (st.caches c).align)
            ((PGSIZE - SIZEOF_SLAB) / slab_stride (st.caches c).objsize (st.caches c).align)
            (st.hdrs, st.mem, 0)).1 ∧
        st1.mem = (slab_init page (st.caches c).objsize
            (slab_stride (st.caches c).objsize (st.caches c).align)
            ((PGSIZE - SIZEOF_SLAB) / slab_stride (st.caches c).objsize (st.caches c).align)
            (st.hdrs, st.mem, 0)).2.1)) := by
  unfold slab_new at hr
  rw [kalloc_cons h] at hr
  simp only [] at hr
  rw [if_neg hp] at hr
  by_cases h1 : slab_stride (st.caches c).objsize (st.caches c).align = 0
  · rw [if_pos h1] at hr
    exact absurd hr (by simp)
  · rw [if_neg h1] at hr
    by_cases h2 : (PGSIZE - SIZEOF_SLAB) /
        slab_stride (st.caches c).objsize (st.caches c).align = 0
    · rw [if_pos h2] at hr
      simp only [Except.ok.injEq, Prod.mk.injEq] at hr
      obtain ⟨e1, e2⟩ := hr
      subst e1
      refine ⟨rfl, rfl, ?_, Or.inl ⟨h2, e2.symm, ?_, rfl, rfl⟩⟩
      · intro x hx
        show upd _ _ _ x = _
        rw [upd_other _ _ hx]
      · show page :: rest = st.freepages
        rw [h]
    · rw [if_neg h2] at hr
      simp only [Except.ok.injEq, Prod.mk.injEq] at hr
      obtain ⟨e1, e2⟩ := hr
      subst e1
      refine ⟨rfl, rfl, ?_, Or.inr ⟨h2, e2.symm, rfl, ?_, rfl, rfl⟩⟩
      · intro x hx
        show upd _ _ _ x = _
        rw [upd_other _ _ hx]
        show upd _ _ _ x = _
        rw [upd_other _ _ hx]
      · show upd _ _ _ page = _
        rw [upd_same]

/-- `slab_new` keeps the invariant; a slab it returns is well formed, with every
slot on its freelist, and is on no list yet. -/
theorem slab_new_preserves {st st1 : State} {g : Ghost} {c s1 : Nat} (hinv : Inv st g)
    (hc : c ∈ g.caches) (hr : slab_new st c = .ok (st1, s1)) :
    Inv st1 g ∧ st1.caches = st.caches ∧
    (s1 = 0 → st.freepages = [] ∨
      (PGSIZE - SIZEOF_SLAB) / slab_stride (st.caches c).objsize (st.caches c).align = 0) ∧
    (s1 ≠ 0 → st.freepages ≠ [] ∧ (∀ c1 : Nat, c1 ∈ g.caches → s1 ∉ on_lists st1 c1) ∧
      s1 ∉ st1.freepages ∧
      (∃ fl : List Nat, SlabWF st1 c s1 (fun o => (c, o) ∈ g.live) fl) ∧
      0 < (st1.slabs s1).nr_free) := by
  have fit := hinv.fits c hc
  have h32 := fit.le
  cases hfp : st.freepages with
  | nil =>
    rw [slab_new_nil c hfp] at hr
    simp only [Except.ok.injEq, Prod.mk.injEq] at hr
    obtain ⟨rfl, rfl⟩ := hr
    exact ⟨hinv, rfl, fun _ => Or.inl rfl, fun h => absurd rfl h⟩
  | cons page rest =>
    have hpm : page ∈ st.freepages := by rw [hfp]; exact List.mem_cons_self _ _
    obtain ⟨hp0, hpa, hpb⟩ := hinv.pages_ok page hpm
    have hnd := hinv.pages_nodup
    rw [hfp, List.nodup_cons] at hnd
    obtain ⟨e_ca, e_cc, e_sl, hcase⟩ := slab_new_cons hfp hp0 hr
    have hown : ∀ c1 : Nat, c1 ∈ g.caches → ∀ s : Nat, s ∈ on_lists st c1 → s ≠ page := by
      intro c1 hc1 s hs e
      subst e
      exact (hinv.slab_wf c1 hc1 s hs).1 hpm
    have hns : (PGSIZE - SIZEOF_SLAB) /
        slab_stride (st.caches c).objsize (st.caches c).align *
        slab_stride (st.caches c).objsize (st.caches c).align ≤ 4040 :=
      Nat.div_mul_le_self 4040 _
    have spec := @slab_init_spec page (st.caches c).objsize
      (slab_stride (st.caches c).objsize (st.caches c).align) st.hdrs st.mem h32 hpb
      ((PGSIZE - SIZEOF_SLAB) / slab_stride (st.caches c).objsize (st.caches c).align)
      (Nat.le_refl _)
    obtain ⟨sp1, sp2, sp3, sp4⟩ := spec
    have hI : Inv st1 g := by
      refine hinv.outside (fun c1 _ => by rw [e_ca]) e_cc ?_ ?_ ?_
      · rcases hcase with ⟨_, _, e, _, _⟩ | ⟨_, _, e, _, _, _⟩
        · rw [e]; exact hinv.pages_nodup
        · rw [e]; exact hnd.2
      · intro p hp
        rcases hcase with ⟨_, _, e, _, _⟩ | ⟨_, _, e, _, _, _⟩
        · rw [e] at hp; exact hp
        · rw [e] at hp; rw [hfp]; exact List.mem_cons_of_mem _ hp
      · intro c1 hc1 s hs
        have hne := hown c1 hc1 s hs
        refine ⟨e_sl s hne, ?_⟩
        intro a ha1 ha2
        rcases hcase with ⟨_, _, _, e1, e2⟩ | ⟨_, _, _, _, e1, e2⟩
        · rw [e1, e2]; exact ⟨rfl, rfl⟩
        · obtain ⟨_, fl, W⟩ := hinv.slab_wf c1 hc1 s hs
          have pa := pages_apart W.aligned hpa hne
          have hout : a < page + SIZEOF_SLAB ∨ page + SIZEOF_SLAB +
              (PGSIZE - SIZEOF_SLAB) / slab_stride (st.caches c).objsize (st.caches c).align *
                slab_stride (st.caches c).objsize (st.caches c).align ≤ a := by
            have k1 : PGSIZE = 4096 := rfl
            have k2 : SIZEOF_SLAB = 56 := rfl
            omega
          rw [e1, e2]
          exact ⟨(sp4 a hout).2, (sp4 a hout).1⟩
    refine ⟨hI, e_ca, ?_, ?_⟩
    · intro hs0
      rcases hcase with ⟨e, _⟩ | ⟨_, e, _⟩
      · exact Or.inr e
      · exact absurd (e.symm.trans hs0) hp0
    · intro hs1
      rcases hcase with ⟨_, e, _⟩ | ⟨hn, e, efp, esl, ehd, emem⟩
      · exact absurd e hs1
      · subst e
        have hol : ∀ c1 : Nat, on_lists st1 c1 = on_lists st c1 := by
          intro c1; rw [on_lists, on_lists, e_ca]
        have e_nr : (st1.slabs s1).nr_objs = (PGSIZE - SIZEOF_SLAB) /
            slab_stride (st.caches c).objsize (st.caches c).align := by rw [esl]
        have e_st : (st1.slabs s1).stride =
            slab_stride (st.caches c).objsize (st.caches c).align := by rw [esl]
        refine ⟨by simp, ?_, ?_, ⟨slot_list s1
          (slab_stride (st.caches c).objsize (st.caches c).align)
          ((PGSIZE - SIZEOF_SLAB) / slab_stride (st.caches c).objsize (st.caches c).align),
          ?_⟩, ?_⟩
        · intro c1 hc1 hm
          rw [hol] at hm
          exact hown c1 hc1 s1 hm rfl
        · rw [efp]; exact hnd.1
        · have inl : ∀ i : Nat, i < (PGSIZE - SIZEOF_SLAB) /
              slab_stride (st.caches c).objsize (st.caches c).align →
              slot_obj s1 (slab_stride (st.caches c).objsize (st.caches c).align) i ∈
                slot_list s1 (slab_stride (st.caches c).objsize (st.caches c).align)
                  ((PGSIZE - SIZEOF_SLAB) /
                    slab_stride (st.caches c).objsize (st.caches c).align) :=
            fun i hi => (mem_slot_list _ _).2 ⟨i, hi, rfl⟩
          constructor
          · exact hp0
          · exact hpa
          · exact hpb
          · rw [esl]
          · rw [esl]
          · rw [esl]
          · rw [esl, e_ca]
          · rw [esl, e_ca]
          · rw [esl]
          · rw [e_nr]; omega
          · rw [emem, esl]; exact sp1
          · exact nodup_slot_list (by omega) _ (Nat.le_refl _)
          · rw [length_slot_list, esl]
          · rw [e_nr, e_st]
            intro o ho
            exact (mem_slot_list _ _).1 ho
          · rw [e_nr, e_st]
            intro i hi
            rw [ehd, sp3 i hi]
          · rw [e_nr, e_st]
            intro i hi
            rw [ehd, sp3 i hi]
          · rw [e_nr, e_st]
            intro i hi
            rw [ehd, sp3 i hi, if_pos (inl i hi)]
          · rw [e_nr, e_st]
            intro i hi
            constructor
            · intro hl
              exfalso
              obtain ⟨s, hs, b1, b2⟩ := hinv.live_page hl
              obtain ⟨_, fl, W⟩ := hinv.slab_wf c hc s hs
              have pa := pages_apart W.aligned hpa (hown c hc s hs)
              have e := slot_obj_eq s1 hi
              have ar := slot_arith hi
              rw [e] at b1 b2
              unfold PGSIZE at pa b2
              omega
            · intro hn2
              exact absurd (inl i hi) hn2
          · rw [e_nr, e_st]
            intro i hi hn2
            exact absurd (inl i hi) hn2
        · rw [esl]
          show 0 < (PGSIZE - SIZEOF_SLAB) /
            slab_stride (st.caches c).objsize (st.caches c).align
          omega

theorem list_head_cons (x : Nat) (l : List Nat) : list_head (x :: l) = x := rfl

theorem list_head_nil : list_head [] = 0 := rfl

/-- A slab on a list is not null. -/
theorem InvX.slab_nz {st : State} {g : Ghost} {r : Nat → Prop} (hinv : InvX st g r)
    {c s : Nat} (hc : c ∈ g.caches) (hs : s ∈ on_lists st c) : s ≠ 0 := by
  obtain ⟨_, fl, W⟩ := hinv.slab_wf c hc s hs
  exact W.nz

/-- `kmem_cache_alloc` keeps the invariant; an object it returns becomes live. -/
theorem kmem_cache_alloc_preserves {st st1 : State} {g : Ghost} {c p : Nat}
    (hinv : Inv st g) (hc : c ∈ g.caches) (h : kmem_cache_alloc st c = .ok (st1, p)) :
    Inv st1 (g.alloc st1 c p) := by
  have hc0 := (hinv.cache_ok c hc).1
  have L := hinv.lists c hc
  unfold kmem_cache_alloc at h
  rw [if_neg hc0] at h
  simp only [] at h
  cases hP : (st.caches c).partial_ with
  | cons x P1 =>
    have hxP : x ∈ (st.caches c).partial_ := by rw [hP]; exact List.mem_cons_self _ _
    have hxon : x ∈ on_lists st c := mem_on_lists.2 (Or.inr (Or.inl hxP))
    have hx0 : x ≠ 0 := hinv.slab_nz hc hxon
    have hxc : 0 < (st.slabs x).nr_free ∧ (st.slabs x).nr_free < (st.slabs x).nr_objs := by
      rcases L.on_part x hxP with f | hcl
      · exact f.elim
      · exact hcl
    have hxE : x ≠ list_head (st.caches c).empty := by
      cases hE : (st.caches c).empty with
      | nil => exact hx0
      | cons y E1 =>
        intro e
        rw [list_head_cons] at e
        have hyE : x ∈ (st.caches c).empty := by rw [hE, e]; exact List.mem_cons_self _ _
        have := (L.on_empty x hyE).1
        omega
    rw [hP, list_head_cons, if_pos hx0, if_neg hx0, if_neg hxE] at h
    obtain ⟨hI, hsl, hp0⟩ := alloc_from_preserves (hinv.relax hc hxP) hc hxP hxc.1 h
    have hin : (c, x) ∈ g.slabs := (hinv.slabs_iff c x).2 ⟨hc, hxon⟩
    have eg : g.alloc st1 c p = { g with live := (c, p) :: g.live } := by
      simp [Ghost.alloc, hp0, hsl, hin]
    rw [eg]
    exact hI
  | nil =>
    rw [hP, list_head_nil] at h
    simp only [ne_eq, not_true_eq_false, if_false] at h
    cases hE : (st.caches c).empty with
    | cons y E1 =>
      have hyE : y ∈ (st.caches c).empty := by rw [hE]; exact List.mem_cons_self _ _
      have hyon : y ∈ on_lists st c := mem_on_lists.2 (Or.inr (Or.inr hyE))
      have hy0 : y ≠ 0 := hinv.slab_nz hc hyon
      rw [hE, list_head_cons, if_neg hy0] at h
      simp only [if_true] at h
      have hte := hinv.take_empty hc hyE _ rfl
      rw [hE, hP] at hte
      obtain ⟨hX, hpos⟩ := hte
      obtain ⟨hI, hsl, hp0⟩ := alloc_from_preserves hX hc (by simp [list_push]) hpos h
      have hin : (c, y) ∈ g.slabs := (hinv.slabs_iff c y).2 ⟨hc, hyon⟩
      have eg : g.alloc st1 c p = { g with live := (c, p) :: g.live } := by
        simp [Ghost.alloc, hp0, hsl, hin]
      rw [eg]
      exact hI
    | nil =>
      rw [hE, list_head_nil] at h
      simp only [if_true] at h
      cases hr : slab_new st c with
      | error e =>
        rw [hr] at h
        simp at h
      | ok r =>
        obtain ⟨st2, s1⟩ := r
        rw [hr] at h
        simp only [] at h
        obtain ⟨hI2, e_ca, hz, hnz⟩ := slab_new_preserves hinv hc hr
        by_cases hs1 : s1 = 0
        · rw [if_pos hs1] at h
          simp only [Except.ok.injEq, Prod.mk.injEq] at h
          obtain ⟨rfl, rfl⟩ := h
          simpa [Ghost.alloc] using hI2
        · rw [if_neg hs1] at h
          obtain ⟨_, hnew, hnfp, ⟨fl, W⟩, hpos⟩ := hnz hs1
          have hX := hI2.add_slab hc hnew hnfp W _ rfl
          have hc2 : c ∈ ({ g with slabs := (c, s1) :: g.slabs } : Ghost).caches := hc
          obtain ⟨hI, hsl, hp0⟩ := alloc_from_preserves hX hc2 (by simp [list_push]) hpos h
          have hnin : (c, s1) ∉ g.slabs := by
            intro hm
            exact hnew c hc ((hI2.slabs_iff c s1).1 hm).2
          have eg : g.alloc st1 c p =
              { ({ g with slabs := (c, s1) :: g.slabs } : Ghost) with
                live := (c, p) :: g.live } := by
            simp [Ghost.alloc, hp0, hsl, hnin]
          rw [eg]
          exact hI

/-- What a completed `kmem_cache_free` of an object with a valid header of the
cache `c` did. -/
theorem free_inv {st st1 : State} {c obj : Nat}
    (h : kmem_cache_free st c obj = .ok st1) (hobj : obj ≠ 0)
    (hmagic : (st.hdrs (obj - SIZEOF_HDR)).magic = SLAB_MAGIC)
    (hs0 : (st.hdrs (obj - SIZEOF_HDR)).slab ≠ 0)
    (hcache : (st.slabs (st.hdrs (obj - SIZEOF_HDR)).slab).cache = c) :
    c ≠ 0 ∧ (st.hdrs (obj - SIZEOF_HDR)).state = 1 ∧
    guard_ok (run_hook (st.caches c).dtor obj st.mem) obj (st.caches c).objsize = true ∧
    st1.freepages = st.freepages ∧ st1.class_cache = st.class_cache ∧
    st1.slabs = upd st.slabs (st.hdrs (obj - SIZEOF_HDR)).slab
      ⟨(st.slabs (st.hdrs (obj - SIZEOF_HDR)).slab).cache,
       (st.slabs (st.hdrs (obj - SIZEOF_HDR)).slab).page,
       (st.slabs (st.hdrs (obj - SIZEOF_HDR)).slab).mem,
       (st.slabs (st.hdrs (obj - SIZEOF_HDR)).slab).objsize,
       (st.slabs (st.hdrs (obj - SIZEOF_HDR)).slab).stride,
       (st.slabs (st.hdrs (obj - SIZEOF_HDR)).slab).nr_objs,
       u32 ((st.slabs (st.hdrs (obj - SIZEOF_HDR)).slab).nr_free + 1), obj⟩ ∧
    st1.hdrs = upd st.hdrs (obj - SIZEOF_HDR)
      ⟨(st.hdrs (obj - SIZEOF_HDR)).slab, (st.hdrs (obj - SIZEOF_HDR)).idx,
       (st.hdrs (obj - SIZEOF_HDR)).magic, 0⟩ ∧
    st1.mem = store64
      (memset (memset (run_hook (st.caches c).dtor obj st.mem) obj PAT_FREE
        (st.caches c).objsize) (obj + (st.caches c).objsize) PAT_RZ RZ_BYTES) obj
      (st.slabs (st.hdrs (obj - SIZEOF_HDR)).slab).free_head ∧
    (∀ c1 : Nat, c1 ≠ c → st1.caches c1 = st.caches c1) ∧
    (st1.caches c).objsize = (st.caches c).objsize ∧
    (st1.caches c).align = (st.caches c).align ∧
    (st1.caches c).ctor = (st.caches c).ctor ∧
    (st1.caches c).dtor = (st.caches c).dtor ∧
    (st1.caches c).full =
      (if (st.slabs (st.hdrs (obj - SIZEOF_HDR)).slab).nr_free = 0 then
        (st.caches c).full.erase (st.hdrs (obj - SIZEOF_HDR)).slab
      else (st.caches c).full) ∧
    (st1.caches c).partial_ =
      (if u32 ((st.slabs (st.hdrs (obj - SIZEOF_HDR)).slab).nr_free + 1) =
          (st.slabs (st.hdrs (obj - SIZEOF_HDR)).slab).nr_objs then
        (if (st.slabs (st.hdrs (obj - SIZEOF_HDR)).slab).nr_free = 0 then
          (st.hdrs (obj - SIZEOF_HDR)).slab :: (st.caches c).partial_
         else (st.caches c).partial_).erase (st.hdrs (obj - SIZEOF_HDR)).slab
      else
        (if (st.slabs (st.hdrs (obj - SIZEOF_HDR)).slab).nr_free = 0 then
          (st.hdrs (obj - SIZEOF_HDR)).slab :: (st.caches c).partial_
         else (st.caches c).partial_)) ∧
    (st1.caches c).empty =
      (if u32 ((st.slabs (st.hdrs (obj - SIZEOF_HDR)).slab).nr_free + 1) =
          (st.slabs (st.hdrs (obj - SIZEOF_HDR)).slab).nr_objs then
        (st.hdrs (obj - SIZEOF_HDR)).slab :: (st.caches c).empty
      else (st.caches c).empty) := by
  unfold kmem_cache_free at h
  rw [if_neg hobj] at h
  simp only [] at h
  rw [if_neg (by simp [hmagic, hs0, hcache])] at h
  by_cases hc0 : c = 0
  · rw [if_pos hc0] at h
    cases h
  rw [if_neg hc0] at h
  by_cases hst : (st.hdrs (obj - SIZEOF_HDR)).state = 1
  swap
  · rw [if_pos hst] at h
    cases h
  rw [if_neg (by simp [hst])] at h
  by_cases hg : guard_ok (run_hook (st.caches c).dtor obj st.mem) obj (st.caches c).objsize
      = true
  swap
  · rw [if_pos (by simpa using hg)] at h
    cases h
  rw [if_neg (by simp [hg])] at h
  injection h with h
  subst h
  refine ⟨hc0, hst, hg, rfl, rfl, rfl, rfl, rfl, ?_, ?_, ?_, ?_, ?_, ?_, ?_, ?_⟩
  · intro c1 hc1
    show upd _ _ _ c1 = _
    rw [upd_other _ _ hc1]
  all_goals
    simp only [upd_same]
    split_ifs <;> simp [list_push, list_remove]

/-- What the invariant says about a live object: its slab, its slot, its header
and its guard. -/
theorem InvX.live_facts {st : State} {g : Ghost} {r : Nat → Prop} (hinv : InvX st g r)
    {c obj : Nat} (hl : (c, obj) ∈ g.live) :
    c ∈ g.caches ∧ ∃ s : Nat, ∃ fl : List Nat, ∃ i0 : Nat, s ∈ on_lists st c ∧
      SlabWF st c s (fun o => (c, o) ∈ g.live) fl ∧ i0 < (st.slabs s).nr_objs ∧
      obj = slot_obj s (st.slabs s).stride i0 ∧ obj ∉ fl ∧ 72 ≤ obj ∧
      (st.hdrs (obj - SIZEOF_HDR)).slab = s ∧
      (st.hdrs (obj - SIZEOF_HDR)).magic = SLAB_MAGIC ∧
      (st.hdrs (obj - SIZEOF_HDR)).state = 1 ∧
      guard_ok st.mem obj (st.caches c).objsize = true ∧
      (st.slabs s).nr_free < (st.slabs s).nr_objs := by
  obtain ⟨hc, s, hs, i0, hi0, e⟩ := hinv.live_slot c obj hl
  obtain ⟨_, fl, W⟩ := hinv.slab_wf c hc s hs
  have fit := hinv.fits c hc
  have hnot : obj ∉ fl := by
    rw [e]
    exact (W.live_iff i0 hi0).1 (by rw [← e]; exact hl)
  have ip := W.in_page fit hi0
  refine ⟨hc, s, fl, i0, hs, W, hi0, e, hnot, ?_, ?_, ?_, ?_, ?_, ?_⟩
  · rw [e]; omega
  · rw [e]; exact W.hdr_slab i0 hi0
  · rw [e]; exact W.hdr_magic i0 hi0
  · rw [e, W.hdr_state i0 hi0, if_neg (by rw [← e]; exact hnot)]
  · rw [e]; exact W.guard i0 hi0 (by rw [← e]; exact hnot)
  · have hsub : (obj :: fl) ⊆ slot_list s (st.slabs s).stride (st.slabs s).nr_objs := by
      intro o ho
      rcases List.mem_cons.1 ho with h1 | h1
      · rw [h1, e]; exact (mem_slot_list _ _).2 ⟨i0, hi0, rfl⟩
      · exact W.fl_sub h1
    have hnd : (obj :: fl).Nodup := List.nodup_cons.2 ⟨hnot, W.nodup⟩
    have := (hnd.subperm hsub).length_le
    rw [length_slot_list, List.length_cons, W.len] at this
    omega

/-- The head of a chain of slots of a slab is an address. -/
theorem SlabWF.head_lt {st : State} {c s : Nat} {live : Nat → Prop} {fl : List Nat}
    (W : SlabWF st c s live fl)
    (fit : FitsSlot (st.caches c).objsize (st.caches c).align) :
    (st.slabs s).free_head < 2 ^ 64 := by
  cases fl with
  | nil =>
    have := W.chain
    simp only [Chain] at this
    rw [this]
    norm_num
  | cons o fl1 =>
    obtain ⟨c1, _, _⟩ := W.chain
    obtain ⟨i, hi, e⟩ := W.fl_slots o (List.mem_cons_self _ _)
    have ip := W.in_page fit hi
    have hb := W.bound
    rw [c1, e]
    omega

/-- Bytes after `kmem_cache_free`: nothing changes outside payload and guard of
the object. -/
theorem free_mem_out {st : State} {c obj fh : Nat}
    (hk : HookOK (st.caches c).objsize (st.caches c).dtor) {a : Nat}
    (ha : a < obj ∨ obj + (st.caches c).objsize + 16 ≤ a) :
    store64
      (memset (memset (run_hook (st.caches c).dtor obj st.mem) obj PAT_FREE
        (st.caches c).objsize) (obj + (st.caches c).objsize) PAT_RZ RZ_BYTES) obj fh a =
    st.mem a := by
  rw [store64_out _ _ (by omega), memset_out _ _ (by unfold RZ_BYTES; omega),
    memset_out _ _ (by omega), run_hook_out hk _ _ (by omega)]

/-- The slab of a released object stays well formed: the object becomes the head
of the freelist and is no longer live. -/
theorem free_slab {st st1 : State} {c s obj i0 : Nat} {live : Nat → Prop} {fl : List Nat}
    (W : SlabWF st c s live fl)
    (fit : FitsSlot (st.caches c).objsize (st.caches c).align)
    (hk : HookOK (st.caches c).objsize (st.caches c).dtor)
    (hi0 : i0 < (st.slabs s).nr_objs) (e : obj = slot_obj s (st.slabs s).stride i0)
    (hnot : obj ∉ fl) (hlt : (st.slabs s).nr_free < (st.slabs s).nr_objs)
    (hsl : st1.slabs s = ⟨(st.slabs s).cache, (st.slabs s).page, (st.slabs s).mem,
      (st.slabs s).objsize, (st.slabs s).stride, (st.slabs s).nr_objs,
      u32 ((st.slabs s).nr_free + 1), obj⟩)
    (hhd : st1.hdrs = upd st.hdrs (obj - SIZEOF_HDR)
      ⟨(st.hdrs (obj - SIZEOF_HDR)).slab, (st.hdrs (obj - SIZEOF_HDR)).idx,
       (st.hdrs (obj - SIZEOF_HDR)).magic, 0⟩)
    (hmem : st1.mem = store64
      (memset (memset (run_hook (st.caches c).dtor obj st.mem) obj PAT_FREE
        (st.caches c).objsize) (obj + (st.caches c).objsize) PAT_RZ RZ_BYTES) obj
      (st.slabs s).free_head)
    (po : (st1.caches c).objsize = (st.caches c).objsize)
    (pa : (st1.caches c).align = (st.caches c).align) :
    SlabWF st1 c s (fun o => o ≠ obj ∧ live o) (obj :: fl) := by
  have hn := W.nr_objs_le
  have ip0 := W.in_page fit hi0
  rw [← e] at ip0
  have hm1 : ∀ a : Nat, (a < obj ∨ obj + (st.caches c).objsize + 16 ≤ a) →
      st1.mem a = st.mem a := by
    intro a ha
    rw [hmem]
    exact free_mem_out hk ha
  have apart : ∀ i : Nat, i < (st.slabs s).nr_objs →
      slot_obj s (st.slabs s).stride i ≠ obj →
      slot_obj s (st.slabs s).stride i + (st.caches c).objsize + 16 + 16 ≤ obj ∨
      obj + (st.caches c).objsize + 16 + 16 ≤ slot_obj s (st.slabs s).stride i := by
    intro i hi hne
    have := slots_apart W W fit fit hi hi0 (by rw [← e]; exact hne)
    rw [← e] at this
    exact this
  have hdr_other : ∀ i : Nat, i < (st.slabs s).nr_objs →
      slot_obj s (st.slabs s).stride i ≠ obj →
      st1.hdrs (slot_obj s (st.slabs s).stride i - SIZEOF_HDR) =
      st.hdrs (slot_obj s (st.slabs s).stride i - SIZEOF_HDR) := by
    intro i hi hne
    rw [hhd]
    apply upd_other
    have := (W.in_page fit hi).1
    unfold SIZEOF_HDR
    omega
  have e_nr : (st1.slabs s).nr_objs = (st.slabs s).nr_objs := by rw [hsl]
  have e_st : (st1.slabs s).stride = (st.slabs s).stride := by rw [hsl]
  constructor
  · exact W.nz
  · exact W.aligned
  · exact W.bound
  · rw [hsl]; exact W.cache_eq
  · rw [hsl]; exact W.page_eq
  · rw [hsl]; exact W.mem_eq
  · rw [hsl, po]; exact W.objsize_eq
  · rw [hsl, po, pa]; exact W.stride_eq
  · rw [hsl]; exact W.nr_objs_eq
  · rw [hsl]; exact W.nr_objs_pos
  · rw [hsl]
    refine ⟨rfl, by omega, ?_⟩
    have e1 : load64 st1.mem obj = (st.slabs s).free_head := by
      rw [hmem]
      exact load64_store64 _ _ (W.head_lt fit)
    rw [e1]
    refine chain_frame fl _ W.chain ?_
    intro x hx j hj
    obtain ⟨i, hi, rfl⟩ := W.fl_slots x hx
    have hne : slot_obj s (st.slabs s).stride i ≠ obj := by
      intro e2; rw [e2] at hx; exact hnot hx
    have := apart i hi hne
    apply hm1
    omega
  · exact List.nodup_cons.2 ⟨hnot, W.nodup⟩
  · rw [hsl]
    simp only [List.length_cons]
    rw [u32_succ (by omega), W.len]
  · rw [e_nr, e_st]
    intro x hx
    rcases List.mem_cons.1 hx with h1 | h1
    · exact ⟨i0, hi0, h1.trans e⟩
    · exact W.fl_slots x h1
  · rw [e_nr, e_st]
    intro i hi
    by_cases e2 : slot_obj s (st.slabs s).stride i = obj
    · rw [e2, hhd, upd_same]
      show (st.hdrs (obj - SIZEOF_HDR)).slab = s
      rw [e]; exact W.hdr_slab i0 hi0
    · rw [hdr_other i hi e2]; exact W.hdr_slab i hi
  · rw [e_nr, e_st]
    intro i hi
    by_cases e2 : slot_obj s (st.slabs s).stride i = obj
    · rw [e2, hhd, upd_same]
      show (st.hdrs (obj - SIZEOF_HDR)).magic = SLAB_MAGIC
      rw [e]; exact W.hdr_magic i0 hi0
    · rw [hdr_other i hi e2]; exact W.hdr_magic i hi
  · rw [e_nr, e_st]
    intro i hi
    by_cases e2 : slot_obj s (st.slabs s).stride i = obj
    · rw [e2, hhd, upd_same, if_pos (List.mem_cons_self _ _)]
    · rw [hdr_other i hi e2, W.hdr_state i hi]
      simp [e2]
  · rw [e_nr, e_st]
    intro i hi
    by_cases e2 : slot_obj s (st.slabs s).stride i = obj
    · rw [e2]; simp
    · have := W.live_iff i hi
      simp only [List.mem_cons, e2, false_or, ne_eq, not_false_eq_true, true_and]
      exact this
  · rw [e_nr, e_st, po]
    intro i hi hn2
    have e2 : slot_obj s (st.slabs s).stride i ≠ obj := by
      intro e3; exact hn2 (by rw [e3]; exact List.mem_cons_self _ _)
    have hn3 : slot_obj s (st.slabs s).stride i ∉ fl :=
      fun hm => hn2 (List.mem_cons_of_mem _ hm)
    rw [guard_ok_iff _ _ _ fit.guard_bound]
    intro j hj
    have g := (guard_ok_iff _ _ _ fit.guard_bound).1 (W.guard i hi hn3) j hj
    have := apart i hi e2
    rw [hm1 _ (by unfold RZ_BYTES at hj; omega)]
    exact g

/-- The lists after a release: slabs other than `s` stay where they are. -/
theorem free_lists_others {F P E : List Nat} {s k k1 n x : Nat} (hF : F.Nodup) (hP : P.Nodup)
    (hx : x ≠ s) :
    (x ∈ (if k = 0 then F.erase s else F) ↔ x ∈ F) ∧
    (x ∈ (if k1 = n then (if k = 0 then s :: P else P).erase s
          else (if k = 0 then s :: P else P)) ↔ x ∈ P) ∧
    (x ∈ (if k1 = n then s :: E else E) ↔ x ∈ E) := by
  refine ⟨?_, ?_, ?_⟩
  · split_ifs
    · rw [hF.mem_erase_iff]; simp [hx]
    · rfl
  · split_ifs
    · rw [List.erase_cons_head]
    · rw [hP.mem_erase_iff]; simp [hx]
    · simp [hx]
    · rfl
  · split_ifs
    · simp [hx]
    · rfl

/-- The lists after a release hold no slab twice. -/
theorem free_lists_nodup {F P E : List Nat} {s k k1 n : Nat} (hF : F.Nodup) (hP : P.Nodup)
    (hE : E.Nodup) (hsP : k = 0 → s ∉ P) (hsE : s ∉ E) :
    (if k = 0 then F.erase s else F).Nodup ∧
    (if k1 = n then (if k = 0 then s :: P else P).erase s
          else (if k = 0 then s :: P else P)).Nodup ∧
    (if k1 = n then s :: E else E).Nodup := by
  refine ⟨?_, ?_, ?_⟩
  · split_ifs
    · exact hF.erase s
    · exact hF
  · split_ifs with h1 h2 h3
    · rw [List.erase_cons_head]; exact hP
    · exact hP.erase s
    · exact List.nodup_cons.2 ⟨hsP h3, hP⟩
    · exact hP
  · split_ifs
    · exact List.nodup_cons.2 ⟨hsE, hE⟩
    · exact hE

/-- `kmem_cache_free` of a live object keeps the invariant; the object is no longer
live. -/
theorem kmem_cache_free_preserves {st st1 : State} {g : Ghost} {c obj : Nat}
    (hinv : Inv st g) (hl : (c, obj) ∈ g.live) (h : kmem_cache_free st c obj = .ok st1) :
    Inv st1 (g.free c obj) := by
  obtain ⟨hc, s, fl, i0, hson, W, hi0, e, hnot, h72, hsl, hmag, hstate, hguard, hlt⟩ :=
    hinv.live_facts hl
  have fit := hinv.fits c hc
  have hk := (hinv.hooks c hc).2
  have L := hinv.lists c hc
  have hn := W.nr_objs_le
  obtain ⟨_, _, _, e_fp, e_cc, e_sl, e_hd, e_mem, e_oth, po, pa, pc, pd, eF, eP, eE⟩ :=
    free_inv h (by omega) hmag (by rw [hsl]; exact W.nz) (by rw [hsl]; exact W.cache_eq)
  have e_hd0 := e_hd
  rw [hsl] at e_sl e_hd e_mem eF eP eE
  rw [u32_succ (by omega)] at eP eE
  have hs1 : st1.slabs s = ⟨(st.slabs s).cache, (st.slabs s).page, (st.slabs s).mem,
      (st.slabs s).objsize, (st.slabs s).stride, (st.slabs s).nr_objs,
      u32 ((st.slabs s).nr_free + 1), obj⟩ := by rw [e_sl, upd_same]
  have hs2 : ∀ x : Nat, x ≠ s → st1.slabs x = st.slabs x := by
    intro x hx; rw [e_sl, upd_other _ _ hx]
  have e_fr : (st1.slabs s).nr_free = (st.slabs s).nr_free + 1 := by
    rw [hs1]; exact u32_succ (by omega)
  have e_nr : ∀ x : Nat, (st1.slabs x).nr_objs = (st.slabs x).nr_objs := by
    intro x
    by_cases hx : x = s
    · subst hx; rw [hs1]
    · rw [hs2 x hx]
  have e_st : ∀ x : Nat, (st1.slabs x).stride = (st.slabs x).stride := by
    intro x
    by_cases hx : x = s
    · subst hx; rw [hs1]
    · rw [hs2 x hx]
  -- where the slab is before the release
  have sE : s ∉ (st.caches c).empty := by
    intro hm
    have := (L.on_empty s hm).1
    omega
  have sF : s ∈ (st.caches c).full → (st.slabs s).nr_free = 0 := fun hm => (L.on_full s hm).1
  have sP : s ∈ (st.caches c).partial_ → (st.slabs s).nr_free ≠ 0 := by
    intro hm
    rcases L.on_part s hm with f | hcl
    · exact f.elim
    · omega
  have sP2 : (st.slabs s).nr_free ≠ 0 → s ∈ (st.caches c).partial_ := by
    intro hk0
    rcases mem_on_lists.1 hson with h1 | h1 | h1
    · exact absurd (sF h1) hk0
    · exact h1
    · exact absurd h1 sE
  have hpar : ∀ c1 : Nat, (st1.caches c1).objsize = (st.caches c1).objsize ∧
      (st1.caches c1).align = (st.caches c1).align ∧
      (st1.caches c1).ctor = (st.caches c1).ctor ∧
      (st1.caches c1).dtor = (st.caches c1).dtor := by
    intro c1
    by_cases hcc : c1 = c
    · subst hcc; exact ⟨po, pa, pc, pd⟩
    · rw [e_oth c1 hcc]; exact ⟨rfl, rfl, rfl, rfl⟩
  have hol : ∀ c1 x : Nat, x ∈ on_lists st1 c1 ↔ x ∈ on_lists st c1 := by
    intro c1 x
    by_cases hcc : c1 = c
    · subst hcc
      by_cases hx : x = s
      · subst hx
        refine ⟨fun _ => hson, fun _ => ?_⟩
        rw [mem_on_lists, eP, eE]
        by_cases h1 : (st.slabs x).nr_free + 1 = (st.slabs x).nr_objs
        · right; right; rw [if_pos h1]; exact List.mem_cons_self _ _
        · right; left
          rw [if_neg h1]
          by_cases h2 : (st.slabs x).nr_free = 0
          · rw [if_pos h2]; exact List.mem_cons_self _ _
          · rw [if_neg h2]; exact sP2 h2
      · obtain ⟨m1, m2, m3⟩ := @free_lists_others _ _ (st.caches c1).empty _
          (st.slabs s).nr_free ((st.slabs s).nr_free + 1)
          (st.slabs s).nr_objs _ L.nodup_full L.nodup_part hx
        rw [mem_on_lists, mem_on_lists, eF, eP, eE, m1, m2, m3]
    · rw [on_lists, on_lists, e_oth c1 hcc]
  have hlive : ∀ c1 o : Nat, (c1, o) ∈ g.live.erase (c, obj) ↔
      ((c1, o) ≠ (c, obj) ∧ (c1, o) ∈ g.live) := by
    intro c1 o
    exact hinv.live_nodup.mem_erase_iff
  have hm1 : ∀ a : Nat, (a < obj ∨ obj + (st.caches c).objsize + 16 ≤ a) →
      st1.mem a = st.mem a := by
    intro a ha
    rw [e_mem]
    exact free_mem_out hk ha
  constructor
  · rw [e_fp]; exact hinv.pages_nodup
  · rw [e_fp]; exact hinv.pages_ok
  · rw [e_fp]; exact hinv.cache_ok
  · intro c1 hc1
    rw [(hpar c1).1, (hpar c1).2.1]
    exact hinv.fits c1 hc1
  · intro c1 hc1
    rw [(hpar c1).1, (hpar c1).2.2.1, (hpar c1).2.2.2]
    exact hinv.hooks c1 hc1
  · intro c1 x
    rw [hol]
    exact hinv.slabs_iff c1 x
  · intro c1 hc1
    have L1 := hinv.lists c1 hc1
    by_cases hcc : c1 = c
    · subst hcc
      obtain ⟨n1, n2, n3⟩ := @free_lists_nodup _ _ _ _ (st.slabs s).nr_free
        ((st.slabs s).nr_free + 1) (st.slabs s).nr_objs
        L.nodup_full L.nodup_part L.nodup_empty
        (fun hk0 hm => sP hm hk0) sE
      have oth : ∀ x : Nat, x ≠ s → _ := fun x hx =>
        @free_lists_others _ _ (st.caches c1).empty _
          (st.slabs s).nr_free ((st.slabs s).nr_free + 1)
          (st.slabs s).nr_objs _ L.nodup_full L.nodup_part hx
      constructor
      · rw [eF]; exact n1
      · rw [eP]; exact n2
      · rw [eE]; exact n3
      · rw [eF]
        intro x hx
        have hxs : x ≠ s := by
          intro e1
          subst e1
          by_cases h2 : (st.slabs x).nr_free = 0
          · rw [if_pos h2] at hx
            exact ((L.nodup_full.mem_erase_iff).1 hx).1 rfl
          · rw [if_neg h2] at hx
            exact h2 (sF hx)
        rw [hs2 x hxs]
        exact L.on_full x (((oth x hxs).1).1 hx)
      · rw [eP]
        intro x hx
        right
        by_cases hxs : x = s
        · subst hxs
          by_cases h1 : (st.slabs x).nr_free + 1 = (st.slabs x).nr_objs
          · rw [if_pos h1] at hx
            exfalso
            by_cases h2 : (st.slabs x).nr_free = 0
            · rw [if_pos h2, List.erase_cons_head] at hx
              exact sP hx h2
            · rw [if_neg h2] at hx
              exact ((L.nodup_part.mem_erase_iff).1 hx).1 rfl
          · rw [e_fr, e_nr]
            omega
        · rw [hs2 x hxs]
          rcases L.on_part x (((oth x hxs).2.1).1 hx) with f | hcl
          · exact f.elim
          · exact hcl
      · rw [eE]
        intro x hx
        by_cases hxs : x = s
        · subst hxs
          by_cases h1 : (st.slabs x).nr_free + 1 = (st.slabs x).nr_objs
          · rw [e_fr, e_nr]
            exact ⟨h1, fun f => f⟩
          · rw [if_neg h1] at hx
            exact absurd hx sE
        · rw [hs2 x hxs]
          exact L.on_empty x (((oth x hxs).2.2).1 hx)
    · have e1 := e_oth c1 hcc
      have hne : ∀ x : Nat, x ∈ on_lists st c1 → x ≠ s := by
        intro x hx e2
        subst e2
        exact hcc (hinv.owner hc1 hc hx hson)
      constructor
      · rw [e1]; exact L1.nodup_full
      · rw [e1]; exact L1.nodup_part
      · rw [e1]; exact L1.nodup_empty
      · rw [e1]
        intro x hm
        rw [hs2 x (hne x (mem_on_lists.2 (Or.inl hm)))]
        exact L1.on_full x hm
      · rw [e1]
        intro x hm
        rw [hs2 x (hne x (mem_on_lists.2 (Or.inr (Or.inl hm))))]
        exact L1.on_part x hm
      · rw [e1]
        intro x hm
        rw [hs2 x (hne x (mem_on_lists.2 (Or.inr (Or.inr hm))))]
        exact L1.on_empty x hm
  · intro c1 hc1 s1 hs1on
    rw [hol] at hs1on
    rw [e_fp]
    obtain ⟨nfp, fl2, W2⟩ := hinv.slab_wf c1 hc1 s1 hs1on
    refine ⟨nfp, ?_⟩
    by_cases hss : s1 = s
    · subst hss
      have hcc : c1 = c := hinv.owner hc1 hc hs1on hson
      subst hcc
      refine ⟨obj :: fl, (free_slab W fit hk hi0 e hnot hlt hs1 e_hd0 e_mem po pa).congr_live ?_⟩
      intro o
      show (c1, o) ∈ g.live.erase (c1, obj) ↔ _
      rw [hlive]
      simp
    · refine ⟨fl2, SlabWF.other W fit W2 (hinv.fits c1 hc1) hss hi0 hs2 (hpar c1).1
        (hpar c1).2.1 ?_ ?_ ?_⟩
      · intro a ha
        rw [← e] at ha
        exact hm1 a ha
      · intro a ha
        rw [← e] at ha
        rw [e_hd, upd_other _ _ ha]
      · intro a ha
        rw [← e] at ha
        show (c1, a) ∈ g.live.erase (c, obj) ↔ _
        rw [hlive]
        simp [ha]
  · intro c1 q hq
    have hq2 := ((hlive c1 q).1 hq).2
    obtain ⟨k1, s2, k2, i, k3, k4⟩ := hinv.live_slot c1 q hq2
    refine ⟨k1, s2, (hol c1 s2).2 k2, i, ?_, ?_⟩
    · rw [e_nr]; exact k3
    · rw [e_st]; exact k4
  · exact hinv.live_nodup.erase _
  · rw [e_cc]; exact hinv.classes

theorem slab_stride_default (objsize align : Nat) :
    slab_stride objsize (if align ≠ 0 then align else CACHE_DEFAULT_ALIGN) =
      slab_stride objsize align := by
  unfold slab_stride
  by_cases h : align = 0
  · subst h
    simp [CACHE_DEFAULT_ALIGN]
  · simp [h]

/-- A cache without slabs joins the caches of the history. -/
theorem InvX.add_cache {st : State} {g : Ghost} {r : Nat → Prop} (hinv : InvX st g r)
    {c : Nat} (hnew : c ∉ g.caches) (hc0 : c ≠ 0) (hfp : c ∉ st.freepages)
    (hF : (st.caches c).full = []) (hP : (st.caches c).partial_ = [])
    (hE : (st.caches c).empty = [])
    (fit : FitsSlot (st.caches c).objsize (st.caches c).align)
    (hk1 : HookOK (st.caches c).objsize (st.caches c).ctor)
    (hk2 : HookOK (st.caches c).objsize (st.caches c).dtor) :
    InvX st { g with caches := c :: g.caches } r := by
  have hnone : ∀ x : Nat, x ∉ on_lists st c := by
    intro x
    simp [on_lists, hF, hP, hE]
  constructor
  · exact hinv.pages_nodup
  · exact hinv.pages_ok
  · intro c1 hc1
    rcases List.mem_cons.1 hc1 with e | hm
    · subst e; exact ⟨hc0, hfp⟩
    · exact hinv.cache_ok c1 hm
  · intro c1 hc1
    rcases List.mem_cons.1 hc1 with e | hm
    · subst e; exact fit
    · exact hinv.fits c1 hm
  · intro c1 hc1
    rcases List.mem_cons.1 hc1 with e | hm
    · subst e; exact ⟨hk1, hk2⟩
    · exact hinv.hooks c1 hm
  · intro c1 x
    rw [hinv.slabs_iff c1 x]
    constructor
    · rintro ⟨h1, h2⟩
      exact ⟨List.mem_cons_of_mem _ h1, h2⟩
    · rintro ⟨h1, h2⟩
      rcases List.mem_cons.1 h1 with e | hm
      · subst e; exact absurd h2 (hnone x)
      · exact ⟨hm, h2⟩
  · intro c1 hc1
    rcases List.mem_cons.1 hc1 with e | hm
    · subst e
      constructor
      · rw [hF]; exact List.nodup_nil
      · rw [hP]; exact List.nodup_nil
      · rw [hE]; exact List.nodup_nil
      · rw [hF]; intro x hx; cases hx
      · rw [hP]; intro x hx; cases hx
      · rw [hE]; intro x hx; cases hx
    · exact hinv.lists c1 hm
  · intro c1 hc1 x hx
    rcases List.mem_cons.1 hc1 with e | hm
    · subst e; exact absurd hx (hnone x)
    · exact hinv.slab_wf c1 hm x hx
  · intro c1 p hp
    obtain ⟨k1, k2⟩ := hinv.live_slot c1 p hp
    exact ⟨List.mem_cons_of_mem _ k1, k2⟩
  · exact hinv.live_nodup
  · intro i
    rcases hinv.classes i with h | h
    · exact Or.inl h
    · exact Or.inr (List.mem_cons_of_mem _ h)

/-- The entry of a class in `class_cache` may be set to null or to a cache of the
history. -/
theorem InvX.set_class {st : State} {g : Ghost} {r : Nat → Prop} (hinv : InvX st g r)
    (i c : Nat) (hc : c = 0 ∨ c ∈ g.caches) :
    InvX { st with class_cache := upd st.class_cache i c } g r := by
  constructor
  · exact hinv.pages_nodup
  · exact hinv.pages_ok
  · exact hinv.cache_ok
  · exact hinv.fits
  · exact hinv.hooks
  · exact hinv.slabs_iff
  · intro c1 hc1
    have L := hinv.lists c1 hc1
    exact ⟨L.nodup_full, L.nodup_part, L.nodup_empty, L.on_full, L.on_part, L.on_empty⟩
  · intro c1 hc1 s hs
    obtain ⟨nfp, fl, W⟩ := hinv.slab_wf c1 hc1 s hs
    refine ⟨nfp, fl, W.frame (hinv.fits c1 hc1) rfl rfl rfl ?_ ?_ ?_⟩
    · intro a _ _; rfl
    · intro a _ _; rfl
    · intro a _ _; rfl
  · exact hinv.live_slot
  · exact hinv.live_nodup
  · intro j
    show upd st.class_cache i c j = 0 ∨ upd st.class_cache i c j ∈ g.caches
    by_cases e : j = i
    · subst e; rw [upd_same]; exact hc
    · rw [upd_other _ _ e]; exact hinv.classes j

/-- `kmem_cache_create` keeps the invariant; a cache it returns joins the caches of
the history. -/
theorem kmem_cache_create_preserves {st : State} {g : Ghost} (hinv : Inv st g)
    (objsize align : Nat) (ctor dtor : Option Hook) :
    ((kmem_cache_create st objsize ctor dtor align).2 = 0 →
      (kmem_cache_create st objsize ctor dtor align).1 = st) ∧
    ((kmem_cache_create st objsize ctor dtor align).2 ≠ 0 →
      FitsSlot objsize align → HookOK objsize ctor → HookOK objsize dtor →
      Inv (kmem_cache_create st objsize ctor dtor align).1
        { g with caches := (kmem_cache_create st objsize ctor dtor align).2 :: g.caches } ∧
      (kmem_cache_create st objsize ctor dtor align).1.class_cache = st.class_cache) := by
  cases hfp : st.freepages with
  | nil =>
    have e : kmem_cache_create st objsize ctor dtor align = (st, 0) := by
      simp [kmem_cache_create, kalloc, hfp]
    rw [e]
    exact ⟨fun _ => rfl, fun h => absurd rfl h⟩
  | cons page rest =>
    have hpm : page ∈ st.freepages := by rw [hfp]; exact List.mem_cons_self _ _
    obtain ⟨hp0, hpa, hpb⟩ := hinv.pages_ok page hpm
    have hnd := hinv.pages_nodup
    rw [hfp, List.nodup_cons] at hnd
    have e : kmem_cache_create st objsize ctor dtor align =
        ({ ({ st with freepages := rest } : State) with
            caches := upd st.caches page
              ⟨objsize, if align ≠ 0 then align else CACHE_DEFAULT_ALIGN, ctor, dtor,
                [], [], []⟩ }, page) := by
      simp [kmem_cache_create, kalloc_cons hfp, hp0]
    rw [e]
    refine ⟨fun h => absurd h hp0, ?_⟩
    intro _ fit hk1 hk2
    refine ⟨?_, rfl⟩
    have hnew : page ∉ g.caches := fun hm => (hinv.cache_ok page hm).2 hpm
    have h1 : InvX ({ ({ st with freepages := rest } : State) with
            caches := upd st.caches page
              ⟨objsize, if align ≠ 0 then align else CACHE_DEFAULT_ALIGN, ctor, dtor,
                [], [], []⟩ }) g (fun _ => False) := by
      refine hinv.outside ?_ rfl hnd.2 ?_ ?_
      · intro c hc
        show upd _ _ _ c = _
        rw [upd_other]
        intro e1
        subst e1
        exact hnew hc
      · intro p hp
        rw [hfp]
        exact List.mem_cons_of_mem _ hp
      · intro c hc s hs
        exact ⟨rfl, fun a _ _ => ⟨rfl, rfl⟩⟩
    refine h1.add_cache hnew hp0 hnd.1 ?_ ?_ ?_ ?_ ?_ ?_
    · simp only [upd_same]
    · simp only [upd_same]
    · simp only [upd_same]
    · simp only [upd_same]
      unfold FitsSlot
      rw [slab_stride_default]
      exact fit
    · simp only [upd_same]
      exact hk1
    · simp only [upd_same]
      exact hk2

/-- A client store into the payload of a live object keeps the invariant. -/
theorem write_preserves {st : State} {g : Ghost} {c p off : Nat} (hinv : Inv st g)
    (hl : (c, p) ∈ g.live) (hoff : off < (st.caches c).objsize) (v : Nat) :
    Inv (write_byte st (p + off) v) g := by
  obtain ⟨hc, s, fl, i0, hson, W, hi0, e, hnot, h72, _, _, _, _, _⟩ := hinv.live_facts hl
  have fit := hinv.fits c hc
  have hm1 : ∀ a : Nat, (a < p ∨ p + (st.caches c).objsize ≤ a) →
      (write_byte st (p + off) v).mem a = st.mem a := by
    intro a ha
    show upd st.mem (p + off) (v % 256) a = st.mem a
    rw [upd_other]
    omega
  constructor
  · exact hinv.pages_nodup
  · exact hinv.pages_ok
  · exact hinv.cache_ok
  · exact hinv.fits
  · exact hinv.hooks
  · exact hinv.slabs_iff
  · intro c1 hc1
    have L := hinv.lists c1 hc1
    exact ⟨L.nodup_full, L.nodup_part, L.nodup_empty, L.on_full, L.on_part, L.on_empty⟩
  · intro c1 hc1 s1 hs1
    obtain ⟨nfp, fl2, W2⟩ := hinv.slab_wf c1 hc1 s1 hs1
    refine ⟨nfp, ?_⟩
    by_cases hss : s1 = s
    · subst hss
      have hcc : c1 = c := hinv.owner hc1 hc hs1 hson
      subst hcc
      have hfl : fl2 = fl := chain_unique _ _ _ W2.chain W.chain
      subst hfl
      have apart : ∀ i : Nat, i < (st.slabs s1).nr_objs →
          slot_obj s1 (st.slabs s1).stride i ≠ p →
          slot_obj s1 (st.slabs s1).stride i + (st.caches c1).objsize + 16 + 16 ≤ p ∨
          p + (st.caches c1).objsize + 16 + 16 ≤ slot_obj s1 (st.slabs s1).stride i := by
        intro i hi hne
        have := slots_apart W W fit fit hi hi0 (by rw [← e]; exact hne)
        rw [← e] at this
        exact this
      refine ⟨fl2, ?_⟩
      exact
        { nz := W.nz
          aligned := W.aligned
          bound := W.bound
          cache_eq := W.cache_eq
          page_eq := W.page_eq
          mem_eq := W.mem_eq
          objsize_eq := W.objsize_eq
          stride_eq := W.stride_eq
          nr_objs_eq := W.nr_objs_eq
          nr_objs_pos := W.nr_objs_pos
          chain := by
            refine chain_frame fl2 _ W.chain ?_
            intro x hx j hj
            obtain ⟨i, hi, rfl⟩ := W.fl_slots x hx
            have hne : slot_obj s1 (st.slabs s1).stride i ≠ p := by
              intro e2; rw [e2] at hx; exact hnot hx
            have := apart i hi hne
            apply hm1
            omega
          nodup := W.nodup
          len := W.len
          fl_slots := W.fl_slots
          hdr_slab := W.hdr_slab
          hdr_magic := W.hdr_magic
          hdr_state := W.hdr_state
          live_iff := W.live_iff
          guard := by
            intro i hi hn2
            refine (guard_ok_iff _ _ _ fit.guard_bound).2 ?_
            intro j hj
            have g1 := (guard_ok_iff _ _ _ fit.guard_bound).1 (W.guard i hi hn2) j hj
            have hw : (write_byte st (p + off) v).mem
                (slot_obj s1 (st.slabs s1).stride i + (st.caches c1).objsize + j) =
                st.mem (slot_obj s1 (st.slabs s1).stride i + (st.caches c1).objsize + j) := by
              apply hm1
              by_cases e2 : slot_obj s1 (st.slabs s1).stride i = p
              · rw [e2]; omega
              · have := apart i hi e2
                unfold RZ_BYTES at hj
                omega
            exact hw.trans g1 }
    · refine ⟨fl2, SlabWF.other W fit W2 (hinv.fits c1 hc1) hss hi0 (fun _ _ => rfl) rfl rfl
        ?_ ?_ ?_⟩
      · intro a ha
        rw [← e] at ha
        apply hm1
        omega
      · intro a _
        rfl
      · intro a _
        rfl
  · exact hinv.live_slot
  · exact hinv.live_nodup
  · exact hinv.classes

/-- For a live object `kfree_slab` is `kmem_cache_free` on the cache it was
allocated from. -/
theorem kfree_slab_live {st : State} {g : Ghost} {r : Nat → Prop} (hinv : InvX st g r)
    {c p : Nat} (hl : (c, p) ∈ g.live) : kfree_slab st p = kmem_cache_free st c p := by
  obtain ⟨hc, s, fl, i0, hson, W, hi0, e, hnot, h72, hsl, hmag, _, _, _⟩ := hinv.live_facts hl
  have hc0 := (hinv.cache_ok c hc).1
  unfold kfree_slab
  rw [if_neg (by omega)]
  simp only []
  rw [if_neg (by simp [hmag, hsl, W.nz, W.cache_eq, hc0]), hsl, W.cache_eq]

theorem fits_class (i : Nat) (hi : i < N_CLASS) : FitsSlot (size_classes.getD i 0) 16 := by
  simp only [N_CLASS, size_classes, List.length] at hi
  unfold FitsSlot
  interval_cases i <;> decide

theorem hook_none (objsize : Nat) : HookOK objsize none := by
  intro f hf
  cases hf

theorem Inv.init {st : State} (h1 : st.freepages.Nodup)
    (h2 : ∀ p : Nat, p ∈ st.freepages → p ≠ 0 ∧ p % PGSIZE = 0 ∧ p + PGSIZE ≤ 2 ^ 64)
    (h3 : ∀ i : Nat, st.class_cache i = 0) : Inv st ⟨[], [], []⟩ := by
  constructor
  · exact h1
  · exact h2
  · intro c hc; cases hc
  · intro c hc; cases hc
  · intro c hc; cases hc
  · intro c s
    constructor
    · intro h; cases h
    · rintro ⟨h, _⟩; cases h
  · intro c hc; cases hc
  · intro c hc; cases hc
  · intro c p hp; cases hp
  · exact List.nodup_nil
  · intro i; exact Or.inl (h3 i)

theorem kmem_cache_alloc_null (st : State) :
    kmem_cache_alloc st 0 = .error .null_deref := by
  simp [kmem_cache_alloc]

/-- `kmalloc` keeps the invariant; an object it returns becomes live. -/
theorem kmalloc_preserves {st st1 : State} {g : Ghost} {size p : Nat}
    (hinv : Inv st g) (h : kmalloc st size = .ok (st1, p)) :
    Inv st1 (g.alloc st1 (st.class_cache (class_index_for size).toNat) p) := by
  unfold kmalloc at h
  by_cases h0 : size = 0
  · rw [if_pos h0] at h
    simp only [Except.ok.injEq, Prod.mk.injEq] at h
    obtain ⟨rfl, rfl⟩ := h
    simpa [Ghost.alloc] using hinv
  · rw [if_neg h0] at h
    simp only [] at h
    by_cases h1 : class_index_for size < 0
    · rw [if_pos h1] at h
      simp only [Except.ok.injEq, Prod.mk.injEq] at h
      obtain ⟨rfl, rfl⟩ := h
      simpa [Ghost.alloc] using hinv
    · rw [if_neg h1] at h
      rcases hinv.classes (class_index_for size).toNat with hz | hm
      · rw [hz, kmem_cache_alloc_null] at h
        cases h
      · exact kmem_cache_alloc_preserves hinv hm h

/-- Every reachable state satisfies the invariant. -/
theorem Reach.inv {st : State} {g : Ghost} (h : Reach st g) : Inv st g := by
  induction h with
  | init st h1 h2 h3 => exact Inv.init h1 h2 h3
  | create st g objsize align ctor dtor _ fit hk1 hk2 hne ih =>
    exact ((kmem_cache_create_preserves ih objsize align ctor dtor).2 hne fit hk1 hk2).1
  | create_fail st g objsize align ctor dtor _ he ih =>
    rw [(kmem_cache_create_preserves ih objsize align ctor dtor).1 he]
    exact ih
  | class_init st g i _ hi ih =>
    obtain ⟨k1, k2⟩ := kmem_cache_create_preserves ih (size_classes.getD i 0) 16 none none
    by_cases hz : (SlabAlloc.class_init st i).2 = 0
    · rw [if_pos hz]
      have hz2 : (kmem_cache_create st (size_classes.getD i 0) none none 16).2 = 0 := hz
      have e : (SlabAlloc.class_init st i).1 = { st with class_cache := upd st.class_cache i 0 } := by
        show ({ (kmem_cache_create st (size_classes.getD i 0) none none 16).1 with
          class_cache := upd (kmem_cache_create st (size_classes.getD i 0) none none 16).1.class_cache i
            (kmem_cache_create st (size_classes.getD i 0) none none 16).2 } : State) = _
        rw [hz2, k1 hz2]
      rw [e]
      exact InvX.set_class ih i 0 (Or.inl rfl)
    · rw [if_neg hz]
      have hz2 : (kmem_cache_create st (size_classes.getD i 0) none none 16).2 ≠ 0 := hz
      obtain ⟨k3, _⟩ := k2 hz2 (fits_class i hi) (hook_none _) (hook_none _)
      exact InvX.set_class k3 i _ (Or.inr (List.mem_cons_self _ _))
  | alloc st st1 g c p _ hc h ih => exact kmem_cache_alloc_preserves ih hc h
  | kmalloc st st1 g size p _ h ih => exact kmalloc_preserves ih h
  | free st st1 g c p _ hl h ih => exact kmem_cache_free_preserves ih hl h
  | kfree_slab st st1 g c p _ hl h ih =>
    rw [kfree_slab_live ih hl] at h
    exact kmem_cache_free_preserves ih hl h
  | write st g c p off v _ hl hoff ih => exact write_preserves ih hl hoff v

/-- Two live objects at one address belong to one cache. -/
theorem InvX.live_cache {st : State} {g : Ghost} {r : Nat → Prop} (hinv : InvX st g r)
    {c1 c2 p : Nat} (h1 : (c1, p) ∈ g.live) (h2 : (c2, p) ∈ g.live) : c1 = c2 := by
  obtain ⟨hc1, s1, fl1, i1, hs1, W1, hi1, e1, _⟩ := hinv.live_facts h1
  obtain ⟨hc2, s2, fl2, i2, hs2, W2, hi2, e2, _⟩ := hinv.live_facts h2
  have ip1 := W1.in_page (hinv.fits c1 hc1) hi1
  have ip2 := W2.in_page (hinv.fits c2 hc2) hi2
  rw [← e1] at ip1
  rw [← e2] at ip2
  have hss : s1 = s2 := by
    by_contra hne
    have := pages_apart W1.aligned W2.aligned hne
    omega
  subst hss
  exact hinv.owner hc1 hc2 hs1 hs2

/-- Two live objects at different addresses are apart: payload and guard of the
one end before the header of the other begins. -/
theorem InvX.live_apart {st : State} {g : Ghost} {r : Nat → Prop} (hinv : InvX st g r)
    {c1 c2 p1 p2 : Nat} (h1 : (c1, p1) ∈ g.live) (h2 : (c2, p2) ∈ g.live) (hne : p1 ≠ p2) :
    p1 + (st.caches c1).objsize + 16 + 16 ≤ p2 ∨
    p2 + (st.caches c2).objsize + 16 + 16 ≤ p1 := by
  obtain ⟨hc1, s1, fl1, i1, hs1, W1, hi1, e1, _⟩ := hinv.live_facts h1
  obtain ⟨hc2, s2, fl2, i2, hs2, W2, hi2, e2, _⟩ := hinv.live_facts h2
  have := slots_apart W1 W2 (hinv.fits c1 hc1) (hinv.fits c2 hc2) hi1 hi2
    (by rw [← e1, ← e2]; exact hne)
  rw [← e1, ← e2] at this
  exact this

/-- Between operations no slab is on two lists of its cache, or twice on one. -/
theorem Inv.lists_nodup {st : State} {g : Ghost} (hinv : Inv st g) {c : Nat}
    (hc : c ∈ g.caches) : (on_lists st c).Nodup := by
  have L := hinv.lists c hc
  have pos : ∀ s : Nat, s ∈ on_lists st c → 0 < (st.slabs s).nr_objs := by
    intro s hs
    obtain ⟨_, fl, W⟩ := hinv.slab_wf c hc s hs
    exact W.nr_objs_pos
  unfold on_lists
  rw [List.nodup_append, List.nodup_append]
  refine ⟨⟨L.nodup_full, L.nodup_part, ?_⟩, L.nodup_empty, ?_⟩
  · intro x hF hP
    have := (L.on_full x hF).1
    rcases L.on_part x hP with f | hcl
    · exact f
    · omega
  · intro x hFP hE
    have h1 := (L.on_empty x hE).1
    have h2 := pos x (mem_on_lists.2 (Or.inr (Or.inr hE)))
    rcases List.mem_append.1 hFP with hF | hP
    · have := (L.on_full x hF).1
      omega
    · rcases L.on_part x hP with f | hcl
      · exact f
      · omega

/-- Between operations the list a slab is on is the one its count of free slots
names. -/
theorem Inv.list_of_count {st : State} {g : Ghost} (hinv : Inv st g) {c s : Nat}
    (hc : c ∈ g.caches) (hs : s ∈ on_lists st c) :
    (s ∈ (st.caches c).full ↔ (st.slabs s).nr_free = 0) ∧
    (s ∈ (st.caches c).partial_ ↔
      (0 < (st.slabs s).nr_free ∧ (st.slabs s).nr_free < (st.slabs s).nr_objs)) ∧
    (s ∈ (st.caches c).empty ↔ (st.slabs s).nr_free = (st.slabs s).nr_objs) := by
  have L := hinv.lists c hc
  obtain ⟨_, fl, W⟩ := hinv.slab_wf c hc s hs
  have hpos := W.nr_objs_pos
  have hP : s ∈ (st.caches c).partial_ →
      (0 < (st.slabs s).nr_free ∧ (st.slabs s).nr_free < (st.slabs s).nr_objs) := by
    intro hm
    rcases L.on_part s hm with f | hcl
    · exact f.elim
    · exact hcl
  have hF := fun hm => (L.on_full s hm).1
  have hE := fun hm => (L.on_empty s hm).1
  refine ⟨⟨hF, ?_⟩, ⟨hP, ?_⟩, ⟨hE, ?_⟩⟩
  · intro h0
    rcases mem_on_lists.1 hs with h1 | h1 | h1
    · exact h1
    · have := hP h1; omega
    · have := hE h1; omega
  · intro h0
    rcases mem_on_lists.1 hs with h1 | h1 | h1
    · have := hF h1; omega
    · exact h1
    · have := hE h1; omega
  · intro h0
    rcases mem_on_lists.1 hs with h1 | h1 | h1
    · have := hF h1; omega
    · have := hP h1; omega
    · exact h1

theorem countP_or_disjoint {α : Type} (p q : α → Bool) : ∀ L : List α,
    (∀ x : α, x ∈ L → ¬ (p x = true ∧ q x = true)) →
    L.countP (fun x => p x || q x) = L.countP p + L.countP q
  | [], _ => rfl
  | x :: L, h => by
    have ih := countP_or_disjoint p q L (fun y hy => h y (List.mem_cons_of_mem _ hy))
    have hx := h x (List.mem_cons_self _ _)
    simp only [List.countP_cons, ih]
    cases hp : p x <;> cases hq : q x <;> simp_all <;> omega

/-- Counting the elements of `L` by the value of `f`, over values without
repetition. -/
theorem sum_countP_eq {α : Type} (L : List α) (f : α → Nat) : ∀ S : List Nat, S.Nodup →
    (S.map (fun s => L.countP (fun q => decide (f q = s)))).sum =
      L.countP (fun q => decide (f q ∈ S))
  | [], _ => by simp
  | s :: S, h => by
    rw [List.nodup_cons] at h
    have ih := sum_countP_eq L f S h.2
    rw [List.map_cons, List.sum_cons, ih]
    have e : (fun q => decide (f q ∈ s :: S)) =
        (fun q => decide (f q = s) || decide (f q ∈ S)) := by
      funext q
      simp [List.mem_cons]
    rw [e, countP_or_disjoint]
    intro x _ hx
    simp only [decide_eq_true_eq] at hx
    exact h.1 (hx.1 ▸ hx.2)

/-- The slots of a slab that are not on its freelist number `nr_objs - nr_free`. -/
theorem SlabWF.count_slots {st : State} {c s : Nat} {live : Nat → Prop} {fl : List Nat}
    (W : SlabWF st c s live fl)
    (fit : FitsSlot (st.caches c).objsize (st.caches c).align) :
    (slot_list s (st.slabs s).stride (st.slabs s).nr_objs).countP (fun o => decide (o ∉ fl)) +
      (st.slabs s).nr_free = (st.slabs s).nr_objs := by
  have h32 : 32 ≤ (st.slabs s).stride := by
    have := fit.le
    rw [W.stride_eq]
    omega
  have hnd : (slot_list s (st.slabs s).stride (st.slabs s).nr_objs).Nodup :=
    nodup_slot_list h32 _ (by rw [W.nr_objs_eq])
  have h1 := List.length_eq_countP_add_countP (p := fun o => decide (o ∈ fl))
    (slot_list s (st.slabs s).stride (st.slabs s).nr_objs)
  rw [length_slot_list] at h1
  have h2 : (slot_list s (st.slabs s).stride (st.slabs s).nr_objs).countP
      (fun o => decide (o ∈ fl)) = fl.length := by
    rw [List.countP_eq_length_filter]
    apply List.Perm.length_eq
    rw [List.perm_ext_iff_of_nodup (hnd.filter _) W.nodup]
    intro a
    simp only [List.mem_filter, decide_eq_true_eq]
    exact ⟨fun h => h.2, fun h => ⟨W.fl_sub h, h⟩⟩
  have h3 : (slot_list s (st.slabs s).stride (st.slabs s).nr_objs).countP
      (fun a => decide ¬(fun o => decide (o ∈ fl)) a = true) =
      (slot_list s (st.slabs s).stride (st.slabs s).nr_objs).countP
        (fun o => decide (o ∉ fl)) := by
    apply List.countP_congr
    intro x _
    simp
  rw [h2, h3, W.len] at h1
  omega

/-- The live objects whose header names a slab are its slots that are not on its
freelist. -/
theorem Inv.live_in_eq {st : State} {g : Ghost} (hinv : Inv st g) {c s : Nat} {fl : List Nat}
    (hc : c ∈ g.caches) (hs : s ∈ on_lists st c)
    (W : SlabWF st c s (fun o => (c, o) ∈ g.live) fl) :
    live_in st g s =
      (slot_list s (st.slabs s).stride (st.slabs s).nr_objs).countP
        (fun o => decide (o ∉ fl)) := by
  have fit := hinv.fits c hc
  have h32 : 32 ≤ (st.slabs s).stride := by
    have := fit.le
    rw [W.stride_eq]
    omega
  have hnd : (slot_list s (st.slabs s).stride (st.slabs s).nr_objs).Nodup :=
    nodup_slot_list h32 _ (by rw [W.nr_objs_eq])
  unfold live_in
  rw [List.countP_eq_length_filter, List.countP_eq_length_filter,
    ← List.length_map (f := Prod.snd)]
  apply List.Perm.length_eq
  have hndL : (List.filter (fun q : Nat × Nat =>
      decide ((st.hdrs (q.2 - SIZEOF_HDR)).slab = s)) g.live).Nodup :=
    hinv.live_nodup.filter _
  have hndM : (List.map Prod.snd (List.filter (fun q : Nat × Nat =>
      decide ((st.hdrs (q.2 - SIZEOF_HDR)).slab = s)) g.live)).Nodup := by
    refine List.Nodup.map_on ?_ hndL
    intro x hx y hy hxy
    have hx1 := (List.mem_filter.1 hx).1
    have hy1 := (List.mem_filter.1 hy).1
    obtain ⟨c1, p1⟩ := x
    obtain ⟨c2, p2⟩ := y
    simp only at hxy
    subst hxy
    rw [hinv.live_cache hx1 hy1]
  rw [List.perm_ext_iff_of_nodup hndM (hnd.filter _)]
  intro a
  simp only [List.mem_map, List.mem_filter, decide_eq_true_eq, Prod.exists,
    exists_eq_right, decide_not, Bool.not_eq_true', decide_eq_false_iff_not]
  constructor
  · rintro ⟨c1, hl, hsl⟩
    obtain ⟨hc1, s1, fl1, i1, hs1, W1, hi1, e1, hn1, _, hsl1, _⟩ := hinv.live_facts hl
    have hss : s1 = s := hsl1.symm.trans hsl
    subst hss
    have hcc : c1 = c := hinv.owner hc1 hc hs1 hs
    subst hcc
    have hfl : fl1 = fl := chain_unique _ _ _ W1.chain W.chain
    subst hfl
    exact ⟨(mem_slot_list _ _).2 ⟨i1, hi1, e1⟩, hn1⟩
  · rintro ⟨hm, hn⟩
    obtain ⟨i, hi, e⟩ := (mem_slot_list _ _).1 hm
    refine ⟨c, ?_, ?_⟩
    · rw [e]; exact (W.live_iff i hi).2 (by rw [← e]; exact hn)
    · rw [e]; exact W.hdr_slab i hi

/-- The live objects of a cache, counted slab by slab. -/
theorem Inv.sum_live_in {st : State} {g : Ghost} (hinv : Inv st g) {c : Nat}
    (hc : c ∈ g.caches) :
    ((on_lists st c).map (fun s => live_in st g s)).sum = live_of g c := by
  have h := sum_countP_eq g.live (fun q => (st.hdrs (q.2 - SIZEOF_HDR)).slab)
    (on_lists st c) (hinv.lists_nodup hc)
  unfold live_in live_of
  rw [h]
  apply List.countP_congr
  intro q hq
  obtain ⟨c1, p⟩ := q
  obtain ⟨hc1, s1, fl1, i1, hs1, W1, hi1, e1, hn1, _, hsl1, _⟩ := hinv.live_facts hq
  simp only [decide_eq_true_eq]
  rw [hsl1]
  constructor
  · intro hm
    exact hinv.owner hc1 hc hs1 hm
  · intro e
    subst e
    exact hs1

/-- The cache-creation loop of `kmalloc_init` is a run of its iterations. -/
theorem reach_kmalloc_init_caches : ∀ (l : List Nat) (i : Nat) (st : State) (g : Ghost),
    Reach st g → (∀ j : Nat, j < l.length → l.getD j 0 = size_classes.getD (i + j) 0) →
    i + l.length ≤ N_CLASS →
    Reach (kmalloc_init_caches st l i) (kmalloc_init_ghost st g l i)
  | [], _, _, _, h, _, _ => h
  | sz :: rest, i, st, g, h, hl, hn => by
    have e : sz = size_classes.getD i 0 := by
      have := hl 0 (by simp)
      simpa using this
    subst e
    simp only [List.length_cons] at hn
    have step := Reach.class_init st g i h (by omega)
    refine reach_kmalloc_init_caches rest (i + 1) _ _ step ?_ (by omega)
    intro j hj
    have := hl (j + 1) (by simp; omega)
    simp only [List.getD_cons_succ] at this
    rw [this]
    congr 1
    omega

theorem reach_boot : Reach st_boot ⟨[], [], []⟩ :=
  Reach.init st_boot (by decide) (by decide) (fun _ => rfl)

theorem reach_classes : Reach st_classes g_classes :=
  reach_kmalloc_init_caches size_classes 0 st_boot ⟨[], [], []⟩ reach_boot
    (fun j _ => by simp) (by decide)

theorem reach_a : Reach st_a g_a :=
  Reach.kmalloc st_classes st_a g_classes 2048 p_a reach_classes rfl

theorem reach_b : Reach st_b g_b :=
  Reach.kmalloc st_a st_b g_a 2048 p_b reach_a rfl

example : g_b.live = [(0x87ff7000, 0x87ff5048), (0x87ff7000, 0x87ff6048)] := by decide
example : g_b.slabs = [(0x87ff7000, 0x87ff5000), (0x87ff7000, 0x87ff6000)] := by decide
example : (st_b.caches 0x87ff7000).full = [0x87ff5000, 0x87ff6000] := by decide

/-! ## Claims on reachable states -/

/-- Claim C4. In every state reachable from boot by the creation of caches,
`kmalloc`, `kmem_cache_alloc`, releases of live objects and client stores into
live payloads, no object is live twice and the payload ranges
`[p, p + objsize)` of any two live objects, of one cache or of two, do not meet;
an allocation never returns an object that is still live. -/
theorem live_payloads_disjoint {st : State} {g : Ghost} (h : Reach st g) :
    g.live.Nodup ∧
    (∀ c1 p1 c2 p2 : Nat, (c1, p1) ∈ g.live → (c2, p2) ∈ g.live → (c1, p1) ≠ (c2, p2) →
      p1 + (st.caches c1).objsize ≤ p2 ∨ p2 + (st.caches c2).objsize ≤ p1) ∧
    (∀ (c : Nat) (st1 : State) (p : Nat), c ∈ g.caches →
      kmem_cache_alloc st c = .ok (st1, p) → p ≠ 0 → ∀ c1 : Nat, (c1, p) ∉ g.live) ∧
    (∀ (size : Nat) (st1 : State) (p : Nat),
      kmalloc st size = .ok (st1, p) → p ≠ 0 → ∀ c1 : Nat, (c1, p) ∉ g.live) := by
  have hinv := h.inv
  have fresh : ∀ (c : Nat) (st1 : State) (p : Nat), Inv st1 (g.alloc st1 c p) → p ≠ 0 →
      ∀ c1 : Nat, (c1, p) ∉ g.live := by
    intro c st1 p hI hp c1 hm
    have e : (g.alloc st1 c p).live = (c, p) :: g.live := by
      simp [Ghost.alloc, hp]
    have hnd := hI.live_nodup
    rw [e] at hnd
    have m1 : (c1, p) ∈ (g.alloc st1 c p).live := by
      rw [e]; exact List.mem_cons_of_mem _ hm
    have m2 : (c, p) ∈ (g.alloc st1 c p).live := by
      rw [e]; exact List.mem_cons_self _ _
    have hcc := hI.live_cache m1 m2
    subst hcc
    exact (List.nodup_cons.1 hnd).1 hm
  refine ⟨hinv.live_nodup, ?_, ?_, ?_⟩
  · intro c1 p1 c2 p2 h1 h2 hne
    have hp : p1 ≠ p2 := by
      intro e
      subst e
      exact hne (by rw [hinv.live_cache h1 h2])
    have := hinv.live_apart h1 h2 hp
    omega
  · intro c st1 p hc ha hp
    exact fresh c st1 p (Reach.alloc st st1 g c p h hc ha).inv hp
  · intro size st1 p ha hp
    exact fresh _ st1 p (Reach.kmalloc st st1 g size p h ha).inv hp

/-- In the example run the two live objects of 2048 bytes do not overlap. -/
theorem live_payloads_disjoint_witness :
    p_a + (st_b.caches 0x87ff7000).objsize ≤ p_b ∨
    p_b + (st_b.caches 0x87ff7000).objsize ≤ p_a :=
  (live_payloads_disjoint reach_b).2.1 0x87ff7000 p_a 0x87ff7000 p_b
    (by decide) (by decide) (by decide)

/-- Claim C5. In every reachable state every slab created for a cache is on exactly
one of the three lists of the cache, once, and the list is the one its count of
free slots names: full for none, partial for some but not all, empty for all. -/
theorem slab_on_one_list {st : State} {g : Ghost} (h : Reach st g) {c s : Nat}
    (hs : (c, s) ∈ g.slabs) :
    ((st.caches c).full ++ (st.caches c).partial_ ++ (st.caches c).empty).count s = 1 ∧
    (s ∈ (st.caches c).full ↔ (st.slabs s).nr_free = 0) ∧
    (s ∈ (st.caches c).partial_ ↔
      (0 < (st.slabs s).nr_free ∧ (st.slabs s).nr_free < (st.slabs s).nr_objs)) ∧
    (s ∈ (st.caches c).empty ↔ (st.slabs s).nr_free = (st.slabs s).nr_objs) := by
  have hinv := h.inv
  obtain ⟨hc, hon⟩ := (hinv.slabs_iff c s).1 hs
  exact ⟨List.count_eq_one_of_mem (hinv.lists_nodup hc) hon, hinv.list_of_count hc hon⟩

/-- In the example run the first slab of the 2048-byte class, of capacity 1, is
on the full list only. -/
theorem slab_on_one_list_witness :
    ((st_b.caches 0x87ff7000).full ++ (st_b.caches 0x87ff7000).partial_ ++
      (st_b.caches 0x87ff7000).empty).count 0x87ff6000 = 1 ∧
    (0x87ff6000 ∈ (st_b.caches 0x87ff7000).full ↔ (st_b.slabs 0x87ff6000).nr_free = 0) ∧
    (0x87ff6000 ∈ (st_b.caches 0x87ff7000).partial_ ↔
      (0 < (st_b.slabs 0x87ff6000).nr_free ∧
        (st_b.slabs 0x87ff6000).nr_free < (st_b.slabs 0x87ff6000).nr_objs)) ∧
    (0x87ff6000 ∈ (st_b.caches 0x87ff7000).empty ↔
      (st_b.slabs 0x87ff6000).nr_free = (st_b.slabs 0x87ff6000).nr_objs) :=
  slab_on_one_list reach_b (c := 0x87ff7000) (s := 0x87ff6000) (by decide)

/-- Claim C6. In every reachable state, for every slab created for a cache, the
freelist is a chain of slots of the slab without repetition that ends in null, its
length is `nr_free`, and `nr_free` plus the number of live objects of the slab is
`nr_objs`; summed over the slabs of the cache, `nr_free` plus the number of live
objects of the cache is the number of slots. -/
theorem freelist_accounting {st : State} {g : Ghost} (h : Reach st g) {c : Nat}
    (hc : c ∈ g.caches) :
    (∀ s : Nat, (c, s) ∈ g.slabs → ∃ fl : List Nat,
      Chain st.mem (st.slabs s).free_head fl ∧ fl.Nodup ∧
      (∀ o : Nat, o ∈ fl →
        ∃ i : Nat, i < (st.slabs s).nr_objs ∧ o = slot_obj s (st.slabs s).stride i) ∧
      fl.length = (st.slabs s).nr_free ∧
      (st.slabs s).nr_free + live_in st g s = (st.slabs s).nr_objs) ∧
    (((st.caches c).full ++ (st.caches c).partial_ ++ (st.caches c).empty).map
        (fun s => (st.slabs s).nr_free)).sum + live_of g c =
      (((st.caches c).full ++ (st.caches c).partial_ ++ (st.caches c).empty).map
        (fun s => (st.slabs s).nr_objs)).sum := by
  have hinv := h.inv
  have key : ∀ s : Nat, s ∈ on_lists st c →
      (st.slabs s).nr_free + live_in st g s = (st.slabs s).nr_objs := by
    intro s hs
    obtain ⟨_, fl, W⟩ := hinv.slab_wf c hc s hs
    rw [hinv.live_in_eq hc hs W]
    have := W.count_slots (hinv.fits c hc)
    omega
  constructor
  · intro s hs
    have hon := ((hinv.slabs_iff c s).1 hs).2
    obtain ⟨_, fl, W⟩ := hinv.slab_wf c hc s hon
    exact ⟨fl, W.chain, W.nodup, W.fl_slots, W.len, key s hon⟩
  · rw [← hinv.sum_live_in hc]
    show ((on_lists st c).map _).sum + _ = ((on_lists st c).map _).sum
    rw [← List.sum_map_add]
    congr 1
    apply List.map_congr_left
    intro s hs
    exact key s hs

/-- In the example run the first slab of the 2048-byte class has an empty freelist
and one live object. -/
theorem freelist_accounting_witness :
    ∃ fl : List Nat,
      Chain st_b.mem (st_b.slabs 0x87ff6000).free_head fl ∧ fl.Nodup ∧
      (∀ o : Nat, o ∈ fl → ∃ i : Nat, i < (st_b.slabs 0x87ff6000).nr_objs ∧
        o = slot_obj 0x87ff6000 (st_b.slabs 0x87ff6000).stride i) ∧
      fl.length = (st_b.slabs 0x87ff6000).nr_free ∧
      (st_b.slabs 0x87ff6000).nr_free + live_in st_b g_b 0x87ff6000 =
        (st_b.slabs 0x87ff6000).nr_objs :=
  (freelist_accounting reach_b (c := 0x87ff7000) (by decide)).1 0x87ff6000 (by decide)

/-- A destructor that stays inside the payload leaves the guard as it is. -/
theorem guard_ok_hook {objsize : Nat} {h : Option Hook} (hk : HookOK objsize h) (obj : Nat)
    (m : Mem) (hsz : objsize + RZ_BYTES ≤ 2 ^ 32) :
    guard_ok (run_hook h obj m) obj objsize = guard_ok m obj objsize := by
  have e : ∀ i : Nat, run_hook h obj m (obj + objsize + i) = m (obj + objsize + i) :=
    fun i => run_hook_out hk obj m (by omega)
  rw [Bool.eq_iff_iff, guard_ok_iff _ _ _ hsz, guard_ok_iff _ _ _ hsz]
  simp only [e]

/-- `kmem_cache_free` of an object whose header is valid for the cache, whose flag
is allocated and whose guard is intact returns. -/
theorem kmem_cache_free_returns {st : State} {c obj : Nat} (hobj : obj ≠ 0) (hc0 : c ≠ 0)
    (hmagic : (st.hdrs (obj - SIZEOF_HDR)).magic = SLAB_MAGIC)
    (hs0 : (st.hdrs (obj - SIZEOF_HDR)).slab ≠ 0)
    (hcache : (st.slabs (st.hdrs (obj - SIZEOF_HDR)).slab).cache = c)
    (hstate : (st.hdrs (obj - SIZEOF_HDR)).state = 1)
    (hg : guard_ok (run_hook (st.caches c).dtor obj st.mem) obj (st.caches c).objsize = true) :
    ∃ st1 : State, kmem_cache_free st c obj = .ok st1 := by
  unfold kmem_cache_free
  rw [if_neg hobj]
  simp only []
  rw [if_neg (by simp [hmagic, hs0, hcache]), if_neg hc0, if_neg (by simp [hstate]),
    if_neg (by simp [hg])]
  exact ⟨_, rfl⟩

/-- `kmem_cache_free` of an object whose header is valid for the cache and whose
flag is not allocated ends in the double-free abort. -/
theorem kmem_cache_free_double {st : State} {c obj : Nat} (hobj : obj ≠ 0) (hc0 : c ≠ 0)
    (hmagic : (st.hdrs (obj - SIZEOF_HDR)).magic = SLAB_MAGIC)
    (hs0 : (st.hdrs (obj - SIZEOF_HDR)).slab ≠ 0)
    (hcache : (st.slabs (st.hdrs (obj - SIZEOF_HDR)).slab).cache = c)
    (hstate : (st.hdrs (obj - SIZEOF_HDR)).state ≠ 1) :
    kmem_cache_free st c obj = .error .double_free_uaf := by
  unfold kmem_cache_free
  rw [if_neg hobj]
  simp only []
  rw [if_neg (by simp [hmagic, hs0, hcache]), if_neg hc0, if_pos hstate]

/-- `kmem_cache_free` of an object whose header is valid for the cache, whose flag
is allocated and whose guard is damaged ends in the guard abort. -/
theorem kmem_cache_free_oob {st : State} {c obj : Nat} (hobj : obj ≠ 0) (hc0 : c ≠ 0)
    (hmagic : (st.hdrs (obj - SIZEOF_HDR)).magic = SLAB_MAGIC)
    (hs0 : (st.hdrs (obj - SIZEOF_HDR)).slab ≠ 0)
    (hcache : (st.slabs (st.hdrs (obj - SIZEOF_HDR)).slab).cache = c)
    (hstate : (st.hdrs (obj - SIZEOF_HDR)).state = 1)
    (hg : guard_ok (run_hook (st.caches c).dtor obj st.mem) obj (st.caches c).objsize
      = false) :
    kmem_cache_free st c obj = .error .tail_oob_write := by
  unfold kmem_cache_free
  rw [if_neg hobj]
  simp only []
  rw [if_neg (by simp [hmagic, hs0, hcache]), if_neg hc0, if_neg (by simp [hstate]),
    if_pos hg]

/-- `kfree_slab` of an object whose header names a slab with a cache is
`kmem_cache_free` on that cache. -/
theorem kfree_slab_eq {st : State} {c obj : Nat} (hobj : obj ≠ 0) (hc0 : c ≠ 0)
    (hmagic : (st.hdrs (obj - SIZEOF_HDR)).magic = SLAB_MAGIC)
    (hs0 : (st.hdrs (obj - SIZEOF_HDR)).slab ≠ 0)
    (hcache : (st.slabs (st.hdrs (obj - SIZEOF_HDR)).slab).cache = c) :
    kfree_slab st obj = kmem_cache_free st c obj := by
  unfold kfree_slab
  rw [if_neg hobj]
  simp only []
  rw [if_neg (by simp [hmagic, hs0, hcache, hc0]), hcache]

/-- Releasing a live object returns. -/
theorem Inv.free_returns {st : State} {g : Ghost} (hinv : Inv st g) {c p : Nat}
    (hl : (c, p) ∈ g.live) : ∃ st1 : State, kmem_cache_free st c p = .ok st1 := by
  obtain ⟨hc, s, fl, i0, hson, W, hi0, e, hnot, h72, hsl, hmag, hstate, hguard, hlt⟩ :=
    hinv.live_facts hl
  refine kmem_cache_free_returns (by omega) (hinv.cache_ok c hc).1 hmag
    (by rw [hsl]; exact W.nz) (by rw [hsl]; exact W.cache_eq) hstate ?_
  rw [guard_ok_hook (hinv.hooks c hc).2 _ _ (hinv.fits c hc).guard_bound]
  exact hguard

/-- Claim C7. For every live object of a reachable state the first release, by
`kmem_cache_free` on its cache or by `kfree_slab`, returns, sets the lifecycle flag
of the slot from allocated to free and leaves magic and owning slab of the header
as they are; the second release of the same pointer right after it ends in the
abort "double free / UAF". -/
theorem double_free_aborts {st : State} {g : Ghost} (h : Reach st g) {c p : Nat}
    (hl : (c, p) ∈ g.live) :
    ∃ st1 : State, kmem_cache_free st c p = .ok st1 ∧ kfree_slab st p = .ok st1 ∧
      (st.hdrs (p - SIZEOF_HDR)).state = 1 ∧
      (st1.hdrs (p - SIZEOF_HDR)).state = 0 ∧
      (st1.hdrs (p - SIZEOF_HDR)).magic = SLAB_MAGIC ∧
      (st1.hdrs (p - SIZEOF_HDR)).slab = (st.hdrs (p - SIZEOF_HDR)).slab ∧
      (st1.slabs (st1.hdrs (p - SIZEOF_HDR)).slab).cache = c ∧
      kmem_cache_free st1 c p = .error .double_free_uaf ∧
      kfree_slab st1 p = .error .double_free_uaf := by
  have hinv := h.inv
  obtain ⟨hc, s, fl, i0, hson, W, hi0, e, hnot, h72, hsl, hmag, hstate, hguard, hlt⟩ :=
    hinv.live_facts hl
  have hc0 := (hinv.cache_ok c hc).1
  obtain ⟨st1, hf⟩ := hinv.free_returns hl
  obtain ⟨_, _, _, _, _, e_sl, e_hd, _⟩ :=
    free_inv hf (by omega) hmag (by rw [hsl]; exact W.nz) (by rw [hsl]; exact W.cache_eq)
  have k0 : (st1.hdrs (p - SIZEOF_HDR)).state = 0 := by rw [e_hd, upd_same]
  have k1 : (st1.hdrs (p - SIZEOF_HDR)).magic = SLAB_MAGIC := by
    rw [e_hd, upd_same]; exact hmag
  have k2 : (st1.hdrs (p - SIZEOF_HDR)).slab = (st.hdrs (p - SIZEOF_HDR)).slab := by
    rw [e_hd, upd_same]
  have k3 : (st1.slabs (st1.hdrs (p - SIZEOF_HDR)).slab).cache = c := by
    rw [k2, e_sl, upd_same]; rw [hsl]; exact W.cache_eq
  have k4 : (st1.hdrs (p - SIZEOF_HDR)).slab ≠ 0 := by rw [k2, hsl]; exact W.nz
  have k5 := @kmem_cache_free_double st1 c p (by omega) hc0 k1 k4 k3
    (by rw [k0]; decide)
  refine ⟨st1, hf, ?_, hstate, k0, k1, k2, k3, k5, ?_⟩
  · rw [kfree_slab_live hinv hl]; exact hf
  · rw [kfree_slab_eq (by omega) hc0 k1 k4 k3]; exact k5

/-- In the example run the first object is released once and the second release
aborts. -/
theorem double_free_aborts_witness :
    ∃ st1 : State, kmem_cache_free st_b 0x87ff7000 p_a = .ok st1 ∧
      kfree_slab st_b p_a = .ok st1 ∧
      (st_b.hdrs (p_a - SIZEOF_HDR)).state = 1 ∧
      (st1.hdrs (p_a - SIZEOF_HDR)).state = 0 ∧
      (st1.hdrs (p_a - SIZEOF_HDR)).magic = SLAB_MAGIC ∧
      (st1.hdrs (p_a - SIZEOF_HDR)).slab = (st_b.hdrs (p_a - SIZEOF_HDR)).slab ∧
      (st1.slabs (st1.hdrs (p_a - SIZEOF_HDR)).slab).cache = 0x87ff7000 ∧
      kmem_cache_free st1 0x87ff7000 p_a = .error .double_free_uaf ∧
      kfree_slab st1 p_a = .error .double_free_uaf :=
  double_free_aborts reach_b (c := 0x87ff7000) (p := p_a) (by decide)

theorem guard_ok_false_iff (m : Mem) (obj objsize : Nat)
    (hsz : objsize + RZ_BYTES ≤ 2 ^ 32) :
    guard_ok m obj objsize = false ↔
      ∃ j : Nat, j < RZ_BYTES ∧ m (obj + objsize + j) ≠ PAT_RZ := by
  rw [← Bool.not_eq_true, guard_ok_iff _ _ _ hsz]
  push_neg
  rfl

/-- Claim C9, as amended. For a cache `c` whose object size leaves the guard index
within `uint` (`objsize + 16 ≤ 2 ^ 32`, so that `objsize + i` does not wrap) and
whose destructor writes only inside the payload, and for an object whose header is
valid for `c` and whose lifecycle flag is allocated, `kmem_cache_free(c, obj)` ends
in an abort if and only if one of the 16 guard bytes at offsets
`objsize .. objsize + 15` differs from `0xDE`, and the abort is "tail OOB write";
when all 16 match the release returns, the flag is free, the payload bytes from
offset 8 on hold `0xCC`, the first 8 bytes from the object's address hold the
freelist link (the previous `free_head`, little endian), and the guard bytes not
covered by the link hold `0xDE`. -/
theorem free_checks_guard {st : State} {c obj : Nat} (hobj : obj ≠ 0) (hc0 : c ≠ 0)
    (hmagic : (st.hdrs (obj - SIZEOF_HDR)).magic = SLAB_MAGIC)
    (hs0 : (st.hdrs (obj - SIZEOF_HDR)).slab ≠ 0)
    (hcache : (st.slabs (st.hdrs (obj - SIZEOF_HDR)).slab).cache = c)
    (hstate : (st.hdrs (obj - SIZEOF_HDR)).state = 1)
    (hk : HookOK (st.caches c).objsize (st.caches c).dtor)
    (hsz : (st.caches c).objsize + RZ_BYTES ≤ 2 ^ 32) :
    ((∃ e : Fault, kmem_cache_free st c obj = .error e) ↔
      ∃ j : Nat, j < 16 ∧ st.mem (obj + (st.caches c).objsize + j) ≠ 0xDE) ∧
    ((∃ j : Nat, j < 16 ∧ st.mem (obj + (st.caches c).objsize + j) ≠ 0xDE) →
      kmem_cache_free st c obj = .error .tail_oob_write) ∧
    ((∀ j : Nat, j < 16 → st.mem (obj + (st.caches c).objsize + j) = 0xDE) →
      ∃ st1 : State, kmem_cache_free st c obj = .ok st1 ∧
        (st1.hdrs (obj - SIZEOF_HDR)).state = 0 ∧
        (∀ j : Nat, 8 ≤ j → j < (st.caches c).objsize → st1.mem (obj + j) = 0xCC) ∧
        (∀ j : Nat, j < 8 → st1.mem (obj + j) =
          (st.slabs (st.hdrs (obj - SIZEOF_HDR)).slab).free_head / 256 ^ j % 256) ∧
        (∀ j : Nat, j < 16 → 8 ≤ (st.caches c).objsize + j →
          st1.mem (obj + (st.caches c).objsize + j) = 0xDE)) := by
  have hbad : (∃ j : Nat, j < 16 ∧ st.mem (obj + (st.caches c).objsize + j) ≠ 0xDE) →
      kmem_cache_free st c obj = .error .tail_oob_write := by
    intro hj
    apply kmem_cache_free_oob hobj hc0 hmagic hs0 hcache hstate
    rw [guard_ok_hook hk _ _ hsz, guard_ok_false_iff _ _ _ hsz]
    exact hj
  have hgood : (∀ j : Nat, j < 16 → st.mem (obj + (st.caches c).objsize + j) = 0xDE) →
      ∃ st1 : State, kmem_cache_free st c obj = .ok st1 ∧
        (st1.hdrs (obj - SIZEOF_HDR)).state = 0 ∧
        (∀ j : Nat, 8 ≤ j → j < (st.caches c).objsize → st1.mem (obj + j) = 0xCC) ∧
        (∀ j : Nat, j < 8 → st1.mem (obj + j) =
          (st.slabs (st.hdrs (obj - SIZEOF_HDR)).slab).free_head / 256 ^ j % 256) ∧
        (∀ j : Nat, j < 16 → 8 ≤ (st.caches c).objsize + j →
          st1.mem (obj + (st.caches c).objsize + j) = 0xDE) := by
    intro hall
    have hg : guard_ok (run_hook (st.caches c).dtor obj st.mem) obj (st.caches c).objsize
        = true := by
      rw [guard_ok_hook hk _ _ hsz, guard_ok_iff _ _ _ hsz]
      exact hall
    obtain ⟨st1, hf⟩ := kmem_cache_free_returns hobj hc0 hmagic hs0 hcache hstate hg
    obtain ⟨_, _, _, _, _, _, e_hd, e_mem, _⟩ := free_inv hf hobj hmagic hs0 hcache
    refine ⟨st1, hf, ?_, ?_, ?_, ?_⟩
    · rw [e_hd, upd_same]
    · intro j h8 hj
      rw [e_mem, store64_out _ _ (by omega), memset_out _ _ (by omega),
        memset_in _ _ (by omega) (by omega)]
      rfl
    · intro j hj
      rw [e_mem, store64_in _ _ _ _ hj]
    · intro j hj h8
      rw [e_mem, store64_out _ _ (by omega),
        memset_in _ _ (by omega) (by unfold RZ_BYTES; omega)]
      rfl
  refine ⟨⟨?_, fun hj => ⟨_, hbad hj⟩⟩, hbad, hgood⟩
  rintro ⟨e, he⟩
  by_contra hcon
  push_neg at hcon
  obtain ⟨st1, hf, _⟩ := hgood hcon
  rw [hf] at he
  cases he

/-- In the example run the release of the first object, whose guard is intact,
returns. -/
theorem free_checks_guard_witness :
    ∃ st1 : State, kmem_cache_free st_b 0x87ff7000 p_a = .ok st1 ∧
        (st1.hdrs (p_a - SIZEOF_HDR)).state = 0 ∧
        (∀ j : Nat, 8 ≤ j → j < (st_b.caches 0x87ff7000).objsize →
          st1.mem (p_a + j) = 0xCC) ∧
        (∀ j : Nat, j < 8 → st1.mem (p_a + j) =
          (st_b.slabs (st_b.hdrs (p_a - SIZEOF_HDR)).slab).free_head / 256 ^ j % 256) ∧
        (∀ j : Nat, j < 16 → 8 ≤ (st_b.caches 0x87ff7000).objsize + j →
          st1.mem (p_a + (st_b.caches 0x87ff7000).objsize + j) = 0xDE) :=
  (@free_checks_guard st_b 0x87ff7000 p_a (by decide) (by decide)
    (by decide) (by decide) (by decide) (by decide) (hook_none _) (by decide)).2.2
    (by decide)

/-- Claim C9 as stated fails: in the example run the release of the first object,
with valid header, allocated flag and intact guard, returns, and the first payload
byte then holds a byte of the freelist link, not `0xCC`. -/
theorem free_payload_holds_link :
    (st_a.hdrs (p_a - SIZEOF_HDR)).magic = SLAB_MAGIC ∧
    (st_a.slabs (st_a.hdrs (p_a - SIZEOF_HDR)).slab).cache = 0x87ff7000 ∧
    (st_a.hdrs (p_a - SIZEOF_HDR)).state = 1 ∧
    guard_ok st_a.mem p_a (st_a.caches 0x87ff7000).objsize = true ∧
    kmem_cache_free st_a 0x87ff7000 p_a =
      .ok (after (kmem_cache_free st_a 0x87ff7000 p_a) st_a) ∧
    (after (kmem_cache_free st_a 0x87ff7000 p_a) st_a).mem p_a = 0 ∧
    (after (kmem_cache_free st_a 0x87ff7000 p_a) st_a).mem p_a ≠ 0xCC := by
  refine ⟨by decide, by decide, by decide, by decide, rfl, by decide, by decide⟩

/-- `slab_new` changes neither a cache record nor `class_cache`. -/
theorem slab_new_caches {st st1 : State} {c s1 : Nat} (h : slab_new st c = .ok (st1, s1)) :
    st1.caches = st.caches ∧ st1.class_cache = st.class_cache := by
  have e1 : (kalloc st).2.caches = st.caches := by
    unfold kalloc
    split <;> rfl
  have e2 : (kalloc st).2.class_cache = st.class_cache := by
    unfold kalloc
    split <;> rfl
  unfold slab_new at h
  simp only [] at h
  by_cases h1 : (kalloc st).1 = 0
  · rw [if_pos h1] at h
    injection h with h
    injection h with h3 h4
    subst h3
    exact ⟨e1, e2⟩
  · rw [if_neg h1] at h
    by_cases h2 : slab_stride ((kalloc st).2.caches c).objsize ((kalloc st).2.caches c).align = 0
    · rw [if_pos h2] at h
      cases h
    · rw [if_neg h2] at h
      by_cases h3 : (PGSIZE - SIZEOF_SLAB) /
          slab_stride ((kalloc st).2.caches c).objsize ((kalloc st).2.caches c).align = 0
      · rw [if_pos h3] at h
        injection h with h
        injection h with h4 h5
        subst h4
        exact ⟨e1, e2⟩
      · rw [if_neg h3] at h
        injection h with h
        injection h with h4 h5
        subst h4
        exact ⟨e1, e2⟩

/-- Parameters of a cache record: size, alignment and hooks. -/
theorem params_upd {caches : Nat → kmem_cache} {c : Nat} {cc : kmem_cache}
    (h1 : cc.objsize = (caches c).objsize) (h2 : cc.align = (caches c).align)
    (h3 : cc.ctor = (caches c).ctor) (h4 : cc.dtor = (caches c).dtor) (c1 : Nat) :
    (upd caches c cc c1).objsize = (caches c1).objsize ∧
    (upd caches c cc c1).align = (caches c1).align ∧
    (upd caches c cc c1).ctor = (caches c1).ctor ∧
    (upd caches c cc c1).dtor = (caches c1).dtor := by
  by_cases e : c1 = c
  · subst e
    rw [upd_same]
    exact ⟨h1, h2, h3, h4⟩
  · rw [upd_other _ _ e]
    exact ⟨rfl, rfl, rfl, rfl⟩

/-- `kmem_cache_alloc` changes neither the parameters of a cache nor
`class_cache`. -/
theorem kmem_cache_alloc_params {st st1 : State} {c p : Nat}
    (h : kmem_cache_alloc st c = .ok (st1, p)) :
    st1.class_cache = st.class_cache ∧ ∀ c1 : Nat,
      (st1.caches c1).objsize = (st.caches c1).objsize ∧
      (st1.caches c1).align = (st.caches c1).align ∧
      (st1.caches c1).ctor = (st.caches c1).ctor ∧
      (st1.caches c1).dtor = (st.caches c1).dtor := by
  have from_alloc : ∀ (st2 : State), st2.class_cache = st.class_cache →
      (∀ c1 : Nat, (st2.caches c1).objsize = (st.caches c1).objsize ∧
        (st2.caches c1).align = (st.caches c1).align ∧
        (st2.caches c1).ctor = (st.caches c1).ctor ∧
        (st2.caches c1).dtor = (st.caches c1).dtor) →
      ∀ s : Nat, kmem_cache_alloc_from st2 c s = .ok (st1, p) →
      st1.class_cache = st.class_cache ∧ ∀ c1 : Nat,
        (st1.caches c1).objsize = (st.caches c1).objsize ∧
        (st1.caches c1).align = (st.caches c1).align ∧
        (st1.caches c1).ctor = (st.caches c1).ctor ∧
        (st1.caches c1).dtor = (st.caches c1).dtor := by
    intro st2 hcc hpar s ha
    obtain ⟨_, _, _, _, _, e_cc, _⟩ := alloc_from_inv ha
    refine ⟨e_cc.trans hcc, fun c1 => ?_⟩
    obtain ⟨a1, a2, a3, a4⟩ := alloc_from_params ha c1
    obtain ⟨b1, b2, b3, b4⟩ := hpar c1
    exact ⟨a1.trans b1, a2.trans b2, a3.trans b3, a4.trans b4⟩
  unfold kmem_cache_alloc at h
  by_cases hc0 : c = 0
  · rw [if_pos hc0] at h
    cases h
  rw [if_neg hc0] at h
  simp only [] at h
  generalize (if list_head (st.caches c).partial_ ≠ 0 then list_head (st.caches c).partial_
    else list_head (st.caches c).empty) = s at h
  by_cases hs : s = 0
  · rw [if_pos hs] at h
    cases hr : slab_new st c with
    | error e =>
      rw [hr] at h
      cases h
    | ok r =>
      obtain ⟨st2, s1⟩ := r
      rw [hr] at h
      simp only [] at h
      obtain ⟨k1, k2⟩ := slab_new_caches hr
      by_cases hs1 : s1 = 0
      · rw [if_pos hs1] at h
        injection h with h
        injection h with h3 h4
        subst h3
        exact ⟨k2, fun c1 => by rw [k1]; exact ⟨rfl, rfl, rfl, rfl⟩⟩
      · rw [if_neg hs1] at h
        refine from_alloc _ ?_ ?_ s1 h
        · exact k2
        · intro c1
          obtain ⟨a1, a2, a3, a4⟩ := @params_upd st2.caches c
            ({ st2.caches c with partial_ := list_push (st2.caches c).partial_ s1 })
            rfl rfl rfl rfl c1
          have e : st2.caches c1 = st.caches c1 := by rw [k1]
          exact ⟨a1.trans (by rw [e]), a2.trans (by rw [e]), a3.trans (by rw [e]),
            a4.trans (by rw [e])⟩
  · rw [if_neg hs] at h
    by_cases hE : s = list_head (st.caches c).empty
    · rw [if_pos hE] at h
      refine from_alloc _ ?_ ?_ _ h
      · rfl
      · intro c1
        exact @params_upd st.caches c
          ({ st.caches c with empty := list_remove (st.caches c).empty s,
                                    partial_ := list_push (st.caches c).partial_ s })
          rfl rfl rfl rfl c1
    · rw [if_neg hE] at h
      exact from_alloc st rfl (fun _ => ⟨rfl, rfl, rfl, rfl⟩) _ h

/-- `kmem_cache_create` that returns a cache took it from the supplier and wrote
its record. -/
theorem kmem_cache_create_spec (st : State) (objsize align : Nat) (ctor dtor : Option Hook)
    (h : (kmem_cache_create st objsize ctor dtor align).2 ≠ 0) :
    (kmem_cache_create st objsize ctor dtor align).2 ∈ st.freepages ∧
    (kmem_cache_create st objsize ctor dtor align).1.caches =
      upd st.caches (kmem_cache_create st objsize ctor dtor align).2
        ⟨objsize, if align ≠ 0 then align else CACHE_DEFAULT_ALIGN, ctor, dtor, [], [], []⟩ ∧
    (kmem_cache_create st objsize ctor dtor align).1.class_cache = st.class_cache := by
  cases hfp : st.freepages with
  | nil =>
    have e : kmem_cache_create st objsize ctor dtor align = (st, 0) := by
      simp [kmem_cache_create, kalloc, hfp]
    rw [e] at h
    exact absurd rfl h
  | cons page rest =>
    by_cases hp0 : page = 0
    · have e : (kmem_cache_create st objsize ctor dtor align).2 = 0 := by
        simp [kmem_cache_create, kalloc_cons hfp, hp0]
      exact absurd e h
    · have e : kmem_cache_create st objsize ctor dtor align =
          ({ ({ st with freepages := rest } : State) with
              caches := upd st.caches page
                ⟨objsize, if align ≠ 0 then align else CACHE_DEFAULT_ALIGN, ctor, dtor,
                  [], [], []⟩ }, page) := by
        simp [kmem_cache_create, kalloc_cons hfp, hp0]
      rw [e]
      exact ⟨List.mem_cons_self _ _, rfl, rfl⟩

/-- `ClassOK` carries over when `class_cache` and the parameters of the caches stay
as they are. -/
theorem ClassOK.of_params {st st1 : State} (h : ClassOK st)
    (e_cc : st1.class_cache = st.class_cache)
    (hpar : ∀ c1 : Nat, (st1.caches c1).objsize = (st.caches c1).objsize ∧
      (st1.caches c1).align = (st.caches c1).align ∧
      (st1.caches c1).ctor = (st.caches c1).ctor ∧
      (st1.caches c1).dtor = (st.caches c1).dtor) : ClassOK st1 := by
  intro i hi hne
  rw [e_cc] at hne ⊢
  obtain ⟨a1, a2, a3, a4⟩ := hpar (st.class_cache i)
  obtain ⟨b1, b2, b3, b4⟩ := h i hi hne
  exact ⟨a1.trans b1, a2.trans b2, a3.trans b3, a4.trans b4⟩

/-- Creating a cache leaves the caches of the classes as they are. -/
theorem ClassOK.create {st : State} {g : Ghost} (h : ClassOK st) (hinv : Inv st g)
    (objsize align : Nat) (ctor dtor : Option Hook) :
    ClassOK (kmem_cache_create st objsize ctor dtor align).1 := by
  by_cases hz : (kmem_cache_create st objsize ctor dtor align).2 = 0
  · rw [(kmem_cache_create_preserves hinv objsize align ctor dtor).1 hz]
    exact h
  · obtain ⟨k1, k2, k3⟩ := kmem_cache_create_spec st objsize align ctor dtor hz
    intro i hi hne
    rw [k3] at hne ⊢
    have hm : st.class_cache i ∈ g.caches := by
      rcases hinv.classes i with e | e
      · exact absurd e hne
      · exact e
    have hne2 : st.class_cache i ≠ (kmem_cache_create st objsize ctor dtor align).2 := by
      intro e
      rw [e] at hm
      exact (hinv.cache_ok _ hm).2 k1
    rw [k2, upd_other _ _ hne2]
    exact h i hi hne

/-- In every reachable state the caches of the classes have the parameters that
`kmalloc_init` passes. -/
theorem Reach.class_ok {st : State} {g : Ghost} (h : Reach st g) : ClassOK st := by
  induction h with
  | init st h1 h2 h3 =>
    intro i _ hne
    exact absurd (h3 i) hne
  | create st g objsize align ctor dtor hr _ _ _ _ ih =>
    exact ih.create hr.inv objsize align ctor dtor
  | create_fail st g objsize align ctor dtor hr _ ih =>
    exact ih.create hr.inv objsize align ctor dtor
  | class_init st g i hr hi ih =>
    have hinv := hr.inv
    have hold := ih.create hinv (size_classes.getD i 0) 16 none none
    intro j hj hne
    by_cases e : j = i
    · subst e
      have e1 : (SlabAlloc.class_init st j).1.class_cache j =
          (kmem_cache_create st (size_classes.getD j 0) none none 16).2 := by
        show upd _ j _ j = _
        rw [upd_same]
      rw [e1] at hne ⊢
      obtain ⟨_, k2, _⟩ := kmem_cache_create_spec st (size_classes.getD j 0) 16 none none hne
      have ec : (SlabAlloc.class_init st j).1.caches =
          (kmem_cache_create st (size_classes.getD j 0) none none 16).1.caches := rfl
      rw [ec, k2, upd_same]
      exact ⟨rfl, rfl, rfl, rfl⟩
    · have e1 : (SlabAlloc.class_init st i).1.class_cache j =
          (kmem_cache_create st (size_classes.getD i 0) none none 16).1.class_cache j := by
        show upd _ i _ j = _
        rw [upd_other _ _ e]
      rw [e1] at hne ⊢
      exact hold j hj hne
  | alloc st st1 g c p _ _ ha ih =>
    obtain ⟨k1, k2⟩ := kmem_cache_alloc_params ha
    exact ih.of_params k1 k2
  | kmalloc st st1 g size p _ ha ih =>
    unfold SlabAlloc.kmalloc at ha
    by_cases h0 : size = 0
    · rw [if_pos h0] at ha
      injection ha with ha
      injection ha with h3 h4
      subst h3
      exact ih
    · rw [if_neg h0] at ha
      simp only [] at ha
      by_cases h1 : class_index_for size < 0
      · rw [if_pos h1] at ha
        injection ha with ha
        injection ha with h3 h4
        subst h3
        exact ih
      · rw [if_neg h1] at ha
        obtain ⟨k1, k2⟩ := kmem_cache_alloc_params ha
        exact ih.of_params k1 k2
  | free st st1 g c p hr hl hf ih =>
    have hinv := hr.inv
    obtain ⟨hc, s, fl, i0, hson, W, hi0, e, hnot, h72, hsl, hmag, _⟩ := hinv.live_facts hl
    obtain ⟨_, _, _, _, e_cc, _, _, _, e_oth, po, pa, pc, pd, _⟩ :=
      free_inv hf (by omega) hmag (by rw [hsl]; exact W.nz) (by rw [hsl]; exact W.cache_eq)
    refine ih.of_params e_cc ?_
    intro c1
    by_cases hcc : c1 = c
    · subst hcc; exact ⟨po, pa, pc, pd⟩
    · rw [e_oth c1 hcc]; exact ⟨rfl, rfl, rfl, rfl⟩
  | kfree_slab st st1 g c p hr hl hf ih =>
    have hinv := hr.inv
    rw [kfree_slab_live hinv hl] at hf
    obtain ⟨hc, s, fl, i0, hson, W, hi0, e, hnot, h72, hsl, hmag, _⟩ := hinv.live_facts hl
    obtain ⟨_, _, _, _, e_cc, _, _, _, e_oth, po, pa, pc, pd, _⟩ :=
      free_inv hf (by omega) hmag (by rw [hsl]; exact W.nz) (by rw [hsl]; exact W.cache_eq)
    refine ih.of_params e_cc ?_
    intro c1
    by_cases hcc : c1 = c
    · subst hcc; exact ⟨po, pa, pc, pd⟩
    · rw [e_oth c1 hcc]; exact ⟨rfl, rfl, rfl, rfl⟩
  | write st g c p off v _ _ _ ih =>
    exact ih.of_params rfl (fun _ => ⟨rfl, rfl, rfl, rfl⟩)

theorem class_of_table_size {size i : Nat} (hm : size ∈ size_classes)
    (hidx : class_index_for size = (i : Int)) : size_classes.getD i 0 = size := by
  simp only [size_classes, List.mem_cons, List.mem_singleton, List.not_mem_nil, or_false]
    at hm
  rcases hm with rfl | rfl | rfl | rfl | rfl | rfl | rfl | rfl | rfl
  · have e : class_index_for 8 = (0 : Nat) := by decide
    have : i = 0 := by rw [e] at hidx; exact_mod_cast hidx.symm
    subst this; rfl
  · have e : class_index_for 16 = (1 : Nat) := by decide
    have : i = 1 := by rw [e] at hidx; exact_mod_cast hidx.symm
    subst this; rfl
  · have e : class_index_for 32 = (2 : Nat) := by decide
    have : i = 2 := by rw [e] at hidx; exact_mod_cast hidx.symm
    subst this; rfl
  · have e : class_index_for 64 = (3 : Nat) := by decide
    have : i = 3 := by rw [e] at hidx; exact_mod_cast hidx.symm
    subst this; rfl
  · have e : class_index_for 128 = (4 : Nat) := by decide
    have : i = 4 := by rw [e] at hidx; exact_mod_cast hidx.symm
    subst this; rfl
  · have e : class_index_for 256 = (5 : Nat) := by decide
    have : i = 5 := by rw [e] at hidx; exact_mod_cast hidx.symm
    subst this; rfl
  · have e : class_index_for 512 = (6 : Nat) := by decide
    have : i = 6 := by rw [e] at hidx; exact_mod_cast hidx.symm
    subst this; rfl
  · have e : class_index_for 1024 = (7 : Nat) := by decide
    have : i = 7 := by rw [e] at hidx; exact_mod_cast hidx.symm
    subst this; rfl
  · have e : class_index_for 2048 = (8 : Nat) := by decide
    have : i = 8 := by rw [e] at hidx; exact_mod_cast hidx.symm
    subst this; rfl

/-- Claim C8, as amended. For every size from 1 to 2048 and every object `q` that
`kmalloc(size)` returns in a reachable state, a store of `0xFF` one byte past the
payload of the class that serves the request, that is at offset
`size_classes[class_index_for(size)]`, followed by `kfree_slab(q)` ends in the
abort "tail OOB write"; this offset is `size` exactly when `size` is one of the
class sizes. -/
theorem oob_at_class_size_aborts {st : State} {g : Ghost} (h : Reach st g) {size : Nat}
    {st1 : State} {q : Nat} (h1 : 1 ≤ size) (h2 : size ≤ 2048)
    (ha : kmalloc st size = .ok (st1, q)) (hq : q ≠ 0) :
    ∃ i : Nat, i < N_CLASS ∧ class_index_for size = (i : Int) ∧
      size ≤ size_classes.getD i 0 ∧
      (size ∈ size_classes → size_classes.getD i 0 = size) ∧
      kfree_slab (write_byte st1 (q + size_classes.getD i 0) 0xFF) q =
        .error .tail_oob_write := by
  obtain ⟨i, hi, hidx, hle, _⟩ := class_index_for_spec size h2
  refine ⟨i, hi, hidx, hle, fun hm => class_of_table_size hm hidx, ?_⟩
  have hr1 := Reach.kmalloc st st1 g size q h ha
  have hti : (class_index_for size).toNat = i := by rw [hidx]; exact Int.toNat_natCast i
  rw [hti] at hr1
  have hinv1 := hr1.inv
  have hcls := hr1.class_ok
  have hl : (st.class_cache i, q) ∈ (g.alloc st1 (st.class_cache i) q).live := by
    simp [Ghost.alloc, hq]
  obtain ⟨hc, s, fl, i0, hson, W, hi0, e, hnot, h72, hsl, hmag, hstate, hguard, hlt⟩ :=
    hinv1.live_facts hl
  have hc0 := (hinv1.cache_ok _ hc).1
  rw [kmalloc_of_class st size i h1 hidx] at ha
  obtain ⟨k1, _⟩ := kmem_cache_alloc_params ha
  have hci : st1.class_cache i = st.class_cache i := by rw [k1]
  obtain ⟨po, _, _, pd⟩ := hcls i hi (by rw [hci]; exact hc0)
  rw [hci] at po pd
  have hs0 : (st1.hdrs (q - SIZEOF_HDR)).slab ≠ 0 := by rw [hsl]; exact W.nz
  have hca : (st1.slabs (st1.hdrs (q - SIZEOF_HDR)).slab).cache = st.class_cache i := by
    rw [hsl]; exact W.cache_eq
  have hfree : kfree_slab (write_byte st1 (q + size_classes.getD i 0) 0xFF) q =
      kmem_cache_free (write_byte st1 (q + size_classes.getD i 0) 0xFF) (st.class_cache i) q :=
    @kfree_slab_eq (write_byte st1 (q + size_classes.getD i 0) 0xFF) _ _ (by omega) hc0 hmag
      hs0 hca
  rw [hfree]
  refine @kmem_cache_free_oob (write_byte st1 (q + size_classes.getD i 0) 0xFF) _ _
    (by omega) hc0 hmag hs0 hca hstate ?_
  have e1 : ((write_byte st1 (q + size_classes.getD i 0) 0xFF).caches (st.class_cache i)).dtor
      = none := pd
  have e2 : ((write_byte st1 (q + size_classes.getD i 0) 0xFF).caches
      (st.class_cache i)).objsize = size_classes.getD i 0 := po
  rw [e1, e2, guard_ok_false_iff _ _ _ (fits_class i hi).guard_bound]
  refine ⟨0, by decide, ?_⟩
  show upd st1.mem (q + size_classes.getD i 0) (0xFF % 256) (q + size_classes.getD i 0 + 0) ≠ _
  rw [Nat.add_zero, upd_same]
  decide

/-- In the example run a store one byte past the first object of 2048 bytes is
caught by the release. -/
theorem oob_at_class_size_aborts_witness :
    ∃ i : Nat, i < N_CLASS ∧ class_index_for 2048 = (i : Int) ∧
      2048 ≤ size_classes.getD i 0 ∧
      (2048 ∈ size_classes → size_classes.getD i 0 = 2048) ∧
      kfree_slab (write_byte st_a (p_a + size_classes.getD i 0) 0xFF) p_a =
        .error .tail_oob_write :=
  @oob_at_class_size_aborts st_classes g_classes reach_classes 2048 st_a p_a
    (by decide) (by decide) rfl (by decide)

/-- Claim C8 as stated fails at size 7: the object comes from the 8-byte class, the
byte at offset 7 is the last payload byte, and the release after the store
returns. -/
theorem oob_inside_class_undetected :
    kmalloc st_classes 7 = .ok (st_q, p_q) ∧ p_q ≠ 0 ∧
    (st_q.caches (st_classes.class_cache 0)).objsize = 8 ∧
    kfree_slab (write_byte st_q (p_q + 7) 0xFF) p_q =
      .ok (after (kfree_slab (write_byte st_q (p_q + 7) 0xFF) p_q) st_q) ∧
    kfree_slab (write_byte st_q (p_q + 7) 0xFF) p_q ≠ .error .tail_oob_write := by
  refine ⟨rfl, by decide, by decide, rfl, ?_⟩
  have e : kfree_slab (write_byte st_q (p_q + 7) 0xFF) p_q =
      .ok (after (kfree_slab (write_byte st_q (p_q + 7) 0xFF) p_q) st_q) := rfl
  rw [e]
  intro hcon
  cases hcon

/-- Under the invariant the allocation from a slab with a free slot returns. -/
theorem alloc_from_returns {st : State} {g : Ghost} {r : Nat → Prop} {c s : Nat}
    (hinv : InvX st g r) (hc : c ∈ g.caches) (hs : s ∈ on_lists st c)
    (hfree : 0 < (st.slabs s).nr_free) :
    ∃ q : State × Nat, kmem_cache_alloc_from st c s = .ok q := by
  obtain ⟨_, fl, W⟩ := hinv.slab_wf c hc s hs
  have hlen := W.len
  cases hfl : fl with
  | nil => rw [hfl] at hlen; simp at hlen; omega
  | cons o rest =>
    have hch := W.chain
    rw [hfl] at hch
    obtain ⟨e, ho, _⟩ := hch
    have hof : o ∈ fl := by rw [hfl]; exact List.mem_cons_self _ _
    obtain ⟨i, hi, eo⟩ := W.fl_slots o hof
    have hm := W.hdr_magic i hi
    have hst := W.hdr_state i hi
    rw [← eo] at hm hst
    rw [if_pos hof] at hst
    rw [← e] at hm hst ho
    unfold kmem_cache_alloc_from
    rw [if_neg ho]
    simp only []
    by_cases hz : u32_dec (st.slabs s).nr_free = 0
    · rw [if_pos hz]
      simp only []
      rw [if_neg (by simp [hm, hst])]
      exact ⟨_, rfl⟩
    · rw [if_neg hz]
      simp only []
      rw [if_neg (by simp [hm, hst])]
      exact ⟨_, rfl⟩

theorem FitsSlot.stride_ne {objsize align : Nat} (h : FitsSlot objsize align) :
    slab_stride objsize align ≠ 0 := by
  unfold FitsSlot at h
  have k : SIZEOF_HDR = 16 := rfl
  omega

/-- Claim C10, as amended. In every state reached through the allocator interface,
for every cache created by `kmem_cache_create` (its stride holding header, payload
and guard), `kmem_cache_alloc` returns, and it returns null exactly when the cache
has no partial and no empty slab and either the page supplier has no page or not
even one object of the cache fits a page (`(PGSIZE - sizeof(struct slab)) / stride`
is 0); so whenever a page is available and an object fits a page, the result is a
non-null object. -/
theorem alloc_null_iff {st : State} {g : Ghost} (h : Reach st g) {c : Nat}
    (hc : c ∈ g.caches) :
    ∃ (st1 : State) (p : Nat), kmem_cache_alloc st c = .ok (st1, p) ∧
      (p = 0 ↔ ((st.caches c).partial_ = [] ∧ (st.caches c).empty = [] ∧
        (st.freepages = [] ∨
          (PGSIZE - SIZEOF_SLAB) / slab_stride (st.caches c).objsize (st.caches c).align
            = 0))) := by
  have hinv := h.inv
  have hc0 := (hinv.cache_ok c hc).1
  have L := hinv.lists c hc
  unfold kmem_cache_alloc
  rw [if_neg hc0]
  simp only []
  cases hP : (st.caches c).partial_ with
  | cons x P1 =>
    have hxP : x ∈ (st.caches c).partial_ := by rw [hP]; exact List.mem_cons_self _ _
    have hxon : x ∈ on_lists st c := mem_on_lists.2 (Or.inr (Or.inl hxP))
    have hx0 : x ≠ 0 := hinv.slab_nz hc hxon
    have hxc : 0 < (st.slabs x).nr_free ∧ (st.slabs x).nr_free < (st.slabs x).nr_objs := by
      rcases L.on_part x hxP with f | hcl
      · exact f.elim
      · exact hcl
    have hxE : x ≠ list_head (st.caches c).empty := by
      cases hE : (st.caches c).empty with
      | nil => exact hx0
      | cons y E1 =>
        intro e
        rw [list_head_cons] at e
        have hyE : x ∈ (st.caches c).empty := by rw [hE, e]; exact List.mem_cons_self _ _
        have := (L.on_empty x hyE).1
        omega
    rw [list_head_cons, if_pos hx0, if_neg hx0, if_neg hxE]
    obtain ⟨⟨st1, p⟩, hq⟩ := alloc_from_returns hinv hc hxon hxc.1
    refine ⟨st1, p, hq, ?_⟩
    have hp0 := (alloc_from_inv hq).2.1
    constructor
    · intro e; exact (hp0 e).elim
    · intro e; exact (List.cons_ne_nil _ _ e.1).elim
  | nil =>
    rw [list_head_nil]
    simp only [ne_eq, not_true_eq_false, if_false]
    cases hE : (st.caches c).empty with
    | cons y E1 =>
      have hyE : y ∈ (st.caches c).empty := by rw [hE]; exact List.mem_cons_self _ _
      have hyon : y ∈ on_lists st c := mem_on_lists.2 (Or.inr (Or.inr hyE))
      have hy0 : y ≠ 0 := hinv.slab_nz hc hyon
      rw [list_head_cons, if_neg hy0]
      simp only [if_true]
      have hte := hinv.take_empty hc hyE _ rfl
      rw [hE, hP] at hte
      obtain ⟨hX, hpos⟩ := hte
      obtain ⟨⟨st1, p⟩, hq⟩ := alloc_from_returns hX hc
        (mem_on_lists.2 (Or.inr (Or.inl (by simp [list_push, upd_same])))) hpos
      refine ⟨st1, p, hq, ?_⟩
      have hp0 := (alloc_from_inv hq).2.1
      constructor
      · intro e; exact (hp0 e).elim
      · intro e; exact (List.cons_ne_nil _ _ e.2.1).elim
    | nil =>
      rw [list_head_nil]
      simp only [if_true]
      obtain ⟨⟨st2, s1⟩, hr⟩ := slab_new_returns st c (hinv.fits c hc).stride_ne
      rw [hr]
      simp only []
      obtain ⟨hI2, e_ca, hz, hnz⟩ := slab_new_preserves hinv hc hr
      by_cases hs1 : s1 = 0
      · rw [if_pos hs1]
        exact ⟨st2, 0, rfl, fun _ => ⟨trivial, trivial, hz hs1⟩, fun _ => rfl⟩
      · rw [if_neg hs1]
        obtain ⟨hfp, hnew, hnfp, ⟨fl, W⟩, hpos⟩ := hnz hs1
        have hX := hI2.add_slab hc hnew hnfp W _ rfl
        have hc2 : c ∈ ({ g with slabs := (c, s1) :: g.slabs } : Ghost).caches := hc
        obtain ⟨⟨st1, p⟩, hq⟩ := alloc_from_returns hX hc2
          (mem_on_lists.2 (Or.inr (Or.inl (by simp [list_push, upd_same])))) hpos
        refine ⟨st1, p, hq, ?_⟩
        have hp0 := (alloc_from_inv hq).2.1
        have hcap := W.nr_objs_pos
        rw [W.nr_objs_eq, W.stride_eq, e_ca] at hcap
        constructor
        · intro e; exact (hp0 e).elim
        · rintro ⟨_, _, e | e⟩
          · exact (hfp e).elim
          · omega

/-- In the example run the cache of the 2048-byte class has no slab yet, pages are
available and one object fits a page: the allocation returns an object. -/
theorem alloc_null_iff_witness :
    ∃ (st1 : State) (p : Nat), kmem_cache_alloc st_classes 0x87ff7000 = .ok (st1, p) ∧
      (p = 0 ↔ ((st_classes.caches 0x87ff7000).partial_ = [] ∧
        (st_classes.caches 0x87ff7000).empty = [] ∧
        (st_classes.freepages = [] ∨
          (PGSIZE - SIZEOF_SLAB) / slab_stride (st_classes.caches 0x87ff7000).objsize
            (st_classes.caches 0x87ff7000).align = 0))) :=
  alloc_null_iff reach_classes (by decide)

/-- Claim C10 as stated fails for a cache of page-sized objects created at boot:
the supplier holds eleven pages, `kalloc` hands one out during the call, no
object of 4096 bytes fits behind the slab header, the page goes back to the
supplier and `kmem_cache_alloc` returns null. -/
theorem alloc_null_with_pages :
    c_big ≠ 0 ∧ st_big.freepages.length = 11 ∧ (kalloc st_big).1 ≠ 0 ∧
    (PGSIZE - SIZEOF_SLAB) / slab_stride (st_big.caches c_big).objsize
      (st_big.caches c_big).align = 0 ∧
    kmem_cache_alloc st_big c_big = .ok (state_of (kmem_cache_alloc st_big c_big) st_big, 0) ∧
    (state_of (kmem_cache_alloc st_big c_big) st_big).freepages = st_big.freepages := by
  refine ⟨by decide, by decide, by decide, by decide, rfl, by decide⟩

/-- Claim C3 fails on the code. After the cache-creation loop of `kmalloc_init`
every class cache has alignment 16, and `kmalloc(2048)` returns the object of
index 0 of a fresh slab at `page + sizeof(struct slab) + sizeof(struct
slabobj_hdr)` with `page` a multiple of the page size: the address is 8 modulo
16.  The first object of each of the nine classes is 8 modulo 16 as well. -/
theorem kmalloc_object_not_aligned :
    kmalloc st_classes 2048 = .ok (st_a, p_a) ∧
    (st_classes.caches (st_classes.class_cache 8)).align = 16 ∧
    (st_a.hdrs (p_a - SIZEOF_HDR)).slab = 0x87ff6000 ∧
    (st_a.hdrs (p_a - SIZEOF_HDR)).idx = 0 ∧
    0x87ff6000 % PGSIZE = 0 ∧
    p_a = 0x87ff6000 + SIZEOF_SLAB + SIZEOF_HDR + 0 * (st_a.slabs 0x87ff6000).stride ∧
    (st_a.slabs 0x87ff6000).stride % 16 = 0 ∧
    p_a % 16 = 8 ∧
    size_classes.map (fun size => ptr_of (kmalloc st_classes size) % 16) =
      [8, 8, 8, 8, 8, 8, 8, 8, 8] := by
  refine ⟨rfl, by decide, by decide, by decide, by decide, by decide, by decide, by decide,
    by decide⟩

theorem length_on_lists (st : State) (c : Nat) :
    (on_lists st c).length =
      (st.caches c).full.length + (st.caches c).partial_.length + (st.caches c).empty.length := by
  unfold on_lists
  rw [List.length_append, List.length_append]

/-- Taking an object from a slab of the partial list keeps the number of slabs of
the cache. -/
theorem alloc_from_length {st st1 : State} {c s p : Nat}
    (h : kmem_cache_alloc_from st c s = .ok (st1, p)) (hs : s ∈ (st.caches c).partial_) :
    (on_lists st1 c).length = (on_lists st c).length := by
  obtain ⟨_, hz, hnz⟩ := alloc_from_lists h c
  rw [length_on_lists, length_on_lists]
  by_cases hk : u32_dec (st.slabs s).nr_free = 0
  · obtain ⟨e1, e2, e3⟩ := hz hk
    rw [e1, e2, e3, List.length_cons, List.length_erase_of_mem hs]
    have : 0 < (st.caches c).partial_.length := List.length_pos_of_mem hs
    omega
  · rw [hnz hk]

/-- What the allocation from a slab `s` of the partial list does to the lists. -/
theorem alloc_from_source {st st1 : State} {g : Ghost} {c s p : Nat}
    (hinv : InvX st g (fun x => x = s)) (hc : c ∈ g.caches)
    (hs : s ∈ (st.caches c).partial_) (hfree : 0 < (st.slabs s).nr_free)
    (h : kmem_cache_alloc_from st c s = .ok (st1, p)) :
    (on_lists st1 c).length = (on_lists st c).length ∧
    (∀ x : Nat, x ∈ on_lists st1 c ↔ x ∈ on_lists st c) ∧
    st1.freepages = st.freepages ∧
    (st1.hdrs (p - SIZEOF_HDR)).slab = s ∧ p = (st.slabs s).free_head ∧
    s ∈ (st1.caches c).partial_ ++ (st1.caches c).full := by
  obtain ⟨_, hsl, _⟩ := alloc_from_preserves hinv hc hs hfree h
  obtain ⟨e_p, _, _, _, e_fp, _⟩ := alloc_from_inv h
  refine ⟨alloc_from_length h hs, alloc_from_on_lists h hs (hinv.lists c hc).nodup_part c,
    e_fp, hsl, e_p, ?_⟩
  obtain ⟨_, hz, hnz⟩ := alloc_from_lists h c
  by_cases hk : u32_dec (st.slabs s).nr_free = 0
  · rw [(hz hk).1]
    exact List.mem_append_right _ (List.mem_cons_self _ _)
  · rw [hnz hk]
    exact List.mem_append_left _ hs

/-- Where `kmem_cache_alloc` takes a non-null object from, by the lists of the
cache. -/
theorem Inv.alloc_source {st : State} {g : Ghost} (hinv : Inv st g) {c : Nat}
    (hc : c ∈ g.caches) {st1 : State} {p : Nat}
    (ha : kmem_cache_alloc st c = .ok (st1, p)) (hp : p ≠ 0) :
    ((st.caches c).partial_ = [] ∧ (st.caches c).empty = [] →
      (on_lists st1 c).length = (on_lists st c).length + 1 ∧
      (st1.hdrs (p - SIZEOF_HDR)).slab ∉ on_lists st c ∧
      (st1.hdrs (p - SIZEOF_HDR)).slab ∈ (st1.caches c).partial_ ++ (st1.caches c).full ∧
      st.freepages = (st1.hdrs (p - SIZEOF_HDR)).slab :: st1.freepages) ∧
    ((st.caches c).partial_ ≠ [] ∨ (st.caches c).empty ≠ [] →
      (on_lists st1 c).length = (on_lists st c).length ∧
      (∀ x : Nat, x ∈ on_lists st1 c ↔ x ∈ on_lists st c) ∧
      st1.freepages = st.freepages) ∧
    ((st.caches c).partial_ ≠ [] →
      (st1.hdrs (p - SIZEOF_HDR)).slab = list_head (st.caches c).partial_ ∧
      p = (st.slabs (list_head (st.caches c).partial_)).free_head) ∧
    ((st.caches c).partial_ = [] → (st.caches c).empty ≠ [] →
      (st1.hdrs (p - SIZEOF_HDR)).slab = list_head (st.caches c).empty ∧
      p = (st.slabs (list_head (st.caches c).empty)).free_head) := by
  have hc0 := (hinv.cache_ok c hc).1
  have L := hinv.lists c hc
  unfold kmem_cache_alloc at ha
  rw [if_neg hc0] at ha
  simp only [] at ha
  cases hP : (st.caches c).partial_ with
  | cons x P1 =>
    have hxP : x ∈ (st.caches c).partial_ := by rw [hP]; exact List.mem_cons_self _ _
    have hxon : x ∈ on_lists st c := mem_on_lists.2 (Or.inr (Or.inl hxP))
    have hx0 : x ≠ 0 := hinv.slab_nz hc hxon
    have hxc : 0 < (st.slabs x).nr_free ∧ (st.slabs x).nr_free < (st.slabs x).nr_objs := by
      rcases L.on_part x hxP with f | hcl
      · exact f.elim
      · exact hcl
    have hxE : x ≠ list_head (st.caches c).empty := by
      cases hE : (st.caches c).empty with
      | nil => exact hx0
      | cons y E1 =>
        intro e
        rw [list_head_cons] at e
        have hyE : x ∈ (st.caches c).empty := by rw [hE, e]; exact List.mem_cons_self _ _
        have := (L.on_empty x hyE).1
        omega
    rw [hP, list_head_cons, if_pos hx0, if_neg hx0, if_neg hxE] at ha
    obtain ⟨hlen, hon, e_fp, hsl, e_p, _⟩ :=
      alloc_from_source (hinv.relax hc hxP) hc hxP hxc.1 ha
    refine ⟨fun e => (List.cons_ne_nil _ _ e.1).elim, fun _ => ⟨hlen, hon, e_fp⟩,
      fun _ => ⟨by rw [list_head_cons]; exact hsl, by rw [list_head_cons]; exact e_p⟩,
      fun e => (List.cons_ne_nil _ _ e).elim⟩
  | nil =>
    rw [hP, list_head_nil] at ha
    simp only [ne_eq, not_true_eq_false, if_false] at ha
    cases hE : (st.caches c).empty with
    | cons y E1 =>
      have hyE : y ∈ (st.caches c).empty := by rw [hE]; exact List.mem_cons_self _ _
      have hyon : y ∈ on_lists st c := mem_on_lists.2 (Or.inr (Or.inr hyE))
      have hy0 : y ≠ 0 := hinv.slab_nz hc hyon
      rw [hE, list_head_cons, if_neg hy0] at ha
      simp only [if_true] at ha
      have hte := hinv.take_empty hc hyE _ rfl
      rw [hE, hP] at hte
      obtain ⟨hX, hpos⟩ := hte
      obtain ⟨hlen, hon, e_fp, hsl, e_p, _⟩ :=
        alloc_from_source hX hc (by simp [list_push, upd_same]) hpos ha
      simp only [length_on_lists, upd_same, list_push, list_remove, List.erase_cons_head,
        List.length_cons, List.length_nil] at hlen
      refine ⟨fun e => (List.cons_ne_nil _ _ e.2).elim,
        fun _ => ⟨?_, fun x => ?_, e_fp⟩,
        fun e => (e rfl).elim,
        fun _ _ => ⟨by rw [list_head_cons]; exact hsl, by rw [list_head_cons]; exact e_p⟩⟩
      · simp only [length_on_lists, hP, hE, List.length_cons, List.length_nil]
        omega
      · refine (hon x).trans ?_
        simp only [mem_on_lists, upd_same, list_push, list_remove, hP, hE,
          List.erase_cons_head, List.mem_cons, List.not_mem_nil, List.mem_singleton]
        tauto
    | nil =>
      rw [hE, list_head_nil] at ha
      simp only [if_true] at ha
      cases hr : slab_new st c with
      | error e =>
        rw [hr] at ha
        simp at ha
      | ok r =>
        obtain ⟨st2, s1⟩ := r
        rw [hr] at ha
        simp only [] at ha
        obtain ⟨hI2, e_ca, hz, hnz⟩ := slab_new_preserves hinv hc hr
        by_cases hs1 : s1 = 0
        · rw [if_pos hs1] at ha
          simp only [Except.ok.injEq, Prod.mk.injEq] at ha
          exact (hp ha.2.symm).elim
        · rw [if_neg hs1] at ha
          obtain ⟨hfp, hnew, hnfp, ⟨fl, W⟩, hpos⟩ := hnz hs1
          have hX := hI2.add_slab hc hnew hnfp W _ rfl
          have hc2 : c ∈ ({ g with slabs := (c, s1) :: g.slabs } : Ghost).caches := hc
          obtain ⟨hlen, hon, e_fp, hsl, e_p, hin⟩ :=
            alloc_from_source hX hc2 (by simp [list_push, upd_same]) hpos ha
          simp only [length_on_lists, upd_same, list_push, e_ca, hP, hE, List.length_cons,
            List.length_nil] at hlen
          have hnot : s1 ∉ on_lists st c := by
            intro hm
            apply hnew c hc
            rw [mem_on_lists, e_ca]
            exact mem_on_lists.1 hm
          have hpages : st.freepages = s1 :: st1.freepages := by
            cases hf : st.freepages with
            | nil => exact (hfp hf).elim
            | cons page rest =>
              have hpg : page ≠ 0 :=
                (hinv.pages_ok page (by rw [hf]; exact List.mem_cons_self _ _)).1
              obtain ⟨_, _, _, hcase⟩ := slab_new_cons hf hpg hr
              rcases hcase with ⟨_, e0, _⟩ | ⟨_, e1, e2, _⟩
              · exact (hs1 e0).elim
              · rw [e_fp]
                show page :: rest = s1 :: st2.freepages
                rw [e1, e2]
          refine ⟨fun _ => ⟨?_, by rw [hsl]; exact hnot, by rw [hsl]; exact hin,
            by rw [hsl]; exact hpages⟩,
            fun e => ?_, fun e => (e rfl).elim, fun _ e => (e rfl).elim⟩
          · simp only [length_on_lists, hP, hE, List.length_nil]
            omega
          · rcases e with e | e
            · exact (e rfl).elim
            · exact (e rfl).elim

/-- Claim C11. In a reachable state, for a cache `c` and a call of
`kmem_cache_alloc` that returns an object `p`: if the cache has no partial and no
empty slab, the number of slabs on its three lists rises by exactly one, the slab
of `p` is a new one taken from the page supplier; if a partial or an empty slab
exists, the slabs on the three lists stay the same ones and no page is taken; the
object is the freelist head of the head of the partial list when that list is
non-empty, and of the head of the empty list only when there is no partial
slab. -/
theorem alloc_creates_slab_iff {st : State} {g : Ghost} (h : Reach st g) {c : Nat}
    (hc : c ∈ g.caches) {st1 : State} {p : Nat}
    (ha : kmem_cache_alloc st c = .ok (st1, p)) (hp : p ≠ 0) :
    ((st.caches c).partial_ = [] ∧ (st.caches c).empty = [] →
      (on_lists st1 c).length = (on_lists st c).length + 1 ∧
      (st1.hdrs (p - SIZEOF_HDR)).slab ∉ on_lists st c ∧
      (st1.hdrs (p - SIZEOF_HDR)).slab ∈ (st1.caches c).partial_ ++ (st1.caches c).full ∧
      st.freepages = (st1.hdrs (p - SIZEOF_HDR)).slab :: st1.freepages) ∧
    ((st.caches c).partial_ ≠ [] ∨ (st.caches c).empty ≠ [] →
      (on_lists st1 c).length = (on_lists st c).length ∧
      (∀ x : Nat, x ∈ on_lists st1 c ↔ x ∈ on_lists st c) ∧
      st1.freepages = st.freepages) ∧
    ((st.caches c).partial_ ≠ [] →
      (st1.hdrs (p - SIZEOF_HDR)).slab = list_head (st.caches c).partial_ ∧
      p = (st.slabs (list_head (st.caches c).partial_)).free_head) ∧
    ((st.caches c).partial_ = [] → (st.caches c).empty ≠ [] →
      (st1.hdrs (p - SIZEOF_HDR)).slab = list_head (st.caches c).empty ∧
      p = (st.slabs (list_head (st.caches c).empty)).free_head) :=
  h.inv.alloc_source hc ha hp

/-- In the example run the first allocation of the 2048-byte class finds no slab
and creates one. -/
theorem alloc_creates_slab_iff_witness :
    (on_lists st_a 0x87ff7000).length = (on_lists st_classes 0x87ff7000).length + 1 ∧
    (st_a.hdrs (p_a - SIZEOF_HDR)).slab ∉ on_lists st_classes 0x87ff7000 ∧
    (st_a.hdrs (p_a - SIZEOF_HDR)).slab ∈
      (st_a.caches 0x87ff7000).partial_ ++ (st_a.caches 0x87ff7000).full ∧
    st_classes.freepages = (st_a.hdrs (p_a - SIZEOF_HDR)).slab :: st_a.freepages :=
  (@alloc_creates_slab_iff st_classes g_classes reach_classes 0x87ff7000 (by decide) st_a p_a
    rfl (by decide)).1 (by decide)

theorem u32_add_left (a b : Nat) : u32 (u32 a + b) = u32 (a + b) := by
  unfold u32
  omega

theorem u32_sub_spec (live fr : Nat) : u32_sub (u32 (live + fr)) (u32 fr) = u32 live := by
  unfold u32_sub u32
  split_ifs <;> omega

theorem stats_full_spec (st : State) (a b f : Nat) (l : List Nat) :
    stats_full st ⟨u32 a, u32 b, f⟩ l =
      ⟨u32 (a + l.length), u32 (b + (l.map (fun s => (st.slabs s).nr_objs)).sum), f⟩ := by
  induction l generalizing a b with
  | nil => rfl
  | cons s rest ih =>
    simp only [stats_full, u32_add_left, ih, List.length_cons, List.map_cons, List.sum_cons]
    congr 2 <;> omega

theorem stats_free_spec (st : State) (a b f : Nat) (l : List Nat) :
    stats_free st ⟨u32 a, u32 b, u32 f⟩ l =
      ⟨u32 (a + l.length), u32 (b + (l.map (fun s => (st.slabs s).nr_objs)).sum),
       u32 (f + (l.map (fun s => (st.slabs s).nr_free)).sum)⟩ := by
  induction l generalizing a b f with
  | nil => rfl
  | cons s rest ih =>
    simp only [stats_free, u32_add_left, ih, List.length_cons, List.map_cons, List.sum_cons]
    congr 2 <;> omega

/-- The counters of `kmalloc_stats` are the sums over the lists, reduced to
`uint`. -/
theorem stats_count_spec (st : State) (c : Nat) :
    stats_count st c =
      ⟨u32 (on_lists st c).length,
       u32 ((on_lists st c).map (fun s => (st.slabs s).nr_objs)).sum,
       u32 (((st.caches c).partial_ ++ (st.caches c).empty).map
         (fun s => (st.slabs s).nr_free)).sum⟩ := by
  unfold stats_count
  have e0 : (⟨0, 0, 0⟩ : stats_acc) = ⟨u32 0, u32 0, u32 0⟩ := rfl
  rw [e0, stats_full_spec, stats_free_spec, stats_free_spec]
  simp only [on_lists, List.length_append, List.map_append, List.sum_append, Nat.zero_add,
    Nat.add_assoc]

theorem sum_map_add {l : List Nat} {f g h : Nat → Nat}
    (e : ∀ s : Nat, s ∈ l → f s = g s + h s) :
    (l.map f).sum = (l.map g).sum + (l.map h).sum := by
  induction l with
  | nil => rfl
  | cons a rest ih =>
    have e1 := e a (List.mem_cons_self _ _)
    have e2 := ih (fun s hs => e s (List.mem_cons_of_mem _ hs))
    simp only [List.map_cons, List.sum_cons]
    omega

theorem sum_map_zero {l : List Nat} {f : Nat → Nat} (e : ∀ s : Nat, s ∈ l → f s = 0) :
    (l.map f).sum = 0 := by
  induction l with
  | nil => rfl
  | cons a rest ih =>
    have e1 := e a (List.mem_cons_self _ _)
    have e2 := ih (fun s hs => e s (List.mem_cons_of_mem _ hs))
    simp only [List.map_cons, List.sum_cons]
    omega

theorem le_sum_map {l : List Nat} {f : Nat → Nat} {s : Nat} (hs : s ∈ l) :
    f s ≤ (l.map f).sum := by
  induction l with
  | nil => cases hs
  | cons a rest ih =>
    simp only [List.map_cons, List.sum_cons]
    rcases List.mem_cons.1 hs with e | e
    · rw [e]; omega
    · have := ih e
      omega

/-- Live and free slots of a slab add up to its capacity. -/
theorem Inv.slab_count {st : State} {g : Ghost} (hinv : Inv st g) {c s : Nat}
    (hc : c ∈ g.caches) (hs : s ∈ on_lists st c) :
    (st.slabs s).nr_objs = live_in st g s + (st.slabs s).nr_free := by
  obtain ⟨_, fl, W⟩ := hinv.slab_wf c hc s hs
  have h1 := hinv.live_in_eq hc hs W
  have h2 := W.count_slots (hinv.fits c hc)
  omega

/-- The value `used` of `kmalloc_stats` is the number of live objects of the
cache, as a `uint`. -/
theorem Inv.stats_used {st : State} {g : Ghost} (hinv : Inv st g) {c : Nat}
    (hc : c ∈ g.caches) : (stats_of st c).used = u32 (live_of g c) := by
  have L := hinv.lists c hc
  have e1 : ((on_lists st c).map (fun s => (st.slabs s).nr_objs)).sum =
      ((on_lists st c).map (fun s => live_in st g s)).sum +
      ((on_lists st c).map (fun s => (st.slabs s).nr_free)).sum :=
    sum_map_add (fun s hs => hinv.slab_count hc hs)
  have e2 : ((on_lists st c).map (fun s => (st.slabs s).nr_free)).sum =
      (((st.caches c).partial_ ++ (st.caches c).empty).map
        (fun s => (st.slabs s).nr_free)).sum := by
    unfold on_lists
    rw [List.append_assoc, List.map_append, List.sum_append,
      sum_map_zero (fun s hs => (L.on_full s hs).1), Nat.zero_add]
  rw [hinv.sum_live_in hc, e2] at e1
  show u32_sub (stats_count st c).objs (stats_count st c).freec = _
  rw [stats_count_spec]
  simp only []
  rw [e1]
  exact u32_sub_spec _ _

theorem countP_erase_of_mem {α : Type} [BEq α] [LawfulBEq α] {l : List α} {a : α}
    {P : α → Bool} (ha : a ∈ l) (hP : P a = true) :
    (l.erase a).countP P + 1 = l.countP P := by
  induction l with
  | nil => cases ha
  | cons b rest ih =>
    by_cases e : (b == a) = true
    · have e1 : b = a := eq_of_beq e
      subst e1
      rw [List.erase_cons_head, List.countP_cons_of_pos _ _ hP]
    · rw [List.erase_cons_tail e]
      rcases List.mem_cons.1 ha with e1 | e1
      · subst e1
        simp at e
      · have := ih e1
        simp only [List.countP_cons]
        omega

/-- A release takes one object from the live objects of its cache. -/
theorem live_of_free {g : Ghost} {c p : Nat} (hl : (c, p) ∈ g.live) :
    live_of (g.free c p) c + 1 = live_of g c := by
  unfold live_of Ghost.free
  exact countP_erase_of_mem hl (decide_eq_true rfl)

/-- After the release of the only live object of a cache its slab has all slots
free and is on the empty list. -/
theorem Inv.last_free {st st1 : State} {g : Ghost} (hinv : Inv st g) {c p : Nat}
    (hl : (c, p) ∈ g.live) (h1 : live_of g c = 1) (hf : kmem_cache_free st c p = .ok st1) :
    (stats_of st1 c).used = 0 ∧
    (st.hdrs (p - SIZEOF_HDR)).slab ∈ (st1.caches c).empty ∧
    (st1.slabs (st.hdrs (p - SIZEOF_HDR)).slab).nr_free =
      (st1.slabs (st.hdrs (p - SIZEOF_HDR)).slab).nr_objs := by
  obtain ⟨hc, s, fl, i0, hson, W, hi0, e, hnot, h72, hsl, hmag, hstate, hguard, hlt⟩ :=
    hinv.live_facts hl
  have hinv1 := kmem_cache_free_preserves hinv hl hf
  have hc1 : c ∈ (g.free c p).caches := hc
  have hlive := live_of_free hl
  have h0 : live_of (g.free c p) c = 0 := by omega
  have hs1 : s ∈ on_lists st1 c :=
    ((hinv1.slabs_iff c s).1 ((hinv.slabs_iff c s).2 ⟨hc, hson⟩)).2
  have hcount := hinv1.slab_count hc1 hs1
  have hle : live_in st1 (g.free c p) s ≤
      ((on_lists st1 c).map (fun x => live_in st1 (g.free c p) x)).sum :=
    @le_sum_map _ (fun x => live_in st1 (g.free c p) x) s hs1
  rw [hinv1.sum_live_in hc1, h0] at hle
  have hfull : (st1.slabs s).nr_free = (st1.slabs s).nr_objs := by omega
  rw [hsl]
  refine ⟨?_, ((hinv1.list_of_count hc1 hs1).2.2).2 hfull, hfull⟩
  rw [hinv1.stats_used hc1, h0]
  rfl

/-- Claim C12. In every reachable state the value `used = objs - free` that
`kmalloc_stats` computes for a cache is the number of its live objects (as a
`uint`), so it is 1 when one object is live; the release of the only live object
returns, leaves `used = 0`, and the slab that owned the object is on the empty list
with `nr_free == nr_objs`. -/
theorem stats_used_counts_live {st : State} {g : Ghost} (h : Reach st g) {c : Nat}
    (hc : c ∈ g.caches) :
    (stats_of st c).used = u32_sub (stats_of st c).objs (stats_of st c).freec ∧
    (stats_of st c).used = u32 (live_of g c) ∧
    (live_of g c = 1 → (stats_of st c).used = 1) ∧
    (∀ p : Nat, (c, p) ∈ g.live → live_of g c = 1 →
      ∃ st1 : State, kmem_cache_free st c p = .ok st1 ∧ kfree_slab st p = .ok st1 ∧
        (stats_of st1 c).used = 0 ∧
        (st.hdrs (p - SIZEOF_HDR)).slab ∈ (st1.caches c).empty ∧
        (st1.slabs (st.hdrs (p - SIZEOF_HDR)).slab).nr_free =
          (st1.slabs (st.hdrs (p - SIZEOF_HDR)).slab).nr_objs) := by
  have hinv := h.inv
  refine ⟨rfl, hinv.stats_used hc, fun e => ?_, fun p hl h1 => ?_⟩
  · rw [hinv.stats_used hc, e]
    rfl
  · obtain ⟨st1, hf⟩ := hinv.free_returns hl
    refine ⟨st1, hf, ?_, hinv.last_free hl h1 hf⟩
    rw [kfree_slab_live hinv hl]
    exact hf

/-- In the example run, after the first allocation of 2048 bytes, the statistics of
the class show one object in use, and none after its release. -/
theorem stats_used_counts_live_witness :
    (stats_of st_a 0x87ff7000).used =
      u32_sub (stats_of st_a 0x87ff7000).objs (stats_of st_a 0x87ff7000).freec ∧
    (stats_of st_a 0x87ff7000).used = u32 (live_of g_a 0x87ff7000) ∧
    (live_of g_a 0x87ff7000 = 1 → (stats_of st_a 0x87ff7000).used = 1) ∧
    (∀ p : Nat, (0x87ff7000, p) ∈ g_a.live → live_of g_a 0x87ff7000 = 1 →
      ∃ st1 : State, kmem_cache_free st_a 0x87ff7000 p = .ok st1 ∧
        kfree_slab st_a p = .ok st1 ∧
        (stats_of st1 0x87ff7000).used = 0 ∧
        (st_a.hdrs (p - SIZEOF_HDR)).slab ∈ (st1.caches 0x87ff7000).empty ∧
        (st1.slabs (st_a.hdrs (p - SIZEOF_HDR)).slab).nr_free =
          (st1.slabs (st_a.hdrs (p - SIZEOF_HDR)).slab).nr_objs) :=
  stats_used_counts_live reach_a (by decide)

/-- Claim C13. If `obj` is null, or the header in front of `obj` has a magic other
than `0x51AB`, or names no slab, or names a slab of a cache other than `c`, then
`kmem_cache_free(c, obj)` returns and the state after it is the state before it:
the lists, the slab records, the headers and all of memory, so that no destructor
has run and no byte of any cache has changed. -/
theorem free_ignores_foreign (st : State) (c obj : Nat)
    (h : obj = 0 ∨ (st.hdrs (obj - SIZEOF_HDR)).magic ≠ 0x51AB ∨
      (st.hdrs (obj - SIZEOF_HDR)).slab = 0 ∨
      (st.slabs (st.hdrs (obj - SIZEOF_HDR)).slab).cache ≠ c) :
    kmem_cache_free st c obj = .ok st := by
  unfold kmem_cache_free
  by_cases h0 : obj = 0
  · rw [if_pos h0]
  · rw [if_neg h0]
    simp only []
    rcases h with h | h | h | h
    · exact (h0 h).elim
    · have h1 : (st.hdrs (obj - SIZEOF_HDR)).magic ≠ SLAB_MAGIC := h
      rw [if_pos (Or.inl h1)]
    · rw [if_pos (Or.inr (Or.inl h))]
    · rw [if_pos (Or.inr (Or.inr h))]

/-- In the example run the object of the 2048-byte class, whose header is valid, is
handed to the cache of the 1024-byte class, which ignores it. -/
theorem free_ignores_foreign_witness :
    (st_a.hdrs (p_a - SIZEOF_HDR)).magic = 0x51AB ∧
    (st_a.slabs (st_a.hdrs (p_a - SIZEOF_HDR)).slab).cache = 0x87ff7000 ∧
    kmem_cache_free st_a 0x87ff8000 p_a = .ok st_a :=
  ⟨by decide, by decide,
    free_ignores_foreign st_a 0x87ff8000 p_a (Or.inr (Or.inr (Or.inr (by decide))))⟩

/-- A call of `kmem_cache_alloc` that returns an object ends in the common part
`kmem_cache_alloc_from`, entered with the parameters of the caches unchanged. -/
theorem kmem_cache_alloc_via {st st1 : State} {c p : Nat}
    (h : kmem_cache_alloc st c = .ok (st1, p)) (hp : p ≠ 0) :
    ∃ (st2 : State) (s : Nat), kmem_cache_alloc_from st2 c s = .ok (st1, p) ∧
      ∀ c1 : Nat, (st2.caches c1).objsize = (st.caches c1).objsize ∧
        (st2.caches c1).align = (st.caches c1).align ∧
        (st2.caches c1).ctor = (st.caches c1).ctor ∧
        (st2.caches c1).dtor = (st.caches c1).dtor := by
  unfold kmem_cache_alloc at h
  by_cases hc0 : c = 0
  · rw [if_pos hc0] at h
    cases h
  rw [if_neg hc0] at h
  simp only [] at h
  generalize (if list_head (st.caches c).partial_ ≠ 0 then list_head (st.caches c).partial_
    else list_head (st.caches c).empty) = s at h
  by_cases hs : s = 0
  · rw [if_pos hs] at h
    cases hr : slab_new st c with
    | error e =>
      rw [hr] at h
      cases h
    | ok r =>
      obtain ⟨st2, s1⟩ := r
      rw [hr] at h
      simp only [] at h
      obtain ⟨k1, k2⟩ := slab_new_caches hr
      by_cases hs1 : s1 = 0
      · rw [if_pos hs1] at h
        injection h with h
        injection h with h3 h4
        exact (hp h4.symm).elim
      · rw [if_neg hs1] at h
        refine ⟨_, s1, h, fun c1 => ?_⟩
        obtain ⟨a1, a2, a3, a4⟩ := @params_upd st2.caches c
          ({ st2.caches c with partial_ := list_push (st2.caches c).partial_ s1 })
          rfl rfl rfl rfl c1
        have e : st2.caches c1 = st.caches c1 := by rw [k1]
        exact ⟨a1.trans (by rw [e]), a2.trans (by rw [e]), a3.trans (by rw [e]),
          a4.trans (by rw [e])⟩
  · rw [if_neg hs] at h
    by_cases hE : s = list_head (st.caches c).empty
    · rw [if_pos hE] at h
      refine ⟨_, s, h, fun c1 => ?_⟩
      exact @params_upd st.caches c
        ({ st.caches c with empty := list_remove (st.caches c).empty s,
                            partial_ := list_push (st.caches c).partial_ s })
        rfl rfl rfl rfl c1
    · rw [if_neg hE] at h
      exact ⟨st, s, h, fun _ => ⟨rfl, rfl, rfl, rfl⟩⟩

/-- Under the invariant `kmem_cache_alloc` returns. -/
theorem Inv.alloc_returns {st : State} {g : Ghost} (hinv : Inv st g) {c : Nat}
    (hc : c ∈ g.caches) : ∃ q : State × Nat, kmem_cache_alloc st c = .ok q := by
  have hc0 := (hinv.cache_ok c hc).1
  have L := hinv.lists c hc
  unfold kmem_cache_alloc
  rw [if_neg hc0]
  simp only []
  cases hP : (st.caches c).partial_ with
  | cons x P1 =>
    have hxP : x ∈ (st.caches c).partial_ := by rw [hP]; exact List.mem_cons_self _ _
    have hxon : x ∈ on_lists st c := mem_on_lists.2 (Or.inr (Or.inl hxP))
    have hx0 : x ≠ 0 := hinv.slab_nz hc hxon
    have hxc : 0 < (st.slabs x).nr_free ∧ (st.slabs x).nr_free < (st.slabs x).nr_objs := by
      rcases L.on_part x hxP with f | hcl
      · exact f.elim
      · exact hcl
    have hxE : x ≠ list_head (st.caches c).empty := by
      cases hE : (st.caches c).empty with
      | nil => exact hx0
      | cons y E1 =>
        intro e
        rw [list_head_cons] at e
        have hyE : x ∈ (st.caches c).empty := by rw [hE, e]; exact List.mem_cons_self _ _
        have := (L.on_empty x hyE).1
        omega
    rw [list_head_cons, if_pos hx0, if_neg hx0, if_neg hxE]
    exact alloc_from_returns hinv hc hxon hxc.1
  | nil =>
    rw [list_head_nil]
    simp only [ne_eq, not_true_eq_false, if_false]
    cases hE : (st.caches c).empty with
    | cons y E1 =>
      have hyE : y ∈ (st.caches c).empty := by rw [hE]; exact List.mem_cons_self _ _
      have hyon : y ∈ on_lists st c := mem_on_lists.2 (Or.inr (Or.inr hyE))
      have hy0 : y ≠ 0 := hinv.slab_nz hc hyon
      rw [list_head_cons, if_neg hy0]
      simp only [if_true]
      have hte := hinv.take_empty hc hyE _ rfl
      rw [hE, hP] at hte
      obtain ⟨hX, hpos⟩ := hte
      exact alloc_from_returns hX hc
        (mem_on_lists.2 (Or.inr (Or.inl (by simp [list_push, upd_same])))) hpos
    | nil =>
      rw [list_head_nil]
      simp only [if_true]
      obtain ⟨⟨st2, s1⟩, hr⟩ := slab_new_returns st c (hinv.fits c hc).stride_ne
      rw [hr]
      simp only []
      obtain ⟨hI2, e_ca, hz, hnz⟩ := slab_new_preserves hinv hc hr
      by_cases hs1 : s1 = 0
      · rw [if_pos hs1]
        exact ⟨_, rfl⟩
      · rw [if_neg hs1]
        obtain ⟨hfp, hnew, hnfp, ⟨fl, W⟩, hpos⟩ := hnz hs1
        have hX := hI2.add_slab hc hnew hnfp W _ rfl
        have hc2 : c ∈ ({ g with slabs := (c, s1) :: g.slabs } : Ghost).caches := hc
        exact alloc_from_returns hX hc2
          (mem_on_lists.2 (Or.inr (Or.inl (by simp [list_push, upd_same])))) hpos

/-- The payload of an object that `kmem_cache_alloc` returns from a cache without
constructor holds `PAT_ALLOC`. -/
theorem kmem_cache_alloc_payload {st st1 : State} {c p : Nat}
    (h : kmem_cache_alloc st c = .ok (st1, p)) (hp : p ≠ 0)
    (hctor : (st.caches c).ctor = none) {j : Nat} (hj : j < (st.caches c).objsize) :
    st1.mem (p + j) = PAT_ALLOC := by
  obtain ⟨st2, s, ha, hpar⟩ := kmem_cache_alloc_via h hp
  obtain ⟨po, _, pc, _⟩ := hpar c
  obtain ⟨_, _, _, _, _, _, _, _, e_mem, _⟩ := alloc_from_inv ha
  rw [e_mem, pc, hctor, po]
  show memset _ _ _ _ (p + j) = _
  rw [memset_out _ _ (Or.inl (by omega)), memset_in _ _ (by omega) (by omega)]
  rfl

/-- Claim C14. In every reachable state, for a cache without constructor,
`kmem_cache_alloc` returns, and every one of the `objsize` payload bytes of the
object it returns holds `0xA5`, whatever the memory held before the call. -/
theorem alloc_payload_poisoned {st : State} {g : Ghost} (h : Reach st g) {c : Nat}
    (hc : c ∈ g.caches) (hctor : (st.caches c).ctor = none) :
    (∃ q : State × Nat, kmem_cache_alloc st c = .ok q) ∧
    ∀ (st1 : State) (p : Nat), kmem_cache_alloc st c = .ok (st1, p) → p ≠ 0 →
      ∀ j : Nat, j < (st.caches c).objsize → st1.mem (p + j) = 0xA5 :=
  ⟨h.inv.alloc_returns hc, fun _ _ ha hp _ hj => kmem_cache_alloc_payload ha hp hctor hj⟩

theorem reach_f : Reach st_f g_f :=
  Reach.kfree_slab st_w st_f g_a 0x87ff7000 p_a
    (Reach.write st_a g_a 0x87ff7000 p_a 5 0x42 reach_a (by decide) (by decide))
    (by decide) rfl

/-- In the example run the client stores `0x42` into byte 5 of an object and
releases it; the next allocation of the class returns the same slot and byte 5
holds `0xA5`. -/
theorem alloc_payload_poisoned_witness :
    st_w.mem (p_a + 5) = 0x42 ∧ p_r = p_a ∧ st_r.mem (p_r + 5) = 0xA5 :=
  ⟨by decide, by decide,
    (@alloc_payload_poisoned st_f g_f reach_f 0x87ff7000 (by decide) rfl).2 st_r p_r rfl
      (by decide) 5 (by decide)⟩

theorem write_bytes_eq (st : State) (q v n : Nat) :
    write_bytes st q v n = client_memset st q v n := by
  induction n with
  | zero =>
    show st = { st with mem := memset st.mem q v 0 }
    have e : memset st.mem q v 0 = st.mem := by
      funext x
      exact memset_out _ _ (by omega)
    rw [e]
  | succ n ih =>
    show write_byte (write_bytes st q v n) (q + n) v = _
    rw [ih]
    unfold write_byte client_memset
    have e : upd (memset st.mem q v n) (q + n) (v % 256) = memset st.mem q v (n + 1) := by
      funext x
      unfold upd memset
      by_cases h1 : x = q + n
      · rw [if_pos h1, if_pos (by omega)]
      · rw [if_neg h1]
        by_cases h2 : q ≤ x ∧ x < q + n
        · rw [if_pos h2, if_pos (by omega)]
        · rw [if_neg h2, if_neg (by omega)]
    simp only [e]

theorem Ghost.alloc_caches (g : Ghost) (st : State) (c p : Nat) :
    (g.alloc st c p).caches = g.caches := by
  unfold Ghost.alloc
  split_ifs <;> rfl

/-- A client that fills the first `n` payload bytes of a live object stays within
the reachable states. -/
theorem Reach.client_memset {st : State} {g : Ghost} (h : Reach st g) {c q : Nat}
    (hl : (c, q) ∈ g.live) (v : Nat) {n : Nat} (hn : n ≤ (st.caches c).objsize) :
    Reach (SlabAlloc.client_memset st q v n) g := by
  rw [← write_bytes_eq]
  induction n with
  | zero => exact h
  | succ n ih =>
    have h1 := ih (by omega)
    have e : (write_bytes st q v n).caches = st.caches := by rw [write_bytes_eq]; rfl
    exact Reach.write _ g c q n v h1 hl (by rw [e]; omega)

/-- Every slot of every slab is the live object `q` itself or lies a header and a
guard apart from it. -/
theorem InvX.slot_apart {st : State} {g : Ghost} {r : Nat → Prop} (hinv : InvX st g r)
    {c q : Nat} (hl : (c, q) ∈ g.live) {c2 s2 i2 : Nat} (hc2 : c2 ∈ g.caches)
    (hs2 : s2 ∈ on_lists st c2) (hi2 : i2 < (st.slabs s2).nr_objs) :
    slot_obj s2 (st.slabs s2).stride i2 = q ∧ c2 = c ∨
    slot_obj s2 (st.slabs s2).stride i2 + (st.caches c2).objsize + 16 + 16 ≤ q ∨
    q + (st.caches c).objsize + 16 + 16 ≤ slot_obj s2 (st.slabs s2).stride i2 := by
  obtain ⟨hc, s, fl, i0, hson, W, hi0, e, hnot, h72, hsl, hmag, hstate, hguard, hlt⟩ :=
    hinv.live_facts hl
  obtain ⟨_, fl2, W2⟩ := hinv.slab_wf c2 hc2 s2 hs2
  by_cases hne : slot_obj s2 (st.slabs s2).stride i2 = q
  · left
    refine ⟨hne, ?_⟩
    by_cases hss : s2 = s
    · rw [hss] at hs2
      exact hinv.owner hc2 hc hs2 hson
    · exfalso
      have g1 := W.in_page (hinv.fits c hc) hi0
      have g2 := W2.in_page (hinv.fits c2 hc2) hi2
      rw [← e] at g1
      rw [hne] at g2
      rcases pages_apart W2.aligned W.aligned hss with k | k <;> omega
  · rw [e] at hne ⊢
    rcases slots_apart W2 W (hinv.fits c2 hc2) (hinv.fits c hc) hi2 hi0 hne with k | k
    · exact Or.inr (Or.inl k)
    · exact Or.inr (Or.inr k)

/-- The release of a live object returns and puts its slot at the head of the
freelist of its slab. -/
theorem Inv.free_slot {st : State} {g : Ghost} (hinv : Inv st g) {c q : Nat}
    (hl : (c, q) ∈ g.live) :
    ∃ st1 : State, kmem_cache_free st c q = .ok st1 ∧ kfree_slab st q = .ok st1 ∧
      (st1.slabs (st.hdrs (q - SIZEOF_HDR)).slab).nr_free =
        (st.slabs (st.hdrs (q - SIZEOF_HDR)).slab).nr_free + 1 ∧
      (st1.slabs (st.hdrs (q - SIZEOF_HDR)).slab).free_head = q ∧
      load64 st1.mem q = (st.slabs (st.hdrs (q - SIZEOF_HDR)).slab).free_head := by
  obtain ⟨hc, s, fl, i0, hson, W, hi0, e, hnot, h72, hsl, hmag, hstate, hguard, hlt⟩ :=
    hinv.live_facts hl
  obtain ⟨st1, hf⟩ := hinv.free_returns hl
  obtain ⟨_, _, _, _, _, e_sl, _, e_mem, _⟩ :=
    free_inv hf (by omega) hmag (by rw [hsl]; exact W.nz) (by rw [hsl]; exact W.cache_eq)
  have hle := W.nr_objs_le
  have hu : u32 ((st.slabs s).nr_free + 1) = (st.slabs s).nr_free + 1 := by
    unfold u32
    omega
  refine ⟨st1, hf, by rw [kfree_slab_live hinv hl]; exact hf, ?_, ?_, ?_⟩
  · rw [e_sl, upd_same, hsl]
    exact hu
  · rw [e_sl, upd_same]
  · rw [e_mem, hsl]
    exact load64_store64 _ _ (W.head_lt (hinv.fits c hc))

/-- Claim C15. For a size from 1 to 2048, an object `q` that `kmalloc(size)` returns
in a reachable state and a byte value `v`: after the client fills the first `size`
bytes of `q` with `v` each of them reads `v`; the headers are as before, the bytes
of the header and of the guard of every slot of every slab lie outside the bytes
written, and so do the payloads of the other live objects; `kfree_slab(q)` then
returns, the count of free slots of the slab of `q` is one higher and `q` is the
head of its freelist, linked to the former head. -/
theorem write_read_release {st : State} {g : Ghost} (h : Reach st g) {size : Nat}
    {st1 : State} {q : Nat} (h1 : 1 ≤ size) (h2 : size ≤ 2048)
    (ha : kmalloc st size = .ok (st1, q)) (hq : q ≠ 0) {v : Nat} (hv : v < 256) :
    (∀ j : Nat, j < size → (client_memset st1 q v size).mem (q + j) = v) ∧
    (client_memset st1 q v size).hdrs = st1.hdrs ∧
    (∀ a : Nat, (a < q ∨ q + size ≤ a) → (client_memset st1 q v size).mem a = st1.mem a) ∧
    (∀ c2 s2 i2 : Nat, c2 ∈ g.caches → s2 ∈ on_lists st1 c2 → i2 < (st1.slabs s2).nr_objs →
      (slot_obj s2 (st1.slabs s2).stride i2 ≤ q ∨
        q + size + SIZEOF_HDR ≤ slot_obj s2 (st1.slabs s2).stride i2) ∧
      ∀ j : Nat, j < RZ_BYTES →
        (client_memset st1 q v size).mem
            (slot_obj s2 (st1.slabs s2).stride i2 + (st1.caches c2).objsize + j) =
          st1.mem (slot_obj s2 (st1.slabs s2).stride i2 + (st1.caches c2).objsize + j)) ∧
    (∀ c2 p : Nat,
      (c2, p) ∈ (g.alloc st1 (st.class_cache (class_index_for size).toNat) q).live →
      p ≠ q → ∀ j : Nat, j < (st1.caches c2).objsize →
        (client_memset st1 q v size).mem (p + j) = st1.mem (p + j)) ∧
    ∃ st3 : State, kfree_slab (client_memset st1 q v size) q = .ok st3 ∧
      (st3.slabs (st1.hdrs (q - SIZEOF_HDR)).slab).nr_free =
        (st1.slabs (st1.hdrs (q - SIZEOF_HDR)).slab).nr_free + 1 ∧
      (st3.slabs (st1.hdrs (q - SIZEOF_HDR)).slab).free_head = q ∧
      load64 st3.mem q = (st1.slabs (st1.hdrs (q - SIZEOF_HDR)).slab).free_head := by
  obtain ⟨i, hi, hidx, hle, _⟩ := class_index_for_spec size h2
  have hr1 := Reach.kmalloc st st1 g size q h ha
  have hti : (class_index_for size).toNat = i := by rw [hidx]; exact Int.toNat_natCast i
  rw [hti] at hr1 ⊢
  have hinv1 := hr1.inv
  have hcls := hr1.class_ok
  have hl : (st.class_cache i, q) ∈ (g.alloc st1 (st.class_cache i) q).live := by
    simp [Ghost.alloc, hq]
  have hc := (hinv1.live_facts hl).1
  have hc0 := (hinv1.cache_ok _ hc).1
  rw [kmalloc_of_class st size i h1 hidx] at ha
  obtain ⟨k1, _⟩ := kmem_cache_alloc_params ha
  have hci : st1.class_cache i = st.class_cache i := by rw [k1]
  obtain ⟨po, _, _, _⟩ := hcls i hi (by rw [hci]; exact hc0)
  rw [hci] at po
  have hsz : size ≤ (st1.caches (st.class_cache i)).objsize := by rw [po]; exact hle
  have hout : ∀ a : Nat, (a < q ∨ q + size ≤ a) →
      (client_memset st1 q v size).mem a = st1.mem a :=
    fun a ha1 => memset_out _ _ ha1
  have hk1 : SIZEOF_HDR = 16 := rfl
  have hk2 : RZ_BYTES = 16 := rfl
  refine ⟨fun j hj => ?_, rfl, hout, fun c2 s2 i2 hc2 hs2 hi2 => ?_, fun c2 p hp hne j hj => ?_,
    ?_⟩
  · show memset st1.mem q v size (q + j) = v
    rw [memset_in _ _ (by omega) (by omega)]
    exact Nat.mod_eq_of_lt hv
  · have hc2a : c2 ∈ (g.alloc st1 (st.class_cache i) q).caches := by
      rw [Ghost.alloc_caches]; exact hc2
    rcases hinv1.slot_apart hl hc2a hs2 hi2 with ⟨k, kc⟩ | k | k
    · rw [k, kc]
      exact ⟨Or.inl (Nat.le_refl _), fun j hj => hout _ (Or.inr (by omega))⟩
    · exact ⟨Or.inl (by omega), fun j hj => hout _ (Or.inl (by omega))⟩
    · exact ⟨Or.inr (by omega), fun j hj => hout _ (Or.inr (by omega))⟩
  · rcases hinv1.live_apart hp hl hne with k | k
    · exact hout _ (Or.inl (by omega))
    · exact hout _ (Or.inr (by omega))
  · have hr2 : Reach (client_memset st1 q v size) (g.alloc st1 (st.class_cache i) q) :=
      hr1.client_memset hl v hsz
    obtain ⟨st3, _, hf, e1, e2, e3⟩ := hr2.inv.free_slot hl
    exact ⟨st3, hf, e1, e2, e3⟩

/-- The scenario of the harness on the example run: a request of 7 bytes, filled
with `0xA5` and released. -/
theorem write_read_release_witness :
    (∀ j : Nat, j < 7 → st_q1.mem (p_q + j) = 0xA5) ∧
    (∃ st3 : State, kfree_slab st_q1 p_q = .ok st3 ∧
      (st3.slabs (st_q.hdrs (p_q - SIZEOF_HDR)).slab).nr_free =
        (st_q.slabs (st_q.hdrs (p_q - SIZEOF_HDR)).slab).nr_free + 1 ∧
      (st3.slabs (st_q.hdrs (p_q - SIZEOF_HDR)).slab).free_head = p_q ∧
      load64 st3.mem p_q = (st_q.slabs (st_q.hdrs (p_q - SIZEOF_HDR)).slab).free_head) ∧
    (st_q.slabs (st_q.hdrs (p_q - SIZEOF_HDR)).slab).nr_free = 83 ∧
    (st_q2.slabs (st_q.hdrs (p_q - SIZEOF_HDR)).slab).nr_free = 84 :=
  have k := @write_read_release st_classes g_classes reach_classes 7 st_q p_q (by decide)
    (by decide) rfl (by decide) 0xA5 (by decide)
  ⟨k.1, k.2.2.2.2.2, by decide, by decide⟩

/-- Clearing the low `j` bits of a 32-bit value rounds it down to a multiple of
`2 ^ j`. -/
theorem land_mask {x j : Nat} (hj : j ≤ 32) (hx : x < 2 ^ 32) :
    Nat.land x (2 ^ 32 - 1 - (2 ^ j - 1)) = 2 ^ j * (x / 2 ^ j) := by
  have e : (2 : Nat) ^ 32 = 2 ^ j * 2 ^ (32 - j) := by
    rw [← Nat.pow_add]
    congr 1
    omega
  have hpos : 0 < 2 ^ j := Nat.two_pow_pos j
  have em : 2 ^ 32 - 1 - (2 ^ j - 1) = 2 ^ j * (2 ^ (32 - j) - 1) := by
    rw [Nat.mul_sub_one, ← e]
    omega
  rw [em]
  apply Nat.eq_of_testBit_eq
  intro i
  show (x &&& 2 ^ j * (2 ^ (32 - j) - 1)).testBit i = _
  rw [Nat.testBit_and, Nat.testBit_mul_pow_two, Nat.testBit_mul_pow_two,
    Nat.testBit_two_pow_sub_one]
  by_cases hij : i ≥ j
  · have hx1 : x.testBit i = (x / 2 ^ j).testBit (i - j) := by
      have h1 := Nat.testBit_mul_pow_two_add (x / 2 ^ j) (Nat.mod_lt x hpos) i
      rw [Nat.div_add_mod, if_neg (by omega)] at h1
      exact h1
    by_cases hi : i < 32
    · simp [hij, hx1, show i - j < 32 - j by omega]
    · have hx2 : x.testBit i = false := by
        apply Nat.testBit_lt_two_pow
        exact Nat.lt_of_lt_of_le hx (Nat.pow_le_pow_right (by decide) (by omega))
      rw [← hx1, hx2]
      simp
  · simp [hij]

/-- Rounding up to a power of two that does not overflow `uint`. -/
theorem align_up_spec {n a j : Nat} (ha : a = 2 ^ j) (hj : j < 32) (hn : n + a ≤ 2 ^ 32)
    (hn0 : 0 < n) :
    align_up n a = a * ((n + a - 1) / a) := by
  have hpos : 0 < 2 ^ j := Nat.two_pow_pos j
  have ha32 : a < 2 ^ 32 := by
    rw [ha]
    exact Nat.pow_lt_pow_right (by decide) hj
  unfold align_up
  have e1 : u32_dec (u32 a) = a - 1 := by
    unfold u32_dec u32
    rw [Nat.mod_eq_of_lt ha32, if_neg (by omega)]
  have e2 : u32_dec (u32 (n + a)) = n + a - 1 := by
    unfold u32_dec u32
    by_cases h : n + a = 2 ^ 32
    · rw [h, Nat.mod_self, if_pos rfl]
    · rw [Nat.mod_eq_of_lt (by omega), if_neg (by omega)]
  rw [e1, e2, ha]
  exact land_mask (by omega) (by rw [← ha]; omega)

/-- The result of rounding up is the least multiple that is large enough. -/
theorem round_up_least {n a : Nat} (ha : 0 < a) :
    a ∣ a * ((n + a - 1) / a) ∧ n ≤ a * ((n + a - 1) / a) ∧
    ∀ m : Nat, a ∣ m → n ≤ m → a * ((n + a - 1) / a) ≤ m := by
  refine ⟨Dvd.intro _ rfl, ?_, ?_⟩
  · have h1 := Nat.div_add_mod (n + a - 1) a
    have h2 := Nat.mod_lt (n + a - 1) ha
    omega
  · rintro m ⟨t, rfl⟩ hm
    apply Nat.mul_le_mul_left
    have : (n + a - 1) / a < t + 1 := by
      rw [Nat.div_lt_iff_lt_mul ha]
      have : (t + 1) * a = a * t + a := by ring
      omega
    omega

/-- The stride and the capacity that `slab_new` records in a slab it returns. -/
theorem slab_new_fields {st st1 : State} {c s1 : Nat} (hr : slab_new st c = .ok (st1, s1))
    (hs1 : s1 ≠ 0) :
    (st1.slabs s1).stride = slab_stride (st.caches c).objsize (st.caches c).align ∧
    (st1.slabs s1).nr_objs =
      (PGSIZE - SIZEOF_SLAB) / slab_stride (st.caches c).objsize (st.caches c).align ∧
    1 ≤ (st1.slabs s1).nr_objs := by
  cases hf : st.freepages with
  | nil =>
    rw [slab_new_nil c hf] at hr
    injection hr with hr
    injection hr with _ h2
    exact (hs1 h2.symm).elim
  | cons page rest =>
    by_cases hp : page = 0
    · unfold slab_new at hr
      rw [kalloc_cons hf] at hr
      simp only [] at hr
      rw [if_pos hp] at hr
      injection hr with hr
      injection hr with _ h2
      exact (hs1 h2.symm).elim
    · obtain ⟨_, _, _, hcase⟩ := slab_new_cons hf hp hr
      rcases hcase with ⟨_, e0, _⟩ | ⟨hcap, e1, _, e2, _⟩
      · exact (hs1 e0).elim
      · rw [e1, e2]
        exact ⟨rfl, rfl, Nat.one_le_iff_ne_zero.2 hcap⟩

/-- Claim C16, as amended. For a cache whose alignment is a power of two and whose
object size is small enough that header + payload + guard, also after the
rounding (`+ max(alignment, 8) - 1`), stays below `2 ^ 32`, the stride of
`slab_new` is the least multiple of `max(alignment, 8)` that is at least
`sizeof(header) + objsize + 16`, and a slab that `slab_new` returns records this
stride and the capacity `(4096 - sizeof(struct slab)) / stride`, at least 1.  The
nine classes get the strides 48, 48, 64, 96, 160, 288, 544, 1056, 2080 and the
capacities 84, 84, 63, 42, 25, 14, 7, 3, 1. -/
theorem stride_least_multiple (objsize align k : Nat) (hk : align = 2 ^ k)
    (hfit : SIZEOF_HDR + objsize + RZ_BYTES + maxu align SIZEOF_PTR ≤ 2 ^ 32) :
    (maxu align SIZEOF_PTR ∣ slab_stride objsize align ∧
      SIZEOF_HDR + objsize + RZ_BYTES ≤ slab_stride objsize align ∧
      ∀ m : Nat, maxu align SIZEOF_PTR ∣ m → SIZEOF_HDR + objsize + RZ_BYTES ≤ m →
        slab_stride objsize align ≤ m) ∧
    (∀ (st st1 : State) (c s1 : Nat), (st.caches c).objsize = objsize →
      (st.caches c).align = align → slab_new st c = .ok (st1, s1) → s1 ≠ 0 →
      (st1.slabs s1).stride = slab_stride objsize align ∧
      (st1.slabs s1).nr_objs = (PGSIZE - SIZEOF_SLAB) / slab_stride objsize align ∧
      1 ≤ (st1.slabs s1).nr_objs) ∧
    size_classes.map (fun sz => slab_stride sz 16) =
      [48, 48, 64, 96, 160, 288, 544, 1056, 2080] ∧
    size_classes.map (fun sz => (PGSIZE - SIZEOF_SLAB) / slab_stride sz 16) =
      [84, 84, 63, 42, 25, 14, 7, 3, 1] := by
  have k1 : SIZEOF_HDR = 16 := rfl
  have k2 : RZ_BYTES = 16 := rfl
  have k3 : SIZEOF_PTR = 8 := rfl
  have hpos : 0 < 2 ^ k := Nat.two_pow_pos k
  have hne : align ≠ 0 := by rw [hk]; omega
  obtain ⟨j, hj, hj32⟩ : ∃ j : Nat, maxu align SIZEOF_PTR = 2 ^ j ∧ j < 32 := by
    by_cases h8 : align > 8
    · refine ⟨k, by unfold maxu; rw [k3, if_pos h8, hk], ?_⟩
      have h1 : maxu align SIZEOF_PTR = align := by unfold maxu; rw [k3, if_pos h8]
      rw [h1, hk] at hfit
      apply Decidable.by_contra
      intro hge
      have : 2 ^ 32 ≤ 2 ^ k := Nat.pow_le_pow_right (by decide) (by omega)
      omega
    · exact ⟨3, by unfold maxu; rw [k3, if_neg h8]; decide, by decide⟩
  have hst : slab_stride objsize align =
      maxu align SIZEOF_PTR *
        ((SIZEOF_HDR + objsize + RZ_BYTES + maxu align SIZEOF_PTR - 1) /
          maxu align SIZEOF_PTR) := by
    unfold slab_stride
    rw [if_pos hne]
    have hu : u32 (SIZEOF_HDR + objsize + RZ_BYTES) = SIZEOF_HDR + objsize + RZ_BYTES := by
      unfold u32
      have : 0 < maxu align SIZEOF_PTR := by rw [hj]; exact Nat.two_pow_pos j
      exact Nat.mod_eq_of_lt (by omega)
    rw [hu]
    exact align_up_spec hj hj32 hfit (by omega)
  refine ⟨?_, fun st st1 c s1 e1 e2 hr hs1 => ?_, by decide, by decide⟩
  · rw [hst]
    exact round_up_least (by rw [hj]; exact Nat.two_pow_pos j)
  · have := slab_new_fields hr hs1
    rw [e1, e2] at this
    exact this

/-- The class of 2048 bytes, alignment `16 = 2 ^ 4`: the stride 2080 is the least
multiple of 16 from 2080 on. -/
theorem stride_least_multiple_witness :
    maxu 16 SIZEOF_PTR ∣ slab_stride 2048 16 ∧
    SIZEOF_HDR + 2048 + RZ_BYTES ≤ slab_stride 2048 16 ∧
    ∀ m : Nat, maxu 16 SIZEOF_PTR ∣ m → SIZEOF_HDR + 2048 + RZ_BYTES ≤ m →
      slab_stride 2048 16 ≤ m :=
  (stride_least_multiple 2048 16 4 (by decide) (by decide)).1

/-- Claim C16 as stated fails for the object size `2 ^ 32 - 40` with alignment 16:
header + payload + guard is `2 ^ 32 - 8` and does not wrap, the rounding in
`align_up` does, and the stride is 0. -/
theorem stride_rounding_wraps :
    (16 : Nat) = 2 ^ 4 ∧ SIZEOF_HDR + (2 ^ 32 - 40) + RZ_BYTES < 2 ^ 32 ∧
    slab_stride (2 ^ 32 - 40) 16 = 0 ∧
    ¬ (SIZEOF_HDR + (2 ^ 32 - 40) + RZ_BYTES ≤ slab_stride (2 ^ 32 - 40) 16) := by
  decide

/-- Claim C17 fails on the code for object sizes near `2 ^ 32`.  For a cache of
objects of `2 ^ 32 - 32` bytes the slot size wraps to 0, the stride is 0 and
`slab_new` divides by it.  For `2 ^ 32 - 31` bytes the slot size wraps to 1, the
stride is 16, and `slab_new` returns a slab of 252 slots of 16 bytes, although one
slot of header, payload and guard does not fit a page. -/
theorem slab_new_wrapped_sizes :
    (st_z.caches c_z).objsize = 2 ^ 32 - 32 ∧ (st_z.caches c_z).align = 16 ∧
    u32 (SIZEOF_HDR + (2 ^ 32 - 32) + RZ_BYTES) = 0 ∧
    slab_stride (2 ^ 32 - 32) 16 = 0 ∧
    slab_new st_z c_z = .error .div_by_zero ∧
    kmem_cache_alloc st_z c_z = .error .div_by_zero ∧
    (st_y.caches c_y).objsize = 2 ^ 32 - 31 ∧ (st_y.caches c_y).align = 16 ∧
    PGSIZE - SIZEOF_SLAB < SIZEOF_HDR + (2 ^ 32 - 31) + RZ_BYTES ∧
    u32 (SIZEOF_HDR + (2 ^ 32 - 31) + RZ_BYTES) = 1 ∧
    slab_stride (2 ^ 32 - 31) 16 = 16 ∧
    ptr_of (slab_new st_y c_y) = 0x87ffe000 ∧
    ((state_of (slab_new st_y c_y) st_y).slabs 0x87ffe000).nr_objs = 252 ∧
    (state_of (slab_new st_y c_y) st_y).freepages.length + 1 = st_y.freepages.length := by
  refine ⟨by decide, by decide, by decide, by decide, rfl, rfl, by decide, by decide,
    by decide, by decide, by decide, by decide, by decide, by decide⟩

theorem class_stride_mod : ∀ i : Nat, i < N_CLASS →
    slab_stride (size_classes.getD i 0) 16 % 16 = 0 := by
  decide

/-- The place of an object that `kmalloc` returns in a reachable state. -/
theorem Reach.kmalloc_place {st : State} {g : Ghost} (h : Reach st g) {size : Nat}
    {st1 : State} {q : Nat} (h1 : 1 ≤ size) (h2 : size ≤ 2048)
    (ha : SlabAlloc.kmalloc st size = .ok (st1, q)) (hq : q ≠ 0) :
    ∃ i0 : Nat, i0 < (st1.slabs (st1.hdrs (q - SIZEOF_HDR)).slab).nr_objs ∧
      q = (st1.hdrs (q - SIZEOF_HDR)).slab + SIZEOF_SLAB + SIZEOF_HDR +
        i0 * (st1.slabs (st1.hdrs (q - SIZEOF_HDR)).slab).stride ∧
      (st1.hdrs (q - SIZEOF_HDR)).slab % PGSIZE = 0 ∧
      (st1.slabs (st1.hdrs (q - SIZEOF_HDR)).slab).stride % 16 = 0 := by
  obtain ⟨i, hi, hidx, hle, _⟩ := class_index_for_spec size h2
  have hr1 := Reach.kmalloc st st1 g size q h ha
  have hti : (class_index_for size).toNat = i := by rw [hidx]; exact Int.toNat_natCast i
  rw [hti] at hr1
  have hinv1 := hr1.inv
  have hcls := hr1.class_ok
  have hl : (st.class_cache i, q) ∈ (g.alloc st1 (st.class_cache i) q).live := by
    simp [Ghost.alloc, hq]
  obtain ⟨hc, s, fl, i0, hson, W, hi0, e, hnot, h72, hsl, hmag, hstate, hguard, hlt⟩ :=
    hinv1.live_facts hl
  have hc0 := (hinv1.cache_ok _ hc).1
  rw [kmalloc_of_class st size i h1 hidx] at ha
  obtain ⟨k1, _⟩ := kmem_cache_alloc_params ha
  have hci : st1.class_cache i = st.class_cache i := by rw [k1]
  obtain ⟨po, pa, _, _⟩ := hcls i hi (by rw [hci]; exact hc0)
  rw [hci] at po pa
  have hstr : (st1.slabs s).stride % 16 = 0 := by
    rw [W.stride_eq, po, pa]
    exact class_stride_mod i hi
  obtain ⟨hgeo, _, _⟩ := W.geom (hinv1.fits _ hc) hi0
  rw [hsl]
  refine ⟨i0, hi0, ?_, W.aligned, hstr⟩
  rw [e, hgeo]
  have k2 : SIZEOF_SLAB = 56 := rfl
  have k3 : SIZEOF_HDR = 16 := rfl
  omega

/-- Claim C19. For every size from 1 to 2048, an object `q` that `kmalloc(size)`
returns in a reachable state lies at `page + 56 + 16 + idx * stride` with the page
a multiple of the page size and the stride a multiple of 16, so `q` is a multiple
of 8 (it is 8 modulo 16); the alignment check of the harness does not fire, and
the freelist link stored at `q` is word-aligned. -/
theorem kmalloc_word_aligned {st : State} {g : Ghost} (h : Reach st g) {size : Nat}
    {st1 : State} {q : Nat} (h1 : 1 ≤ size) (h2 : size ≤ 2048)
    (ha : kmalloc st size = .ok (st1, q)) (hq : q ≠ 0) :
    (∃ i0 : Nat, i0 < (st1.slabs (st1.hdrs (q - SIZEOF_HDR)).slab).nr_objs ∧
      q = (st1.hdrs (q - SIZEOF_HDR)).slab + SIZEOF_SLAB + SIZEOF_HDR +
        i0 * (st1.slabs (st1.hdrs (q - SIZEOF_HDR)).slab).stride ∧
      (st1.hdrs (q - SIZEOF_HDR)).slab % PGSIZE = 0 ∧
      (st1.slabs (st1.hdrs (q - SIZEOF_HDR)).slab).stride % 16 = 0) ∧
    q % 8 = 0 ∧ q % 16 = 8 ∧ eval_align_bad size q = false := by
  have hp := h.kmalloc_place h1 h2 ha hq
  obtain ⟨i0, _, e, hal, hstr⟩ := hp
  have k1 : PGSIZE = 4096 := rfl
  have k2 : SIZEOF_SLAB = 56 := rfl
  have k3 : SIZEOF_HDR = 16 := rfl
  obtain ⟨t, ht⟩ := Nat.dvd_of_mod_eq_zero hstr
  have e2 : i0 * (st1.slabs (st1.hdrs (q - SIZEOF_HDR)).slab).stride = 16 * (i0 * t) := by
    rw [ht]; ring
  rw [e2] at e
  rw [k1] at hal
  have h16 : q % 16 = 8 := by omega
  have h8 : q % 8 = 0 := by omega
  refine ⟨h.kmalloc_place h1 h2 ha hq, h8, h16, ?_⟩
  unfold eval_align_bad
  have h4 : q % 4 = 0 := by omega
  have h2 : q % 2 = 0 := by omega
  simp [h8, h4, h2]

/-- In the example run the object of 7 bytes lies at a multiple of 8. -/
theorem kmalloc_word_aligned_witness :
    p_q % 8 = 0 ∧ p_q % 16 = 8 ∧ eval_align_bad 7 p_q = false :=
  (@kmalloc_word_aligned st_classes g_classes reach_classes 7 st_q p_q (by decide)
    (by decide) rfl (by decide)).2

/-- Magic and lifecycle flag of the slots of a well-formed slab. -/
theorem SlabWF.flags {st : State} {c s : Nat} {live : Nat → Prop} {fl : List Nat}
    (W : SlabWF st c s live fl) {i : Nat} (hi : i < (st.slabs s).nr_objs) :
    (st.hdrs (slot_obj s (st.slabs s).stride i - SIZEOF_HDR)).magic = SLAB_MAGIC ∧
    ((st.hdrs (slot_obj s (st.slabs s).stride i - SIZEOF_HDR)).state = 0 ↔
      slot_obj s (st.slabs s).stride i ∈ fl) ∧
    ((st.hdrs (slot_obj s (st.slabs s).stride i - SIZEOF_HDR)).state = 1 ↔
      live (slot_obj s (st.slabs s).stride i)) := by
  have h1 := W.hdr_state i hi
  have h2 := W.live_iff i hi
  refine ⟨W.hdr_magic i hi, ?_, ?_⟩
  · by_cases hm : slot_obj s (st.slabs s).stride i ∈ fl
    · rw [if_pos hm] at h1
      exact ⟨fun _ => hm, fun _ => h1⟩
    · rw [if_neg hm] at h1
      exact ⟨fun e => (by rw [h1] at e; cases e), fun e => (hm e).elim⟩
  · by_cases hm : slot_obj s (st.slabs s).stride i ∈ fl
    · rw [if_pos hm] at h1
      exact ⟨fun e => (by rw [h1] at e; cases e), fun e => ((h2.1 e) hm).elim⟩
    · rw [if_neg hm] at h1
      exact ⟨fun _ => h2.2 hm, fun _ => h1⟩

/-- Claim C20. In every state reached from `kmem_cache_create` by allocations,
releases of live objects and client stores inside live payloads, every slot of
every slab has the magic `0x51AB`, its flag is free exactly when the slot is on
the freelist of its slab and allocated exactly when the object is live; so
`kmem_cache_alloc` returns (no "corrupt/double-alloc") and the release of a live
object returns (no "double free / UAF", no "tail OOB write"). -/
theorem debug_checks_never_fire {st : State} {g : Ghost} (h : Reach st g) :
    (∀ c s : Nat, c ∈ g.caches → s ∈ on_lists st c →
      ∃ fl : List Nat, Chain st.mem (st.slabs s).free_head fl ∧ fl.Nodup ∧
        fl.length = (st.slabs s).nr_free ∧
        ∀ i : Nat, i < (st.slabs s).nr_objs →
          (st.hdrs (slot_obj s (st.slabs s).stride i - SIZEOF_HDR)).magic = 0x51AB ∧
          ((st.hdrs (slot_obj s (st.slabs s).stride i - SIZEOF_HDR)).state = 0 ↔
            slot_obj s (st.slabs s).stride i ∈ fl) ∧
          ((st.hdrs (slot_obj s (st.slabs s).stride i - SIZEOF_HDR)).state = 1 ↔
            (c, slot_obj s (st.slabs s).stride i) ∈ g.live)) ∧
    (∀ c : Nat, c ∈ g.caches → ∃ q : State × Nat, kmem_cache_alloc st c = .ok q) ∧
    (∀ c p : Nat, (c, p) ∈ g.live →
      ∃ st1 : State, kmem_cache_free st c p = .ok st1 ∧ kfree_slab st p = .ok st1) := by
  have hinv := h.inv
  refine ⟨fun c s hc hs => ?_, fun c hc => hinv.alloc_returns hc, fun c p hl => ?_⟩
  · obtain ⟨_, fl, W⟩ := hinv.slab_wf c hc s hs
    exact ⟨fl, W.chain, W.nodup, W.len, fun i hi => W.flags hi⟩
  · obtain ⟨st1, hf, hk, _⟩ := hinv.free_slot hl
    exact ⟨st1, hf, hk⟩

/-- In the example run, with two objects of 2048 bytes live: the slot of the first
has its magic and the flag allocated, the class can allocate again, and the first
object can be released. -/
theorem debug_checks_never_fire_witness :
    (∃ fl : List Nat, Chain st_b.mem (st_b.slabs 0x87ff6000).free_head fl ∧ fl.Nodup ∧
        fl.length = (st_b.slabs 0x87ff6000).nr_free ∧
        ∀ i : Nat, i < (st_b.slabs 0x87ff6000).nr_objs →
          (st_b.hdrs (slot_obj 0x87ff6000 (st_b.slabs 0x87ff6000).stride i
            - SIZEOF_HDR)).magic = 0x51AB ∧
          ((st_b.hdrs (slot_obj 0x87ff6000 (st_b.slabs 0x87ff6000).stride i
            - SIZEOF_HDR)).state = 0 ↔
            slot_obj 0x87ff6000 (st_b.slabs 0x87ff6000).stride i ∈ fl) ∧
          ((st_b.hdrs (slot_obj 0x87ff6000 (st_b.slabs 0x87ff6000).stride i
            - SIZEOF_HDR)).state = 1 ↔
            (0x87ff7000, slot_obj 0x87ff6000 (st_b.slabs 0x87ff6000).stride i) ∈ g_b.live)) ∧
    (∃ q : State × Nat, kmem_cache_alloc st_b 0x87ff7000 = .ok q) ∧
    (∃ st1 : State, kmem_cache_free st_b 0x87ff7000 p_a = .ok st1 ∧
      kfree_slab st_b p_a = .ok st1) :=
  have k := debug_checks_never_fire reach_b
  ⟨k.1 0x87ff7000 0x87ff6000 (by decide) (by decide), k.2.1 0x87ff7000 (by decide),
    k.2.2 0x87ff7000 p_a (by decide)⟩

theorem Ghost.alloc_live_sub (g : Ghost) (st : State) (c p : Nat) {q : Nat × Nat}
    (h : q ∈ g.live) : q ∈ (g.alloc st c p).live := by
  unfold Ghost.alloc
  by_cases hp : p = 0
  · rw [if_pos hp]
    exact h
  · rw [if_neg hp]
    exact List.mem_cons_of_mem _ h

/-- The allocation loop of the smoke test keeps the run within the reachable
states; the pointers it stores are distinct live objects. -/
theorem smoke_alloc_reach : ∀ (n s : Nat) (st : State) (arr : List Nat) (g : Ghost)
    (st1 : State) (arr1 : List Nat), Reach st g →
    (∀ p : Nat, p ∈ arr → ∃ c : Nat, (c, p) ∈ g.live) → arr.Nodup →
    smoke_alloc n s st arr = .ok (st1, arr1) →
    Reach st1 (smoke_ghost n s st g) ∧
    (∀ p : Nat, p ∈ arr1 → ∃ c : Nat, (c, p) ∈ (smoke_ghost n s st g).live) ∧ arr1.Nodup
  | 0, s, st, arr, g, st1, arr1, h, hl, hnd, hr => by
    unfold smoke_alloc at hr
    injection hr with hr
    injection hr with e1 e2
    subst e1
    subst e2
    exact ⟨h, hl, hnd⟩
  | n + 1, s, st, arr, g, st1, arr1, h, hl, hnd, hr => by
    unfold smoke_alloc at hr
    unfold smoke_ghost
    by_cases hs : s ≤ 2000
    · rw [if_pos hs] at hr ⊢
      simp only [] at hr ⊢
      by_cases hidx : class_index_for (u32 s) ≥ 0
      · rw [if_pos hidx] at hr ⊢
        cases ha : kmem_cache_alloc st (st.class_cache (class_index_for (u32 s)).toNat) with
        | error e =>
          rw [ha] at hr
          cases hr
        | ok r =>
          obtain ⟨st2, p⟩ := r
          rw [ha] at hr
          simp only [] at hr ⊢
          have hinv := h.inv
          have hc : st.class_cache (class_index_for (u32 s)).toNat ∈ g.caches := by
            rcases hinv.classes (class_index_for (u32 s)).toNat with h0 | h1
            · rw [h0, kmem_cache_alloc_null] at ha
              cases ha
            · exact h1
          have h2 := Reach.alloc st st2 g _ p h hc ha
          have hinv2 := h2.inv
          refine smoke_alloc_reach n (s + 31) st2 _ _ st1 arr1 h2 ?_ ?_ hr
          · intro p1 hp1
            split_ifs at hp1 with hcond
            · rcases List.mem_append.1 hp1 with hm | hm
              · obtain ⟨c1, hc1⟩ := hl p1 hm
                exact ⟨c1, Ghost.alloc_live_sub g st2 _ p hc1⟩
              · rw [List.mem_singleton] at hm
                subst hm
                exact ⟨st.class_cache (class_index_for (u32 s)).toNat,
                  by simp [Ghost.alloc, hcond.1]⟩
            · obtain ⟨c1, hc1⟩ := hl p1 hp1
              exact ⟨c1, Ghost.alloc_live_sub g st2 _ p hc1⟩
          · split_ifs with hcond
            · rw [List.nodup_append]
              refine ⟨hnd, List.nodup_singleton _, ?_⟩
              intro a ha1 ha2
              rw [List.mem_singleton] at ha2
              subst ha2
              obtain ⟨c1, hc1⟩ := hl a ha1
              have hnew : (st.class_cache (class_index_for (u32 s)).toNat, a) ∈
                  (g.alloc st2 (st.class_cache (class_index_for (u32 s)).toNat) a).live := by
                simp [Ghost.alloc, hcond.1]
              have hold := Ghost.alloc_live_sub g st2
                (st.class_cache (class_index_for (u32 s)).toNat) a hc1
              have hcc := hinv2.live_cache hold hnew
              subst hcc
              have hnd2 := hinv2.live_nodup
              have el : (g.alloc st2 (st.class_cache (class_index_for (u32 s)).toNat) a).live =
                  (st.class_cache (class_index_for (u32 s)).toNat, a) :: g.live := by
                simp [Ghost.alloc, hcond.1]
              rw [el] at hnd2
              exact (List.nodup_cons.1 hnd2).1 hc1
            · exact hnd
      · rw [if_neg hidx] at hr ⊢
        exact smoke_alloc_reach n (s + 31) st arr g st1 arr1 h hl hnd hr
    · rw [if_neg hs] at hr ⊢
      injection hr with hr
      injection hr with e1 e2
      subst e1
      subst e2
      exact ⟨h, hl, hnd⟩

theorem Ghost.free_all_nil (g : Ghost) : g.free_all [] = g := by
  unfold Ghost.free_all
  have e : g.live.filter (fun q => decide (q.2 ∉ ([] : List Nat))) = g.live := by
    rw [List.filter_eq_self]
    intro a _
    simp
  rw [e]

/-- Releasing `p` and then the pointers of `rest` leaves the live objects whose
pointer is neither. -/
theorem Ghost.free_all_cons {st : State} {g : Ghost} (hinv : Inv st g) {c p : Nat}
    (hl : (c, p) ∈ g.live) (rest : List Nat) :
    (g.free c p).free_all rest = g.free_all (p :: rest) := by
  unfold Ghost.free_all Ghost.free
  simp only []
  rw [List.Nodup.erase_eq_filter hinv.live_nodup, List.filter_filter]
  congr 1
  apply List.filter_congr
  intro q hq
  by_cases hqp : q.2 = p
  · have hq2 : (q.1, p) ∈ g.live := by rw [← hqp]; exact hq
    have hc := hinv.live_cache hq2 hl
    have e : q = (c, p) := by rw [← hc, ← hqp]
    simp [e]
  · have e : q ≠ (c, p) := by
      intro e
      rw [e] at hqp
      exact hqp rfl
    simp [e, hqp]

/-- The release loop of the smoke test returns when the pointers are distinct live
objects, and releases exactly those. -/
theorem smoke_free_reach : ∀ (arr : List Nat) (st : State) (g : Ghost), Reach st g →
    (∀ p : Nat, p ∈ arr → ∃ c : Nat, (c, p) ∈ g.live) → arr.Nodup →
    ∃ st1 : State, smoke_free st arr = .ok st1 ∧ Reach st1 (g.free_all arr)
  | [], st, g, h, _, _ => ⟨st, rfl, by rw [Ghost.free_all_nil]; exact h⟩
  | p :: rest, st, g, h, hl, hnd => by
    obtain ⟨c, hc⟩ := hl p (List.mem_cons_self _ _)
    have hinv := h.inv
    obtain ⟨st2, _, hk, _⟩ := hinv.free_slot hc
    have h2 := Reach.kfree_slab st st2 g c p h hc hk
    have hnd2 := List.nodup_cons.1 hnd
    obtain ⟨st1, hf, hr⟩ := smoke_free_reach rest st2 (g.free c p) h2 (by
      intro p1 hp1
      obtain ⟨c1, hc1⟩ := hl p1 (List.mem_cons_of_mem _ hp1)
      refine ⟨c1, ?_⟩
      have hne : (c1, p1) ≠ (c, p) := by
        intro e
        injection e with _ e2
        rw [e2] at hp1
        exact hnd2.1 hp1
      show (c1, p1) ∈ g.live.erase (c, p)
      exact (List.mem_erase_of_ne hne).2 hc1) hnd2.2
    refine ⟨st1, ?_, ?_⟩
    · unfold smoke_free
      rw [hk]
      exact hf
    · rw [← Ghost.free_all_cons hinv hc rest]
      exact hr

set_option maxRecDepth 100000 in
theorem reach_boot64 : Reach st_boot64 ⟨[], [], []⟩ :=
  Reach.init st_boot64 (by decide) (by decide) (fun _ => rfl)

theorem reach_cls64 : Reach st_cls64 g_cls64 :=
  reach_kmalloc_init_caches size_classes 0 st_boot64 ⟨[], [], []⟩ reach_boot64
    (fun j _ => by simp) (by decide)

set_option maxRecDepth 100000 in
theorem smoke_alloc_boot64 : smoke_alloc 2000 1 st_cls64 [] = .ok (st_smoke, arr_smoke) := by
  have hlen : arr_smoke.length = 64 := by decide
  cases h : smoke_alloc 2000 1 st_cls64 [] with
  | error e =>
    have e0 : arr_smoke = [] := by
      unfold arr_smoke
      rw [h]
    rw [e0] at hlen
    cases hlen
  | ok r =>
    have e1 : st_smoke = r.1 := by
      unfold st_smoke
      rw [h]
      rfl
    have e2 : arr_smoke = r.2 := by
      unfold arr_smoke
      rw [h]
    rw [e1, e2]

set_option maxRecDepth 100000 in
/-- The smoke test on the boot state with 64 pages ends in a reachable state in
which the objects it did not store are still live. -/
theorem kmalloc_init_boot64 :
    ∃ st1 : State, kmalloc_init st_boot64 = .ok st1 ∧ Reach st1 g_init := by
  obtain ⟨hr, hl, hnd⟩ := smoke_alloc_reach 2000 1 st_cls64 [] g_cls64 st_smoke arr_smoke
    reach_cls64 (fun p hp => by cases hp) List.nodup_nil smoke_alloc_boot64
  obtain ⟨st1, hf, hr1⟩ := smoke_free_reach arr_smoke st_smoke g_smoke hr hl hnd
  refine ⟨st1, ?_, hr1⟩
  have e : kmalloc_init_caches st_boot64 size_classes 0 = st_cls64 := rfl
  unfold kmalloc_init
  rw [e, smoke_alloc_boot64]
  exact hf

set_option maxRecDepth 100000 in
/-- Claim C18 fails on the code. On a boot state with 64 free pages the allocation
loop of the smoke test of `kmalloc_init` allocates 65 objects (`s = 1, 32, ...,
1985`) and stores 64 of them, `arr` being full; the release loop releases the 64.
`kmalloc_init` returns, and the object of the last iteration, of the 2048-byte
class, is still allocated: the statistics of that class show one object in use
and its slab is not on the empty list. -/
theorem smoke_cycle_leaks :
    smoke_alloc 2000 1 st_cls64 [] = .ok (st_smoke, arr_smoke) ∧
    g_smoke.live.length = 65 ∧ arr_smoke.length = 64 ∧
    st_cls64.class_cache 8 = 0x87ff7000 ∧
    (0x87ff7000, 0x87fcb048) ∈ g_smoke.live ∧ 0x87fcb048 ∉ arr_smoke ∧
    ∃ st1 : State, kmalloc_init st_boot64 = .ok st1 ∧
      g_init.caches.map (fun c => (stats_of st1 c).used) = [1, 0, 0, 0, 0, 0, 0, 0, 0] ∧
      (stats_of st1 0x87ff7000).used = 1 ∧
      (st1.hdrs (0x87fcb048 - SIZEOF_HDR)).state = 1 ∧
      (st1.hdrs (0x87fcb048 - SIZEOF_HDR)).slab ∈ on_lists st1 0x87ff7000 ∧
      (st1.hdrs (0x87fcb048 - SIZEOF_HDR)).slab ∉ (st1.caches 0x87ff7000).empty := by
  refine ⟨smoke_alloc_boot64, by decide, by decide, by decide, by decide, by decide, ?_⟩
  obtain ⟨st1, hk, hr⟩ := kmalloc_init_boot64
  have hinv := hr.inv
  have hl : (0x87ff7000, 0x87fcb048) ∈ g_init.live := by decide
  obtain ⟨hc, s, fl, i0, hson, W, hi0, e, hnot, h72, hsl, hmag, hstate, hguard, hlt⟩ :=
    hinv.live_facts hl
  have hused : ∀ c : Nat, c ∈ g_init.caches →
      (stats_of st1 c).used = u32 (live_of g_init c) := fun c hc1 => hinv.stats_used hc1
  refine ⟨st1, hk, ?_, ?_, hstate, by rw [hsl]; exact hson, ?_⟩
  · rw [List.map_congr_left hused]
    decide
  · rw [hused _ hc]
    decide
  · rw [hsl]
    intro hem
    have := ((hinv.list_of_count hc hson).2.2).1 hem
    omega

end SlabAlloc
